import Mathlib

/-!
# tsc_timer: a shallow embedding of `src/tsc_timer.hpp`

The header wraps the TSCNS clock: a cycle counter is converted to nanoseconds
through an affine model `(base_tsc_, base_ns_, ns_per_tsc_)` that a calibrating
thread republishes behind a sequence counter.

Modelling conventions.

* `int64_t` values are `Int`s; every C++ `+`, `-`, `*` on them is followed by
  `wrap64` (two's complement wrap-around, which is what the x86-64 build does;
  the C++ standard leaves signed overflow undefined).
* `uint32_t` values are `Nat`s reduced modulo `2 ^ 32`.
* `double` values are the type `F64`: IEEE-754 binary64 with signed zeros,
  infinities and NaN, every operation rounded to nearest, ties to even.
* `(int64_t)x` for a double `x` truncates toward zero; outside the `int64_t`
  range (and for NaN and the infinities) it yields `-2 ^ 63`, the value the
  x86-64 conversion instruction produces (undefined in the C++ standard).
* The clocks are an environment `Env` holding the readings that successive
  `rdtsc()` and `rdsysns()` calls return.
* Loops that wait on something outside the function (`tsc2ns` on the sequence
  counter, `init` on the wall clock) are bounded by fuel or by the readings the
  environment holds.
-/

namespace TscTimer

/-! ## Machine integers -/

/-- Two's complement reduction of an integer to the `int64_t` range. -/
def wrap64 (x : Int) : Int := (x + 2 ^ 63) % 2 ^ 64 - 2 ^ 63

/-- Reduction of a natural number to the `uint32_t` range. -/
def wrap32 (x : Nat) : Nat := x % 2 ^ 32

/-- The `int64_t` range. -/
def InInt64 (x : Int) : Prop := -2 ^ 63 ≤ x ∧ x < 2 ^ 63

instance (x : Int) : Decidable (InInt64 x) := by unfold InInt64; infer_instance

/-! ## IEEE-754 binary64 -/

/-- Helper of `bits`: binary digits of `n`, at most `fuel` of them. -/
def bitsAux : Nat → Nat → Nat
  | 0, _ => 0
  | fuel + 1, n => if n = 0 then 0 else bitsAux fuel (n / 2) + 1

/-- Number of binary digits of `n` (`0` for `0`). -/
def bits (n : Nat) : Nat := bitsAux n n

/-- The natural number `2 ^ max e 0`. -/
def pow2n (e : Int) : Nat := 2 ^ e.toNat

/-- A binary64 value: a finite value `(-1)^neg * m * 2^e`, an infinity or NaN.
Values produced by the operations below have `m < 2 ^ 53`, `-1074 ≤ e ≤ 971`,
and `2 ^ 52 ≤ m` unless `e = -1074`; a zero is `fin neg 0 0`. -/
inductive F64 where
  | fin (neg : Bool) (m : Nat) (e : Int)
  | inf (neg : Bool)
  | nan
  deriving DecidableEq, Repr

namespace F64

/-- The rational value of a finite double (`0` for infinities and NaN). -/
def toRat : F64 → ℚ
  | fin neg m e => (if neg then -1 else 1) * (m : ℚ) * (2 : ℚ) ^ e
  | _ => 0

/-- Finite doubles. -/
def isFinite : F64 → Bool
  | fin _ _ _ => true
  | _ => false

/-- Integer part of the base-2 logarithm of `n / d`, for positive `n` and `d`. -/
def ilog2 (n d : Nat) : Int :=
  let k : Int := (bits n : Int) - (bits d : Int)
  if d * pow2n k ≤ n * pow2n (-k) then k else k - 1

/-- Nearest natural number to `n / d`, ties to the even one. -/
def roundNearestEven (n d : Nat) : Nat :=
  let q := n / d
  let r := n % d
  if 2 * r < d then q else if d < 2 * r then q + 1 else if q % 2 = 0 then q else q + 1

/-- The double nearest to `(-1)^neg * n / d` (ties to even), for `d > 0`:
53 significant bits, exponent at least `-1074`, overflow to infinity. -/
def round (neg : Bool) (n d : Nat) : F64 :=
  if n = 0 then fin neg 0 0
  else
    let e := max (ilog2 n d - 52) (-1074)
    let m := roundNearestEven (n * pow2n (-e)) (d * pow2n e)
    if m = 0 then fin neg 0 0
    else if m = 2 ^ 53 then (if 971 < e + 1 then inf neg else fin neg (2 ^ 52) (e + 1))
    else if 971 < e then inf neg else fin neg m e

/-- Conversion `(double)i` of an `int64_t`. -/
def ofInt (i : Int) : F64 := round (decide (i < 0)) i.natAbs 1

/-- Double negation. -/
def neg : F64 → F64
  | fin s m e => fin (!s) m e
  | inf s => inf (!s)
  | nan => nan

/-- Double multiplication. -/
def mul : F64 → F64 → F64
  | nan, _ => nan
  | _, nan => nan
  | inf s, inf t => inf (xor s t)
  | inf s, fin t k _ => if k = 0 then nan else inf (xor s t)
  | fin s m _, inf t => if m = 0 then nan else inf (xor s t)
  | fin s m e, fin t k f => round (xor s t) (m * k * pow2n (e + f)) (pow2n (-(e + f)))

/-- Double division. -/
def div : F64 → F64 → F64
  | nan, _ => nan
  | _, nan => nan
  | inf _, inf _ => nan
  | inf s, fin t _ _ => inf (xor s t)
  | fin s _ _, inf t => fin (xor s t) 0 0
  | fin s m e, fin t k f =>
    if k = 0 then (if m = 0 then nan else inf (xor s t))
    else round (xor s t) (m * pow2n (e - f)) (k * pow2n (f - e))

/-- Double addition. -/
def add : F64 → F64 → F64
  | nan, _ => nan
  | _, nan => nan
  | inf s, inf t => if s = t then inf s else nan
  | inf s, fin _ _ _ => inf s
  | fin _ _ _, inf t => inf t
  | fin s m e, fin t k f =>
    let g := min e f
    let a : Int := (if s then -1 else 1) * ((m * pow2n (e - g) : Nat) : Int)
    let b : Int := (if t then -1 else 1) * ((k * pow2n (f - g) : Nat) : Int)
    let c := a + b
    if c = 0 then fin (s && t) 0 0
    else round (decide (c < 0)) (c.natAbs * pow2n g) (pow2n (-g))

/-- Double subtraction. -/
def sub (a b : F64) : F64 := add a (neg b)

/-- The double `1.0`. -/
def one : F64 := fin false (2 ^ 52) (-52)

/-- The integer part of a finite double: its value with the fraction dropped
(`0` for infinities and NaN). -/
def trunc : F64 → Int
  | fin s m e =>
    let t : Int := ((m * pow2n e / pow2n (-e) : Nat) : Int)
    if s then -t else t
  | _ => 0

/-- Doubles whose integer part is an `int64_t`. -/
def fitsInt64 (x : F64) : Prop := x.isFinite = true ∧ InInt64 (trunc x)

instance (x : F64) : Decidable (fitsInt64 x) := by unfold fitsInt64; infer_instance

/-- Conversion `(int64_t)x`: truncation toward zero; `-2 ^ 63` when the
truncated value is not an `int64_t`. -/
def toInt64 (x : F64) : Int := if fitsInt64 x then trunc x else -2 ^ 63

/-- The sign factor of a sign bit. -/
def sgn (s : Bool) : ℚ := if s then -1 else 1

/-- The value of a double on the extended line: an infinity counts as
`±2 ^ 1024`, the first power of two that is not a double; NaN counts as `0`. -/
def ext : F64 → ℚ
  | fin s m e => sgn s * (m : ℚ) * (2 : ℚ) ^ e
  | inf s => sgn s * (2 : ℚ) ^ (1024 : Int)
  | nan => 0

/-- The C++ comparison `x > 0.0`. -/
def isPositive : F64 → Prop
  | fin s m _ => s = false ∧ 0 < m
  | inf s => s = false
  | nan => False

instance (x : F64) : Decidable (isPositive x) := by
  cases x <;> unfold isPositive <;> infer_instance

/-- The exponent `round` works at for `n / d`. -/
def rexp (n d : Nat) : Int := max (ilog2 n d - 52) (-1074)

/-- The significand `round` computes for `n / d`, before renormalisation. -/
def rmant (n d : Nat) : Nat :=
  roundNearestEven (n * pow2n (-(rexp n d))) (d * pow2n (rexp n d))

end F64

/-! ## Clocks -/

deriving instance DecidableEq for Except

/-- How a call can fail to return normally. -/
inductive Fault where
  /-- a C++ exception leaves the function -/
  | exception (what : String)
  /-- integer division trap (a zero divisor, or `INT64_MIN / -1`) -/
  | sigfpe
  /-- a loop has not finished: out of fuel, or out of clock readings -/
  | blocked
  deriving DecidableEq, Repr

/-- The clocks: the values that successive `rdtsc()` and `rdsysns()` calls
return, in call order. -/
structure Env where
  tsc : List Int
  ns : List Int
  deriving DecidableEq, Repr

/-- `TSCNS::rdtsc` (x86 build): the next cycle-counter reading. -/
def rdtsc (env : Env) : Except Fault (Int × Env) :=
  match env.tsc with
  | [] => .error .blocked
  | t :: rest => .ok (t, { env with tsc := rest })

/-- `TSCNS::rdsysns`: the next wall-clock reading, in nanoseconds. -/
def rdsysns (env : Env) : Except Fault (Int × Env) :=
  match env.ns with
  | [] => .error .blocked
  | t :: rest => .ok (t, { env with ns := rest })

/-- The number of wall-clock readings `N` of `syncTime` (non-MSVC build). -/
def syncN : Nat := 3

/-- The selection loop of `syncTime`: `best` starts at `1` and moves to every
`i` in `2 .. j - 1` whose bracket `tsc[i] - tsc[i - 1]` is strictly narrower. -/
def syncBest (tsc : List Int) (j : Nat) : Nat :=
  (List.range' 2 (j - 2)).foldl
    (fun best i =>
      if wrap64 (tsc.getD i 0 - tsc.getD (i - 1) 0)
          < wrap64 (tsc.getD best 0 - tsc.getD (best - 1) 0) then i else best)
    1

/-- `TSCNS::syncTime` (non-MSVC build): four cycle readings interleaved with
three wall-clock readings; returns `(tsc_out, ns_out)` and the clocks after. -/
def syncTime (env : Env) : Except Fault (Int × Int × Env) := do
  let (t0, env) ← rdtsc env
  let (n1, env) ← rdsysns env
  let (t1, env) ← rdtsc env
  let (n2, env) ← rdsysns env
  let (t2, env) ← rdtsc env
  let (n3, env) ← rdsysns env
  let (t3, env) ← rdtsc env
  let tsc := [t0, t1, t2, t3]
  let ns := [0, n1, n2, n3]
  let j := syncN + 1
  let best := syncBest tsc j
  let tsc_out := wrap64 (tsc.getD best 0 + tsc.getD (best - 1) 0) / 2
  let ns_out := ns.getD best 0
  return (tsc_out, ns_out, env)

/-! ## TSCNS -/

/-- The data members of `TSCNS`. -/
structure TSCNS where
  param_seq_ : Nat
  ns_per_tsc_ : F64
  base_tsc_ : Int
  base_ns_ : Int
  calibate_interval_ns_ : Int
  base_ns_err_ : Int
  next_calibrate_tsc_ : Int
  deriving DecidableEq, Repr

/-- The state of `TSCNS::saveParam` after its first `k` stores (`k = 0 .. 7`):
`base_ns_err_`, `next_calibrate_tsc_`, `param_seq_` (first increment),
`base_tsc_`, `base_ns_`, `ns_per_tsc_`, `param_seq_` (second increment). -/
def saveParamAt (k : Nat) (st : TSCNS) (base_tsc base_ns sys_ns : Int)
    (new_ns_per_tsc : F64) : TSCNS :=
  let s0 := st
  let s1 := if 1 ≤ k then { s0 with base_ns_err_ := wrap64 (base_ns - sys_ns) } else s0
  let s2 := if 2 ≤ k then
      { s1 with next_calibrate_tsc_ := wrap64 (base_tsc + F64.toInt64
          (F64.div (F64.ofInt (wrap64 (s1.calibate_interval_ns_ - 1000))) new_ns_per_tsc)) }
    else s1
  let seq := st.param_seq_
  let seq1 := wrap32 (seq + 1)
  let s3 := if 3 ≤ k then { s2 with param_seq_ := seq1 } else s2
  let s4 := if 4 ≤ k then { s3 with base_tsc_ := base_tsc } else s3
  let s5 := if 5 ≤ k then { s4 with base_ns_ := base_ns } else s4
  let s6 := if 6 ≤ k then { s5 with ns_per_tsc_ := new_ns_per_tsc } else s5
  let seq2 := wrap32 (seq1 + 1)
  if 7 ≤ k then { s6 with param_seq_ := seq2 } else s6

/-- `TSCNS::saveParam`: all seven stores. -/
def saveParam (st : TSCNS) (base_tsc base_ns sys_ns : Int) (new_ns_per_tsc : F64) : TSCNS :=
  saveParamAt 7 st base_tsc base_ns sys_ns new_ns_per_tsc

/-- The loads of one pass of the `tsc2ns` loop: the sequence counter, the three
parameters, the sequence counter again. -/
structure Loads where
  seq1 : Nat
  base_tsc : Int
  base_ns : Int
  ns_per_tsc : F64
  seq2 : Nat
  deriving DecidableEq, Repr

/-- One pass of the loop of `TSCNS::tsc2ns`: the value returned, or `none` when
the pass is retried. -/
def tsc2nsPass (l : Loads) (tsc : Int) : Option Int :=
  let before_seq := l.seq1 &&& 0xFFFFFFFE
  let ns := wrap64 (l.base_ns
    + F64.toInt64 (F64.mul (F64.ofInt (wrap64 (tsc - l.base_tsc))) l.ns_per_tsc))
  let after_seq := l.seq2
  if before_seq = after_seq then some ns else none

/-- The value `ns` that a pass of `tsc2ns` computes from the parameters of `st`. -/
def nsValue (st : TSCNS) (tsc : Int) : Int :=
  wrap64 (st.base_ns_
    + F64.toInt64 (F64.mul (F64.ofInt (wrap64 (tsc - st.base_tsc_))) st.ns_per_tsc_))

/-- The loop of `TSCNS::tsc2ns`, one element of the list per pass. -/
def tsc2nsLoop : List Loads → Int → Except Fault Int
  | [], _ => .error .blocked
  | l :: rest, tsc =>
    match tsc2nsPass l tsc with
    | some ns => .ok ns
    | none => tsc2nsLoop rest tsc

/-- What a pass loads when nothing is stored during the pass. -/
def TSCNS.loads (st : TSCNS) : Loads :=
  { seq1 := st.param_seq_, base_tsc := st.base_tsc_, base_ns := st.base_ns_,
    ns_per_tsc := st.ns_per_tsc_, seq2 := st.param_seq_ }

/-- `TSCNS::tsc2ns` with no concurrent store, at most `fuel` passes. -/
def tsc2ns (fuel : Nat) (st : TSCNS) (tsc : Int) : Except Fault Int :=
  tsc2nsLoop (List.replicate fuel st.loads) tsc

/-- `TSCNS::rdns`. -/
def rdns (fuel : Nat) (st : TSCNS) (env : Env) : Except Fault (Int × Env) := do
  let (tsc, env) ← rdtsc env
  let ns ← tsc2ns fuel st tsc
  return (ns, env)

/-- C++ `a / b` on `int64_t`: quotient truncated toward zero; a trap when `b`
is zero or the quotient is not an `int64_t`. -/
def idiv64 (a b : Int) : Except Fault Int :=
  if b = 0 ∨ (a = -2 ^ 63 ∧ b = -1) then .error .sigfpe else .ok (Int.tdiv a b)

/-- The wait loop of `init`: wall-clock readings are taken until one is not
below `expire_ns`; `none` when every reading the clock holds is below it. -/
def waitUntil (expire_ns : Int) : List Int → Option (List Int)
  | [] => none
  | r :: rest => if r < expire_ns then waitUntil expire_ns rest else some rest

/-- `TSCNS::init`. -/
def init (st : TSCNS) (env : Env) (init_calibrate_ns calibrate_interval_ns : Int) :
    Except Fault (TSCNS × Env) := do
  let st := { st with calibate_interval_ns_ := calibrate_interval_ns }
  let (base_tsc, base_ns, env) ← syncTime env
  let expire_ns := wrap64 (base_ns + init_calibrate_ns)
  match waitUntil expire_ns env.ns with
  | none => .error .blocked
  | some rest =>
    let env := { env with ns := rest }
    let (delayed_tsc, delayed_ns, env) ← syncTime env
    let init_ns_per_tsc := F64.div (F64.ofInt (wrap64 (delayed_ns - base_ns)))
      (F64.ofInt (wrap64 (delayed_tsc - base_tsc)))
    return (saveParam st base_tsc base_ns base_ns init_ns_per_tsc, env)

/-- `TSCNS::calibrate`. -/
def calibrate (fuel : Nat) (st : TSCNS) (env : Env) : Except Fault (TSCNS × Env) := do
  let (now, env) ← rdtsc env
  if now < st.next_calibrate_tsc_ then return (st, env)
  let (tsc, ns, env) ← syncTime env
  let calulated_ns ← tsc2ns fuel st tsc
  let ns_err := wrap64 (calulated_ns - ns)
  let quot ← idiv64 (wrap64 (wrap64 (ns_err - st.base_ns_err_) * st.calibate_interval_ns_))
    (wrap64 (wrap64 (ns - st.base_ns_) + st.base_ns_err_))
  let expected_err_at_next_calibration := wrap64 (ns_err + quot)
  let new_ns_per_tsc := F64.mul st.ns_per_tsc_
    (F64.sub F64.one (F64.div (F64.ofInt expected_err_at_next_calibration)
      (F64.ofInt st.calibate_interval_ns_)))
  return (saveParam st tsc calulated_ns ns new_ns_per_tsc, env)

/-! ## tsc_timer -/

/-- Default `init_calibrate_ns` of `TSCNS::init`. -/
def defaultInitCalibrateNs : Int := 20000000

/-- Default `calibrate_interval_ns` of `TSCNS::init`: `3 * NsPerSec`. -/
def defaultCalibrateIntervalNs : Int := 3 * 1000000000

/-- The calibration part of the `tsc_timer` constructor: `tscns_.init()`. -/
def tsc_timer (st : TSCNS) (env : Env) : Except Fault (TSCNS × Env) :=
  init st env defaultInitCalibrateNs defaultCalibrateIntervalNs

/-- `tsc_timer::current_ns`. -/
def current_ns (fuel : Nat) (st : TSCNS) (env : Env) : Except Fault (Int × Env) :=
  rdns fuel st env

/-- `tsc_timer::cpu_to_ns`. -/
def cpu_to_ns (fuel : Nat) (st : TSCNS) (tsc : Int) : Except Fault Int :=
  tsc2ns fuel st tsc

/-- `tsc_timer::cpu_to_ns_vector`: the vector after the call (converted in
place, element by element) and the fault that stopped the loop, if any. -/
def cpu_to_ns_vector (fuel : Nat) (st : TSCNS) : List Int → List Int × Option Fault
  | [] => ([], none)
  | t :: rest =>
    match cpu_to_ns fuel st t with
    | .error f => (t :: rest, some f)
    | .ok v =>
      let r := cpu_to_ns_vector fuel st rest
      (v :: r.1, r.2)

/-- Two vectors after a call, and the fault that ended the call, if any. -/
structure VecRun where
  tsc_start : List Int
  tsc_end : List Int
  fault : Option Fault
  deriving DecidableEq, Repr

/-- The message of the exception of `ns_duration_vector`. -/
def sizeMismatch : String := "Vectors tsc_start and tsc_end must have the same size"

/-- `tsc_timer::ns_duration_vector` on two distinct vectors. -/
def ns_duration_vector (fuel : Nat) (st : TSCNS) (tsc_start tsc_end : List Int) : VecRun :=
  if tsc_start.length ≠ tsc_end.length then
    { tsc_start := tsc_start, tsc_end := tsc_end, fault := some (.exception sizeMismatch) }
  else
    match cpu_to_ns_vector fuel st tsc_start with
    | (s1, some f) => { tsc_start := s1, tsc_end := tsc_end, fault := some f }
    | (s1, none) =>
      match cpu_to_ns_vector fuel st tsc_end with
      | (e1, some f) => { tsc_start := s1, tsc_end := e1, fault := some f }
      | (e1, none) =>
        { tsc_start := (List.range s1.length).map
            (fun i => wrap64 (e1.getD i 0 - s1.getD i 0)),
          tsc_end := e1, fault := none }

/-! ## Vocabulary of the statements -/

/-- No write is in progress: the sequence counter is an even `uint32_t`. -/
def Stable (st : TSCNS) : Prop := st.param_seq_ < 2 ^ 32 ∧ st.param_seq_ % 2 = 0

instance (st : TSCNS) : Decidable (Stable st) := by unfold Stable; infer_instance

/-- The affine value `base_ns_ + (c - base_tsc_) * ns_per_tsc_`, computed
exactly over the rationals. -/
def affine (st : TSCNS) (c : Int) : ℚ :=
  (st.base_ns_ : ℚ) + ((c : ℚ) - (st.base_tsc_ : ℚ)) * st.ns_per_tsc_.toRat

/-- The `int64_t` arithmetic of `tsc2ns(c)` stays in range: the difference
`c - base_tsc_`, the truncated product and the final sum are all `int64_t`. -/
def NoOverflow (st : TSCNS) (c : Int) : Prop :=
  InInt64 (c - st.base_tsc_)
  ∧ F64.fitsInt64 (F64.mul (F64.ofInt (c - st.base_tsc_)) st.ns_per_tsc_)
  ∧ InInt64 (st.base_ns_ + F64.trunc (F64.mul (F64.ofInt (c - st.base_tsc_)) st.ns_per_tsc_))

instance (st : TSCNS) (c : Int) : Decidable (NoOverflow st c) := by
  unfold NoOverflow; infer_instance

/-- The double `0.5`. -/
def F64.half : F64 := F64.fin false (2 ^ 52) (-53)

/-- The value `expected_err_at_next_calibration` that `calibrate` computes from
the wall-clock sample `ns` and the value `calulated_ns` of `tsc2ns(tsc)`. -/
def projectedErr (st : TSCNS) (calulated_ns ns : Int) : Except Fault Int := do
  let ns_err := wrap64 (calulated_ns - ns)
  let quot ← idiv64 (wrap64 (wrap64 (ns_err - st.base_ns_err_) * st.calibate_interval_ns_))
    (wrap64 (wrap64 (ns - st.base_ns_) + st.base_ns_err_))
  return wrap64 (ns_err + quot)

/-- The value `new_ns_per_tsc` that `calibrate` computes from the projected
error. -/
def correctedSlope (st : TSCNS) (expected_err : Int) : F64 :=
  F64.mul st.ns_per_tsc_
    (F64.sub F64.one (F64.div (F64.ofInt expected_err) (F64.ofInt st.calibate_interval_ns_)))

/-- The states of a `TSCNS` object between calls: a new object has
`param_seq_ = 0` (its other members are not initialised), and `init` and
`calibrate` calls that return lead from one such state to the next. -/
inductive Reachable : TSCNS → Prop where
  | fresh (st : TSCNS) : st.param_seq_ = 0 → Reachable st
  | init {st st' : TSCNS} {env env' : Env} {a b : Int} :
      Reachable st → init st env a b = .ok (st', env') → Reachable st'
  | calibrate {fuel : Nat} {st st' : TSCNS} {env env' : Env} :
      Reachable st → calibrate fuel st env = .ok (st', env') → Reachable st'

/-! ## One writer and one reader

The calibrating thread is the only writer. Its stores reach memory one at a
time, in program order, and each load of a reader returns the value in memory
at that moment (a sequentially consistent interleaving of the writer's stores
with the reader's loads, which is what x86-64 gives once the compiler keeps the
program order, as the signal fences make it do). Time is counted in stores of
the writer. -/

/-- The arguments of one `saveParam` call. -/
structure Args where
  base_tsc : Int
  base_ns : Int
  sys_ns : Int
  new_ns_per_tsc : F64

/-- The object after the writer has completed `j` `saveParam` calls, call `i`
with arguments `calls i`. -/
def afterCalls (st0 : TSCNS) (calls : Nat → Args) : Nat → TSCNS
  | 0 => st0
  | j + 1 => saveParam (afterCalls st0 calls j) (calls j).base_tsc (calls j).base_ns
      (calls j).sys_ns (calls j).new_ns_per_tsc

/-- The object after the writer has performed `t` stores: `t / 7` complete
`saveParam` calls and the first `t % 7` stores of the next one. -/
def memAt (st0 : TSCNS) (calls : Nat → Args) (t : Nat) : TSCNS :=
  saveParamAt (t % 7) (afterCalls st0 calls (t / 7)) (calls (t / 7)).base_tsc
    (calls (t / 7)).base_ns (calls (t / 7)).sys_ns (calls (t / 7)).new_ns_per_tsc

/-- When the five loads of one pass of `tsc2ns` happen, counted in stores of the
writer performed before the load. -/
structure PassTimes where
  seq1 : Nat
  base_tsc : Nat
  base_ns : Nat
  ns_per_tsc : Nat
  seq2 : Nat

/-- Program order of a pass: the first load of the counter, then the three
parameters in any order, then the second load of the counter. -/
def PassTimes.Ordered (p : PassTimes) : Prop :=
  p.seq1 ≤ p.base_tsc ∧ p.seq1 ≤ p.base_ns ∧ p.seq1 ≤ p.ns_per_tsc
    ∧ p.base_tsc ≤ p.seq2 ∧ p.base_ns ≤ p.seq2 ∧ p.ns_per_tsc ≤ p.seq2

instance (p : PassTimes) : Decidable p.Ordered := by unfold PassTimes.Ordered; infer_instance

/-- What a pass loads when its loads happen at the times `p`. -/
def passLoads (st0 : TSCNS) (calls : Nat → Args) (p : PassTimes) : Loads :=
  { seq1 := (memAt st0 calls p.seq1).param_seq_,
    base_tsc := (memAt st0 calls p.base_tsc).base_tsc_,
    base_ns := (memAt st0 calls p.base_ns).base_ns_,
    ns_per_tsc := (memAt st0 calls p.ns_per_tsc).ns_per_tsc_,
    seq2 := (memAt st0 calls p.seq2).param_seq_ }

/-- The number of `saveParam` calls that have stored `base_tsc_` (their fourth
store) among the first `t` stores: a load at time `t` returns the value stored
by the call of that number, or the initial value when it is `0`. -/
def writerOfBaseTsc (t : Nat) : Nat := (t + 3) / 7

/-- The number of `saveParam` calls that have stored `base_ns_` (their fifth
store) among the first `t` stores. -/
def writerOfBaseNs (t : Nat) : Nat := (t + 2) / 7

/-- The number of `saveParam` calls that have stored `ns_per_tsc_` (their sixth
store) among the first `t` stores. -/
def writerOfNsPerTsc (t : Nat) : Nat := (t + 1) / 7

/-- A writer that repeats the `saveParam` call of the calibration on
`steadyClock`. -/
def steadyCalls : Nat → Args :=
  fun _ => { base_tsc := 3000001150, base_ns := 3000001150, sys_ns := 3000001450,
             new_ns_per_tsc := F64.fin false 4503600526589222 (-52) }

/-- A pass that loads the counter and `base_tsc_` before the writer's first
store, and `base_ns_`, `ns_per_tsc_` and the counter again after the writer has
completed `2 ^ 31` `saveParam` calls (`7 * 2 ^ 31` stores). -/
def wrappedPass : PassTimes :=
  { seq1 := 0, base_tsc := 0, base_ns := 15032385536, ns_per_tsc := 15032385536,
    seq2 := 15032385536 }

/-- A pass that starts after the writer's fifth store, inside its first
`saveParam` call, and is retried; and a second pass after the call. -/
def racingPasses : List PassTimes :=
  [{ seq1 := 5, base_tsc := 5, base_ns := 6, ns_per_tsc := 6, seq2 := 7 },
   { seq1 := 7, base_tsc := 7, base_ns := 8, ns_per_tsc := 8, seq2 := 9 }]


/-- A new `TSCNS` object: `param_seq_ = 0`; the other members, which the class
does not initialise, are given arbitrary values. -/
def freshTSCNS : TSCNS :=
  { param_seq_ := 0, ns_per_tsc_ := F64.nan, base_tsc_ := 0, base_ns_ := 0,
    calibate_interval_ns_ := 0, base_ns_err_ := 0, next_calibrate_tsc_ := 0 }

/-- Clock readings of a 1 GHz counter, in call order. The first seven
(`1000 .. 1300` cycles, `1050 .. 1250` ns) serve the first `syncTime` of `init`,
the wall-clock reading `20001100` ends its wait, the next seven serve its
second `syncTime`. Three seconds of cycles later a reader takes the cycle
reading `3000000900`, a `calibrate` call takes the next five cycle readings and
three wall-clock readings, and a reader takes the cycle reading `3000001500`.
By the time of the `calibrate` call the wall clock has been set back by two
seconds (it still reads more than at any earlier sample). -/
def steppedClock : Env :=
  { tsc := [1000, 1100, 1200, 1300, 20001200, 20001300, 20001400, 20001500,
            3000000900, 3000001000, 3000001100, 3000001200, 3000001300, 3000001400,
            3000001500],
    ns := [1050, 1150, 1250, 20001100, 20001250, 20001350, 20001450,
           1000001150, 1000001250, 1000001350] }

/-- The readings of `steppedClock` left after the first `syncTime` of `init`. -/
def steppedClockInInit : Env :=
  { tsc := [20001200, 20001300, 20001400, 20001500,
            3000000900, 3000001000, 3000001100, 3000001200, 3000001300, 3000001400,
            3000001500],
    ns := [20001100, 20001250, 20001350, 20001450, 1000001150, 1000001250, 1000001350] }

/-- The readings of `steppedClock` left after `init`. -/
def steppedClockAfterInit : Env :=
  { tsc := [3000000900, 3000001000, 3000001100, 3000001200, 3000001300, 3000001400,
            3000001500],
    ns := [1000001150, 1000001250, 1000001350] }

/-- The readings of `steppedClock` left after `init` and one read. -/
def steppedClockAfterRead : Env :=
  { tsc := [3000001000, 3000001100, 3000001200, 3000001300, 3000001400, 3000001500],
    ns := [1000001150, 1000001250, 1000001350] }

/-- The readings of `steppedClock` left after `init`, one read and one
`calibrate`. -/
def steppedClockAfterCalibrate : Env := { tsc := [3000001500], ns := [] }

/-- The readings of a `calibrate` call three seconds of cycles after `init` on a
wall clock that was not set back and runs `300` ns ahead of the model. -/
def steadyClock : Env :=
  { tsc := [3000001000, 3000001100, 3000001200, 3000001300, 3000001400],
    ns := [3000001450, 3000001550, 3000001650] }

/-- The state the `calibrate` call reaches from `afterInit` on `steadyClock`:
the slope is `4503600526589222 / 2 ^ 52`, about `1.0000002`. -/
def afterSteadyCalibrate : TSCNS :=
  { param_seq_ := 4, ns_per_tsc_ := F64.fin false 4503600526589222 (-52),
    base_tsc_ := 3000001150, base_ns_ := 3000001150,
    calibate_interval_ns_ := 3000000000, base_ns_err_ := -300,
    next_calibrate_tsc_ := 5999999551 }

/-- The state `init()` reaches on `steppedClock`: slope `1.0`. -/
def afterInit : TSCNS :=
  { param_seq_ := 2, ns_per_tsc_ := F64.one, base_tsc_ := 1050, base_ns_ := 1050,
    calibate_interval_ns_ := 3000000000, base_ns_err_ := 0,
    next_calibrate_tsc_ := 3000000050 }

/-- The state the `calibrate` call reaches on `steppedClock`: the slope is
`-7505998478230902 / 2 ^ 52`, about `-1.67`. -/
def afterCalibrate : TSCNS :=
  { param_seq_ := 4, ns_per_tsc_ := F64.fin true 7505998478230902 (-52),
    base_tsc_ := 3000001150, base_ns_ := 3000001150,
    calibate_interval_ns_ := 3000000000, base_ns_err_ := 2000000000,
    next_calibrate_tsc_ := 1200001535 }

/-- A published snapshot of a 2 GHz counter: `ns_per_tsc_ = 0.5`, anchored at
cycle `1000` and `5000` ns, calibration interval of 3 s. -/
def snapshotHalf : TSCNS :=
  { param_seq_ := 2, ns_per_tsc_ := F64.half, base_tsc_ := 1000, base_ns_ := 5000,
    calibate_interval_ns_ := 3000000000, base_ns_err_ := 0,
    next_calibrate_tsc_ := 5999999000 }

/-! ## Further vocabulary -/

/-- `tsc_timer::ns_duration_vector` called with one vector as both arguments:
`tsc_start` and `tsc_end` name the same object, so the vector is converted
twice in place and every element is then replaced by its difference with
itself. -/
def ns_duration_vector_same (fuel : Nat) (st : TSCNS) (v : List Int) :
    List Int × Option Fault :=
  match cpu_to_ns_vector fuel st v with
  | (v1, some f) => (v1, some f)
  | (v1, none) =>
    match cpu_to_ns_vector fuel st v1 with
    | (v2, some f) => (v2, some f)
    | (v2, none) =>
      ((List.range v2.length).map (fun i => wrap64 (v2.getD i 0 - v2.getD i 0)), none)

/-- The loads of a pass whose first read of the counter is the odd value `5`
and whose second read is `4`, on the parameters of `snapshotHalf`. -/
def oddFirstRead : Loads :=
  { seq1 := 5, base_tsc := 1000, base_ns := 5000, ns_per_tsc := F64.half, seq2 := 4 }

/-- The width of bracket `i` of `syncTime`: the `int64_t` difference
`tsc[i] - tsc[i - 1]`. -/
def bracketWidth (tsc : List Int) (i : Nat) : Int :=
  wrap64 (tsc.getD i 0 - tsc.getD (i - 1) 0)

/-- The clock sample `(tsc, ns)` that a `calibrate` call takes: `none` when the
call returns at once or the clocks run out of readings. -/
def calibrateSample (st : TSCNS) (env : Env) : Option (Int × Int) :=
  match rdtsc env with
  | .error _ => none
  | .ok (now, env1) =>
    if now < st.next_calibrate_tsc_ then none
    else
      match syncTime env1 with
      | .error _ => none
      | .ok (tsc, ns, _) => some (tsc, ns)

/-- The states reached by `init` followed by `calibrate` calls, each with the
wall-clock value of the clock sample of its last publish. -/
inductive PublishedWith : TSCNS → Int → Prop where
  | init {st0 st : TSCNS} {env env' env1 : Env} {a b bt bn : Int} :
      init st0 env a b = .ok (st, env') → syncTime env = .ok (bt, bn, env1) →
      PublishedWith st bn
  | calibrate {fuel : Nat} {st st' : TSCNS} {env env' : Env} {sys : Int} :
      PublishedWith st sys → calibrate fuel st env = .ok (st', env') →
      PublishedWith st' (match calibrateSample st env with
        | some (_, ns) => ns
        | none => sys)

/-- The projection of C15 in the words of the specification: with `err` the
error `calulated_ns - ns` of the new sample and `prev_ns` the wall-clock value
of the previous sample, `err + (err - base_ns_err_) * calibate_interval_ns_ /
(ns - prev_ns)` in `int64_t` arithmetic. -/
def projectedErrSince (st : TSCNS) (prev_ns calulated_ns ns : Int) : Except Fault Int := do
  let err := wrap64 (calulated_ns - ns)
  let quot ← idiv64 (wrap64 (wrap64 (err - st.base_ns_err_) * st.calibate_interval_ns_))
    (wrap64 (ns - prev_ns))
  return wrap64 (err + quot)

/-! ## Statistics -/

namespace F64

/-- The double `0.0`. -/
def zero : F64 := fin false 0 0

/-- Helper of `isqrt`: the integer square root of `n`, for `n < 4 ^ fuel`. -/
def isqrtAux : Nat → Nat → Nat
  | 0, _ => 0
  | fuel + 1, n =>
    if n = 0 then 0
    else
      let r := 2 * isqrtAux fuel (n / 4)
      if (r + 1) * (r + 1) ≤ n then r + 1 else r

/-- The integer square root: the largest `r` with `r * r ≤ n`. -/
def isqrt (n : Nat) : Nat := isqrtAux (bits n) n

/-- `std::sqrt` on doubles: the double nearest to the square root (ties to
even); NaN for a negative argument, and the argument itself for a zero. The
significand is scaled to at least 107 bits, so that the integer root `r` has at
least 54 bits and `r`, with a half added when the root is not exact, rounds as
the root itself does. -/
def sqrt : F64 → F64
  | nan => nan
  | inf s => if s then nan else inf false
  | fin s m e =>
    if m = 0 then fin s 0 0
    else if s then nan
    else
      let k : Nat := ((107 - e) / 2).toNat
      let n := m * pow2n (e + 2 * k)
      let r := isqrt n
      round false (2 * r + (if r * r = n then 0 else 1)) (2 ^ (k + 1))

end F64

/-- The message of the exception of `mean_and_std`. -/
def emptyInput : String := "The input vector is empty."

/-- The function `mean_and_std`: the mean and the population standard
deviation of `data`, in double arithmetic. `std::accumulate` starts from `0.0`
and adds the elements from the left, each converted to double; the variance
loop adds the squared deviations from the left; every operation rounds once. -/
def mean_and_std (data : List Int) : Except Fault (F64 × F64) :=
  if data.isEmpty then .error (.exception emptyInput)
  else
    let mean := F64.div (data.foldl (fun acc v => F64.add acc (F64.ofInt v)) F64.zero)
      (F64.ofInt data.length)
    let variance := data.foldl
      (fun variance value =>
        F64.add variance
          (F64.mul (F64.sub (F64.ofInt value) mean) (F64.sub (F64.ofInt value) mean)))
      F64.zero
    let variance := F64.div variance (F64.ofInt data.length)
    let std_dev := F64.sqrt variance
    .ok (mean, std_dev)

/-- The mean in the words of the claim: the sum of `d` divided by its length,
as a rational. -/
def exactMean (d : List Int) : ℚ := (d.sum : ℚ) / (d.length : ℚ)

/-- The population variance in the words of the claim: the sum of the squared
deviations from the mean, divided by the length, as a rational. -/
def populationVariance (d : List Int) : ℚ :=
  (d.map (fun x : Int => ((x : ℚ) - exactMean d) ^ 2)).sum / (d.length : ℚ)

namespace F64

/-- A value that is zero or in the normal range of the doubles. -/
def InRange (val : ℚ) : Prop :=
  val = 0 ∨ ((2 : ℚ) ^ (-1022 : Int) ≤ |val| ∧ |val| ≤ (2 : ℚ) ^ (1000 : Int))

/-- The double `x` is `val` rounded: finite, within the relative error
`2 ^ -53`, and a multiple of `2 ^ (g - 52)` when `val` is at least `2 ^ g`. -/
def Rounds (x : F64) (val : ℚ) : Prop :=
  x.isFinite = true ∧ |ext x - val| ≤ 1 / 2 ^ 53 * |val|
    ∧ ∀ g : Int, -1022 ≤ g → (2 : ℚ) ^ g ≤ |val| →
        ∃ K : Int, ext x = (K : ℚ) * (2 : ℚ) ^ (g - 52)

end F64

/-! ## Rounding: auxiliary facts -/

theorem pow2n_pos (e : Int) : 0 < pow2n e := by
  unfold pow2n; positivity

theorem pow2n_of_nonneg {e : Int} (h : 0 ≤ e) : ((pow2n e : Nat) : ℚ) = (2 : ℚ) ^ e := by
  unfold pow2n
  rw [Nat.cast_pow, Nat.cast_ofNat, ← zpow_natCast, Int.toNat_of_nonneg h]

theorem pow2n_of_nonpos {e : Int} (h : e ≤ 0) : pow2n e = 1 := by
  unfold pow2n
  rw [Int.toNat_eq_zero.mpr h, pow_zero]

/-- `pow2n e / pow2n (-e)` is `2 ^ e`. -/
theorem pow2n_cast (e : Int) :
    ((pow2n e : Nat) : ℚ) = (2 : ℚ) ^ e * ((pow2n (-e) : Nat) : ℚ) := by
  rcases le_total 0 e with h | h
  · rw [pow2n_of_nonneg h, pow2n_of_nonpos (by omega : -e ≤ 0)]; simp
  · rw [pow2n_of_nonpos h, pow2n_of_nonneg (by omega : 0 ≤ -e), ← zpow_add₀ (by norm_num)]
    simp

theorem bitsAux_zero (fuel : Nat) : bitsAux fuel 0 = 0 := by
  cases fuel <;> simp [bitsAux]

theorem bitsAux_spec : ∀ (fuel n : Nat), n ≤ fuel → 0 < n →
    2 ^ (bitsAux fuel n - 1) ≤ n ∧ n < 2 ^ bitsAux fuel n := by
  intro fuel
  induction fuel with
  | zero => intro n h1 h2; omega
  | succ f ih =>
    intro n h1 h2
    have hn : n ≠ 0 := by omega
    simp only [bitsAux, hn, if_false, Nat.add_sub_cancel]
    rcases Nat.eq_zero_or_pos (n / 2) with h0 | hpos
    · rw [h0, bitsAux_zero]
      have : n = 1 := by omega
      subst this; simp
    · have hle : n / 2 ≤ f := by omega
      obtain ⟨ha, hb⟩ := ih (n / 2) hle hpos
      have hb1 : 1 ≤ bitsAux f (n / 2) := by
        rcases Nat.eq_zero_or_pos (bitsAux f (n / 2)) with hz | hp
        · rw [hz] at hb; simp at hb; omega
        · exact hp
      have e1 : 2 ^ bitsAux f (n / 2) = 2 * 2 ^ (bitsAux f (n / 2) - 1) := by
        rw [← pow_succ']; congr 1; omega
      constructor
      · rw [e1]; omega
      · rw [pow_succ]; omega

theorem bits_spec {n : Nat} (h : 0 < n) : 2 ^ (bits n - 1) ≤ n ∧ n < 2 ^ bits n :=
  bitsAux_spec n n le_rfl h

theorem bits_pos {n : Nat} (h : 0 < n) : 1 ≤ bits n := by
  rcases Nat.eq_zero_or_pos (bits n) with hz | hp
  · have := (bits_spec h).2; rw [hz] at this; simp at this; omega
  · exact hp

namespace F64

/-- The comparison made by `ilog2`, read over the rationals. -/
theorem scaled_le_iff (n d : Nat) (k : Int) :
    d * pow2n k ≤ n * pow2n (-k) ↔ ((d : ℚ) * (2 : ℚ) ^ k ≤ (n : ℚ)) := by
  have hp : (0 : ℚ) < ((pow2n (-k) : Nat) : ℚ) := by exact_mod_cast pow2n_pos (-k)
  rw [← Nat.cast_le (α := ℚ), Nat.cast_mul, Nat.cast_mul, pow2n_cast k, ← mul_assoc]
  exact mul_le_mul_right hp

/-- `ilog2 n d` is the integer part of the binary logarithm of `n / d`. -/
theorem ilog2_spec {n d : Nat} (hn : 0 < n) (hd : 0 < d) :
    (d : ℚ) * (2 : ℚ) ^ (ilog2 n d) ≤ (n : ℚ) ∧ (n : ℚ) < (d : ℚ) * (2 : ℚ) ^ (ilog2 n d + 1) := by
  obtain ⟨n1, n2⟩ := bits_spec hn
  obtain ⟨d1, d2⟩ := bits_spec hd
  have bn := bits_pos hn
  have bd := bits_pos hd
  have hdq : (0 : ℚ) < d := by exact_mod_cast hd
  have n1q : (2 : ℚ) ^ ((bits n : Int) - 1) ≤ n := by
    have : ((2 ^ (bits n - 1) : Nat) : ℚ) ≤ n := by exact_mod_cast n1
    rw [Nat.cast_pow, Nat.cast_ofNat, ← zpow_natCast] at this
    rwa [show ((bits n - 1 : Nat) : Int) = (bits n : Int) - 1 by omega] at this
  have n2q : (n : ℚ) < (2 : ℚ) ^ (bits n : Int) := by
    have : (n : ℚ) < ((2 ^ bits n : Nat) : ℚ) := by exact_mod_cast n2
    rwa [Nat.cast_pow, Nat.cast_ofNat, ← zpow_natCast] at this
  have d1q : (2 : ℚ) ^ ((bits d : Int) - 1) ≤ d := by
    have : ((2 ^ (bits d - 1) : Nat) : ℚ) ≤ d := by exact_mod_cast d1
    rw [Nat.cast_pow, Nat.cast_ofNat, ← zpow_natCast] at this
    rwa [show ((bits d - 1 : Nat) : Int) = (bits d : Int) - 1 by omega] at this
  have d2q : (d : ℚ) < (2 : ℚ) ^ (bits d : Int) := by
    have : (d : ℚ) < ((2 ^ bits d : Nat) : ℚ) := by exact_mod_cast d2
    rwa [Nat.cast_pow, Nat.cast_ofNat, ← zpow_natCast] at this
  have two : (2 : ℚ) ≠ 0 := by norm_num
  -- upper bound: n < d * 2 ^ (k + 1)
  have up : (n : ℚ) < (d : ℚ) * (2 : ℚ) ^ ((bits n : Int) - (bits d : Int) + 1) := by
    have e : (2 : ℚ) ^ (bits n : Int)
        = (2 : ℚ) ^ ((bits d : Int) - 1) * (2 : ℚ) ^ ((bits n : Int) - (bits d : Int) + 1) := by
      rw [← zpow_add₀ two]; congr 1; ring
    calc (n : ℚ) < (2 : ℚ) ^ (bits n : Int) := n2q
      _ = (2 : ℚ) ^ ((bits d : Int) - 1) * (2 : ℚ) ^ ((bits n : Int) - (bits d : Int) + 1) := e
      _ ≤ (d : ℚ) * (2 : ℚ) ^ ((bits n : Int) - (bits d : Int) + 1) :=
        mul_le_mul_of_nonneg_right d1q (by positivity)
  -- lower bound: d * 2 ^ (k - 1) < n
  have lo : (d : ℚ) * (2 : ℚ) ^ ((bits n : Int) - (bits d : Int) - 1) < (n : ℚ) := by
    have e : (2 : ℚ) ^ ((bits n : Int) - 1)
        = (2 : ℚ) ^ (bits d : Int) * (2 : ℚ) ^ ((bits n : Int) - (bits d : Int) - 1) := by
      rw [← zpow_add₀ two]; congr 1; ring
    calc (d : ℚ) * (2 : ℚ) ^ ((bits n : Int) - (bits d : Int) - 1)
        < (2 : ℚ) ^ (bits d : Int) * (2 : ℚ) ^ ((bits n : Int) - (bits d : Int) - 1) :=
          mul_lt_mul_of_pos_right d2q (by positivity)
      _ = (2 : ℚ) ^ ((bits n : Int) - 1) := e.symm
      _ ≤ n := n1q
  unfold ilog2
  simp only
  split
  · rename_i h
    exact ⟨(scaled_le_iff n d _).mp h, up⟩
  · rename_i h
    have h' := (not_iff_not.mpr (scaled_le_iff n d ((bits n : Int) - (bits d : Int)))).mp h
    refine ⟨le_of_lt lo, ?_⟩
    rw [show (bits n : Int) - (bits d : Int) - 1 + 1 = (bits n : Int) - (bits d : Int) by ring]
    exact lt_of_not_le h'

/-- `roundNearestEven n d` is at most `n / d + 1`, and at least `n / d`. -/
theorem rne_bounds (n d : Nat) : n / d ≤ roundNearestEven n d ∧ roundNearestEven n d ≤ n / d + 1 := by
  unfold roundNearestEven
  simp only
  split_ifs <;> omega

/-- A quotient not above a natural number is rounded to at most that number. -/
theorem rne_le_of_le {n d k : Nat} (hd : 0 < d) (h : n ≤ k * d) : roundNearestEven n d ≤ k := by
  have hq : n / d ≤ k := by
    rcases Nat.lt_or_ge k (n / d) with hlt | hge
    · exfalso
      have h1 := (Nat.le_div_iff_mul_le hd).mp (Nat.succ_le_of_lt hlt)
      rw [Nat.succ_mul] at h1
      omega
    · exact hge
  rcases Nat.lt_or_ge (n / d) k with hlt | hge
  · have := (rne_bounds n d).2; omega
  · have hqk : n / d = k := by omega
    have hm := Nat.div_add_mod n d
    rw [hqk] at hm
    have hr : n % d = 0 := by
      have : d * k = k * d := Nat.mul_comm d k
      omega
    unfold roundNearestEven
    simp only [hr, hqk]
    rw [if_pos (by omega)]

/-- A quotient not below a natural number is rounded to at least that number. -/
theorem le_rne_of_le {n d k : Nat} (hd : 0 < d) (h : k * d ≤ n) : k ≤ roundNearestEven n d := by
  have := (Nat.le_div_iff_mul_le hd).mpr h
  have := (rne_bounds n d).1
  omega

/-- Rounding to nearest, ties to even, is monotone in the quotient. -/
theorem rne_mono {n1 d1 n2 d2 : Nat} (h1 : 0 < d1) (h2 : 0 < d2) (h : n1 * d2 ≤ n2 * d1) :
    roundNearestEven n1 d1 ≤ roundNearestEven n2 d2 := by
  have hq1 := Nat.div_add_mod n1 d1
  have hq2 := Nat.div_add_mod n2 d2
  have hr1 := Nat.mod_lt n1 h1
  have hr2 := Nat.mod_lt n2 h2
  have hq : n1 / d1 ≤ n2 / d2 := by
    rw [Nat.le_div_iff_mul_le h2]
    have a : n1 / d1 * d1 ≤ n1 := Nat.div_mul_le_self n1 d1
    have b : n1 / d1 * d2 * d1 ≤ n2 * d1 := by
      calc n1 / d1 * d2 * d1 = (n1 / d1 * d1) * d2 := by ring
        _ ≤ n1 * d2 := Nat.mul_le_mul_right d2 a
        _ ≤ n2 * d1 := h
    exact Nat.le_of_mul_le_mul_right b h1
  rcases Nat.lt_or_ge (n1 / d1) (n2 / d2) with hlt | hge
  · have := (rne_bounds n1 d1).2
    have := (rne_bounds n2 d2).1
    omega
  · have hqq : n1 / d1 = n2 / d2 := by omega
    -- remainders are ordered like the quotients
    have hr : n1 % d1 * d2 ≤ n2 % d2 * d1 := by
      have e1 : n1 * d2 = d1 * d2 * (n1 / d1) + n1 % d1 * d2 := by
        conv_lhs => rw [← hq1]
        ring
      have e2 : n2 * d1 = d1 * d2 * (n1 / d1) + n2 % d2 * d1 := by
        conv_lhs => rw [← hq2, ← hqq]
        ring
      omega
    unfold roundNearestEven
    simp only [← hqq]
    by_cases c1 : 2 * (n1 % d1) < d1
    · rw [if_pos c1]
      split_ifs <;> omega
    · rw [if_neg c1]
      by_cases c2 : d1 < 2 * (n1 % d1)
      · rw [if_pos c2]
        have : d2 < 2 * (n2 % d2) := by
          by_contra hc
          have hc' : 2 * (n2 % d2) ≤ d2 := by omega
          have : 2 * (n2 % d2) * d1 ≤ d2 * d1 := Nat.mul_le_mul_right d1 hc'
          have : d1 * d2 < 2 * (n1 % d1) * d2 := Nat.mul_lt_mul_of_pos_right c2 h2
          nlinarith
        rw [if_neg (by omega : ¬ 2 * (n2 % d2) < d2), if_pos this]
      · rw [if_neg c2]
        have heq : 2 * (n1 % d1) = d1 := by omega
        have hge2 : d2 ≤ 2 * (n2 % d2) := by
          by_contra hc
          have hc' : 2 * (n2 % d2) < d2 := by omega
          have : 2 * (n2 % d2) * d1 < d2 * d1 := Nat.mul_lt_mul_of_pos_right hc' h1
          nlinarith
        rw [if_neg (by omega : ¬ 2 * (n2 % d2) < d2)]
        by_cases c3 : d2 < 2 * (n2 % d2)
        · rw [if_pos c3]; split_ifs <;> omega
        · rw [if_neg c3]

/-- The comparison `n / (d * 2 ^ e) ≤ k`, read over the rationals. -/
theorem scaled_ge_iff (n d : Nat) (k : Int) :
    n * pow2n (-k) ≤ d * pow2n k ↔ ((n : ℚ) ≤ (d : ℚ) * (2 : ℚ) ^ k) := by
  have hp : (0 : ℚ) < ((pow2n (-k) : Nat) : ℚ) := by exact_mod_cast pow2n_pos (-k)
  rw [← Nat.cast_le (α := ℚ), Nat.cast_mul, Nat.cast_mul, pow2n_cast k, ← mul_assoc]
  exact mul_le_mul_right hp

theorem rexp_ge (n d : Nat) : -1074 ≤ rexp n d := le_max_right _ _

theorem rexp_ge_ilog2 (n d : Nat) : ilog2 n d - 52 ≤ rexp n d := le_max_left _ _

theorem two_zpow_pos (e : Int) : (0 : ℚ) < (2 : ℚ) ^ e := by positivity

theorem two_zpow_le {a b : Int} (h : a ≤ b) : (2 : ℚ) ^ a ≤ (2 : ℚ) ^ b :=
  zpow_le_zpow_right₀ (by norm_num) h

theorem two_zpow_add (a b : Int) : (2 : ℚ) ^ (a + b) = (2 : ℚ) ^ a * (2 : ℚ) ^ b :=
  zpow_add₀ (by norm_num) a b

theorem two_zpow_nat (k : Nat) : (2 : ℚ) ^ (k : Int) = ((2 ^ k : Nat) : ℚ) := by
  rw [zpow_natCast, Nat.cast_pow, Nat.cast_ofNat]

/-- The significand never exceeds `2 ^ 53`. -/
theorem rmant_le {n d : Nat} (hn : 0 < n) (hd : 0 < d) : rmant n d ≤ 2 ^ 53 := by
  unfold rmant
  apply rne_le_of_le (Nat.mul_pos hd (pow2n_pos _))
  rw [← Nat.mul_assoc]
  rw [scaled_ge_iff]
  have h := (ilog2_spec hn hd).2
  have hle : (2 : ℚ) ^ (ilog2 n d + 1) ≤ (2 : ℚ) ^ (53 : Int) * (2 : ℚ) ^ (rexp n d) := by
    rw [← two_zpow_add]
    apply two_zpow_le
    have := rexp_ge_ilog2 n d
    omega
  have hdq : (0 : ℚ) < d := by exact_mod_cast hd
  have e53 : (((2 ^ 53 * d : Nat)) : ℚ) = (d : ℚ) * (2 : ℚ) ^ (53 : Int) := by
    rw [Nat.cast_mul, ← two_zpow_nat]; push_cast; ring
  rw [e53]
  calc (n : ℚ) ≤ (d : ℚ) * (2 : ℚ) ^ (ilog2 n d + 1) := le_of_lt h
    _ ≤ (d : ℚ) * ((2 : ℚ) ^ (53 : Int) * (2 : ℚ) ^ (rexp n d)) :=
      mul_le_mul_of_nonneg_left hle (le_of_lt hdq)
    _ = (d : ℚ) * (2 : ℚ) ^ (53 : Int) * (2 : ℚ) ^ (rexp n d) := by ring

/-- Above the subnormal exponent the significand has its leading bit set. -/
theorem le_rmant {n d : Nat} (hn : 0 < n) (hd : 0 < d) (he : -1074 < rexp n d) :
    2 ^ 52 ≤ rmant n d := by
  unfold rmant
  apply le_rne_of_le (Nat.mul_pos hd (pow2n_pos _))
  rw [← Nat.mul_assoc]
  rw [scaled_le_iff]
  have h := (ilog2_spec hn hd).1
  have hre : rexp n d = ilog2 n d - 52 := by
    unfold rexp at *
    rcases max_cases (ilog2 n d - 52) (-1074) with ⟨h1, _⟩ | ⟨h1, _⟩
    · exact h1
    · omega
  have hle : (2 : ℚ) ^ (52 : Int) * (2 : ℚ) ^ (rexp n d) = (2 : ℚ) ^ (ilog2 n d) := by
    rw [← two_zpow_add, hre]; congr 1; ring
  have e52 : (((2 ^ 52 * d : Nat)) : ℚ) = (d : ℚ) * (2 : ℚ) ^ (52 : Int) := by
    rw [Nat.cast_mul, ← two_zpow_nat]; push_cast; ring
  rw [e52, mul_assoc, hle]
  exact h

theorem rmant_zero (d : Nat) (hd : 0 < d) : rmant 0 d = 0 := by
  unfold rmant
  have := rne_le_of_le (n := 0 * pow2n (-(rexp 0 d))) (k := 0)
    (Nat.mul_pos hd (pow2n_pos (rexp 0 d))) (by simp)
  omega

/-- The unfolding of `round` through `rexp` and `rmant`. -/
theorem round_eq (s : Bool) (n d : Nat) :
    round s n d =
      if n = 0 then fin s 0 0
      else if rmant n d = 0 then fin s 0 0
      else if rmant n d = 2 ^ 53 then
        (if 971 < rexp n d + 1 then inf s else fin s (2 ^ 52) (rexp n d + 1))
      else if 971 < rexp n d then inf s else fin s (rmant n d) (rexp n d) := rfl

/-- The extended value of `round`: the significand times the power of two of
the exponent, capped at `2 ^ 1024`, with the sign. -/
theorem ext_round (s : Bool) (n d : Nat) (hd : 0 < d) :
    ext (round s n d)
      = sgn s * min ((rmant n d : ℚ) * (2 : ℚ) ^ (rexp n d)) ((2 : ℚ) ^ (1024 : Int)) := by
  rw [round_eq]
  by_cases hn : n = 0
  · subst hn
    rw [if_pos rfl, rmant_zero d hd, Nat.cast_zero, zero_mul,
      min_eq_left (le_of_lt (two_zpow_pos _))]
    simp [ext]
  rw [if_neg hn]
  have hnpos : 0 < n := Nat.pos_of_ne_zero hn
  have hm := rmant_le hnpos hd
  by_cases h0 : rmant n d = 0
  · rw [if_pos h0, h0, Nat.cast_zero, zero_mul, min_eq_left (le_of_lt (two_zpow_pos _))]
    simp [ext]
  rw [if_neg h0]
  by_cases h53 : rmant n d = 2 ^ 53
  · rw [if_pos h53, h53]
    have c53 : (((2 ^ 53 : Nat)) : ℚ) = (2 : ℚ) ^ (53 : Int) := (two_zpow_nat 53).symm
    rw [c53, ← two_zpow_add]
    by_cases he : 971 < rexp n d + 1
    · rw [if_pos he]
      have : (2 : ℚ) ^ (1024 : Int) ≤ (2 : ℚ) ^ (53 + rexp n d) := two_zpow_le (by omega)
      rw [min_eq_right this]; rfl
    · rw [if_neg he]
      have : (2 : ℚ) ^ (53 + rexp n d) ≤ (2 : ℚ) ^ (1024 : Int) := two_zpow_le (by omega)
      rw [min_eq_left this]
      have c52 : (((2 ^ 52 : Nat)) : ℚ) = (2 : ℚ) ^ (52 : Int) := (two_zpow_nat 52).symm
      simp only [ext]
      rw [c52, mul_assoc, ← two_zpow_add]
      congr 2; ring
  · rw [if_neg h53]
    have hlt : rmant n d < 2 ^ 53 := lt_of_le_of_ne hm h53
    by_cases he : 971 < rexp n d
    · rw [if_pos he]
      have h52 := le_rmant hnpos hd (by omega)
      have h52q : (2 : ℚ) ^ (52 : Int) ≤ (rmant n d : ℚ) := by
        have e : (2 : ℚ) ^ (52 : Int) = ((2 ^ 52 : Nat) : ℚ) := two_zpow_nat 52
        rw [e]; exact_mod_cast h52
      have : (2 : ℚ) ^ (1024 : Int) ≤ (rmant n d : ℚ) * (2 : ℚ) ^ (rexp n d) := by
        calc (2 : ℚ) ^ (1024 : Int) ≤ (2 : ℚ) ^ (52 + rexp n d) := two_zpow_le (by omega)
          _ = (2 : ℚ) ^ (52 : Int) * (2 : ℚ) ^ (rexp n d) := two_zpow_add _ _
          _ ≤ (rmant n d : ℚ) * (2 : ℚ) ^ (rexp n d) :=
            mul_le_mul_of_nonneg_right h52q (le_of_lt (two_zpow_pos _))
      rw [min_eq_right this]; rfl
    · rw [if_neg he]
      have hltq : (rmant n d : ℚ) ≤ (2 : ℚ) ^ (53 : Int) := by
        have e : (2 : ℚ) ^ (53 : Int) = ((2 ^ 53 : Nat) : ℚ) := two_zpow_nat 53
        rw [e]; exact_mod_cast hm
      have : (rmant n d : ℚ) * (2 : ℚ) ^ (rexp n d) ≤ (2 : ℚ) ^ (1024 : Int) := by
        calc (rmant n d : ℚ) * (2 : ℚ) ^ (rexp n d)
            ≤ (2 : ℚ) ^ (53 : Int) * (2 : ℚ) ^ (rexp n d) :=
              mul_le_mul_of_nonneg_right hltq (le_of_lt (two_zpow_pos _))
          _ = (2 : ℚ) ^ (53 + rexp n d) := (two_zpow_add _ _).symm
          _ ≤ (2 : ℚ) ^ (1024 : Int) := two_zpow_le (by omega)
      rw [min_eq_left this]
      simp only [ext]; ring

/-- The integer logarithm is monotone in the quotient. -/
theorem ilog2_mono {n1 d1 n2 d2 : Nat} (hn1 : 0 < n1) (hd1 : 0 < d1) (hn2 : 0 < n2)
    (hd2 : 0 < d2) (h : n1 * d2 ≤ n2 * d1) : ilog2 n1 d1 ≤ ilog2 n2 d2 := by
  have a := (ilog2_spec hn1 hd1).1
  have b := (ilog2_spec hn2 hd2).2
  have hq : (n1 : ℚ) * d2 ≤ (n2 : ℚ) * d1 := by exact_mod_cast h
  have hd1q : (0 : ℚ) < d1 := by exact_mod_cast hd1
  have hd2q : (0 : ℚ) < d2 := by exact_mod_cast hd2
  have key : (d1 : ℚ) * d2 * (2 : ℚ) ^ (ilog2 n1 d1)
      < (d1 : ℚ) * d2 * (2 : ℚ) ^ (ilog2 n2 d2 + 1) := by
    calc (d1 : ℚ) * d2 * (2 : ℚ) ^ (ilog2 n1 d1)
        = ((d1 : ℚ) * (2 : ℚ) ^ (ilog2 n1 d1)) * d2 := by ring
      _ ≤ (n1 : ℚ) * d2 := mul_le_mul_of_nonneg_right a (le_of_lt hd2q)
      _ ≤ (n2 : ℚ) * d1 := hq
      _ < ((d2 : ℚ) * (2 : ℚ) ^ (ilog2 n2 d2 + 1)) * d1 := mul_lt_mul_of_pos_right b hd1q
      _ = (d1 : ℚ) * d2 * (2 : ℚ) ^ (ilog2 n2 d2 + 1) := by ring
  have hlt : (2 : ℚ) ^ (ilog2 n1 d1) < (2 : ℚ) ^ (ilog2 n2 d2 + 1) :=
    lt_of_mul_lt_mul_left key (le_of_lt (mul_pos hd1q hd2q))
  have := (zpow_lt_zpow_iff_right₀ (by norm_num : (1 : ℚ) < 2)).mp hlt
  omega

/-- The value computed by `round`, before the cap at `2 ^ 1024`, is monotone in
the quotient. -/
theorem rv_mono {n1 d1 n2 d2 : Nat} (hd1 : 0 < d1) (hd2 : 0 < d2) (h : n1 * d2 ≤ n2 * d1) :
    (rmant n1 d1 : ℚ) * (2 : ℚ) ^ (rexp n1 d1) ≤ (rmant n2 d2 : ℚ) * (2 : ℚ) ^ (rexp n2 d2) := by
  rcases Nat.eq_zero_or_pos n1 with h0 | hn1
  · subst h0
    rw [rmant_zero d1 hd1]
    simp only [Nat.cast_zero, zero_mul]
    positivity
  have hn2 : 0 < n2 := by
    rcases Nat.eq_zero_or_pos n2 with h0 | hp
    · subst h0
      have : 0 < n1 * d2 := Nat.mul_pos hn1 hd2
      omega
    · exact hp
  have hL := ilog2_mono hn1 hd1 hn2 hd2 h
  have he : rexp n1 d1 ≤ rexp n2 d2 := by
    unfold rexp
    exact max_le_max (by omega) le_rfl
  rcases lt_or_eq_of_le he with hlt | heq
  · have m1 := rmant_le hn1 hd1
    have m2 := le_rmant hn2 hd2 (by have := rexp_ge n1 d1; omega)
    have m1q : (rmant n1 d1 : ℚ) ≤ (2 : ℚ) ^ (53 : Int) := by
      have e : (2 : ℚ) ^ (53 : Int) = ((2 ^ 53 : Nat) : ℚ) := two_zpow_nat 53
      rw [e]; exact_mod_cast m1
    have m2q : (2 : ℚ) ^ (52 : Int) ≤ (rmant n2 d2 : ℚ) := by
      have e : (2 : ℚ) ^ (52 : Int) = ((2 ^ 52 : Nat) : ℚ) := two_zpow_nat 52
      rw [e]; exact_mod_cast m2
    calc (rmant n1 d1 : ℚ) * (2 : ℚ) ^ (rexp n1 d1)
        ≤ (2 : ℚ) ^ (53 : Int) * (2 : ℚ) ^ (rexp n1 d1) :=
          mul_le_mul_of_nonneg_right m1q (le_of_lt (two_zpow_pos _))
      _ = (2 : ℚ) ^ (53 + rexp n1 d1) := (two_zpow_add _ _).symm
      _ ≤ (2 : ℚ) ^ (52 + rexp n2 d2) := two_zpow_le (by omega)
      _ = (2 : ℚ) ^ (52 : Int) * (2 : ℚ) ^ (rexp n2 d2) := two_zpow_add _ _
      _ ≤ (rmant n2 d2 : ℚ) * (2 : ℚ) ^ (rexp n2 d2) :=
          mul_le_mul_of_nonneg_right m2q (le_of_lt (two_zpow_pos _))
  · apply mul_le_mul _ (by rw [heq]) (le_of_lt (two_zpow_pos _)) (Nat.cast_nonneg _)
    have : rmant n1 d1 ≤ rmant n2 d2 := by
      unfold rmant
      rw [← heq]
      apply rne_mono (Nat.mul_pos hd1 (pow2n_pos _)) (Nat.mul_pos hd2 (pow2n_pos _))
      calc n1 * pow2n (-rexp n1 d1) * (d2 * pow2n (rexp n1 d1))
          = (n1 * d2) * (pow2n (-rexp n1 d1) * pow2n (rexp n1 d1)) := by ring
        _ ≤ (n2 * d1) * (pow2n (-rexp n1 d1) * pow2n (rexp n1 d1)) :=
          Nat.mul_le_mul_right _ h
        _ = n2 * pow2n (-rexp n1 d1) * (d1 * pow2n (rexp n1 d1)) := by ring
    exact_mod_cast this

theorem sgn_false : sgn false = 1 := rfl

theorem sgn_true : sgn true = -1 := rfl

/-- Rounding is monotone: a smaller signed quotient never rounds to a larger
double. -/
theorem ext_round_mono (s1 s2 : Bool) {n1 d1 n2 d2 : Nat} (hd1 : 0 < d1) (hd2 : 0 < d2)
    (h : sgn s1 * ((n1 : ℚ) / d1) ≤ sgn s2 * ((n2 : ℚ) / d2)) :
    ext (round s1 n1 d1) ≤ ext (round s2 n2 d2) := by
  rw [ext_round s1 n1 d1 hd1, ext_round s2 n2 d2 hd2]
  have hd1q : (0 : ℚ) < d1 := by exact_mod_cast hd1
  have hd2q : (0 : ℚ) < d2 := by exact_mod_cast hd2
  have nn1 : (0 : ℚ) ≤ min ((rmant n1 d1 : ℚ) * (2 : ℚ) ^ (rexp n1 d1)) ((2 : ℚ) ^ (1024 : Int)) :=
    le_min (by positivity) (by positivity)
  have nn2 : (0 : ℚ) ≤ min ((rmant n2 d2 : ℚ) * (2 : ℚ) ^ (rexp n2 d2)) ((2 : ℚ) ^ (1024 : Int)) :=
    le_min (by positivity) (by positivity)
  have cross : ∀ {a b c e : Nat}, 0 < b → 0 < e → (a : ℚ) / b ≤ (c : ℚ) / e → a * e ≤ c * b := by
    intro a b c e hb he hq
    have hbq : (0 : ℚ) < b := by exact_mod_cast hb
    have heq : (0 : ℚ) < e := by exact_mod_cast he
    rw [div_le_div_iff₀ hbq heq] at hq
    exact_mod_cast hq
  cases s1 <;> cases s2
  · simp only [sgn_false, one_mul] at h ⊢
    exact min_le_min (rv_mono hd1 hd2 (cross hd1 hd2 h)) le_rfl
  · simp only [sgn_false, sgn_true, one_mul] at h ⊢
    have h1 : (0 : ℚ) ≤ (n1 : ℚ) / d1 := by positivity
    have h2 : (0 : ℚ) ≤ (n2 : ℚ) / d2 := by positivity
    have z1 : (n1 : ℚ) / d1 = 0 := by linarith
    have z2 : (n2 : ℚ) / d2 = 0 := by linarith
    have hn1 : n1 = 0 := by
      rcases div_eq_zero_iff.mp z1 with hz | hz
      · exact_mod_cast hz
      · exfalso; exact (ne_of_gt hd1q) hz
    have hn2 : n2 = 0 := by
      rcases div_eq_zero_iff.mp z2 with hz | hz
      · exact_mod_cast hz
      · exfalso; exact (ne_of_gt hd2q) hz
    subst hn1; subst hn2
    rw [rmant_zero d1 hd1, rmant_zero d2 hd2]
    simp
  · simp only [sgn_false, sgn_true, one_mul] at h ⊢
    linarith
  · simp only [sgn_true] at h ⊢
    have h' : (n2 : ℚ) / d2 ≤ (n1 : ℚ) / d1 := by linarith
    have := min_le_min (rv_mono hd2 hd1 (cross hd2 hd1 h')) (le_refl ((2 : ℚ) ^ (1024 : Int)))
    linarith

/-- Rounding is exact on representable values: a quotient equal to `M * 2 ^ E`
with `M < 2 ^ 53` and `-1074 ≤ E` is its own rounding (capped at `2 ^ 1024`). -/
theorem ext_round_exact (s : Bool) {n d M : Nat} {E : Int} (hd : 0 < d) (hM : M < 2 ^ 53)
    (hE : -1074 ≤ E) (hx : (n : ℚ) = (d : ℚ) * ((M : ℚ) * (2 : ℚ) ^ E)) :
    ext (round s n d) = sgn s * min ((M : ℚ) * (2 : ℚ) ^ E) ((2 : ℚ) ^ (1024 : Int)) := by
  rw [ext_round s n d hd]
  congr 2
  have hdq : (0 : ℚ) < d := by exact_mod_cast hd
  rcases Nat.eq_zero_or_pos n with h0 | hn
  · subst h0
    rw [rmant_zero d hd]
    have : (M : ℚ) * (2 : ℚ) ^ E = 0 := by
      have h1 : (d : ℚ) * ((M : ℚ) * (2 : ℚ) ^ E) = 0 := by rw [← hx]; simp
      rcases mul_eq_zero.mp h1 with hz | hz
      · exfalso; exact (ne_of_gt hdq) hz
      · exact hz
    rw [this]; simp
  -- the working exponent is at most `E`
  have hMq : (M : ℚ) < (2 : ℚ) ^ (53 : Int) := by
    have e : (2 : ℚ) ^ (53 : Int) = ((2 ^ 53 : Nat) : ℚ) := two_zpow_nat 53
    rw [e]; exact_mod_cast hM
  have hL : ilog2 n d < 53 + E := by
    have a := (ilog2_spec hn hd).1
    have : (d : ℚ) * (2 : ℚ) ^ (ilog2 n d) < (d : ℚ) * (2 : ℚ) ^ (53 + E) := by
      calc (d : ℚ) * (2 : ℚ) ^ (ilog2 n d) ≤ n := a
        _ = (d : ℚ) * ((M : ℚ) * (2 : ℚ) ^ E) := hx
        _ < (d : ℚ) * ((2 : ℚ) ^ (53 : Int) * (2 : ℚ) ^ E) :=
          mul_lt_mul_of_pos_left (mul_lt_mul_of_pos_right hMq (two_zpow_pos _)) hdq
        _ = (d : ℚ) * (2 : ℚ) ^ (53 + E) := by rw [two_zpow_add]
    have := lt_of_mul_lt_mul_left this (le_of_lt hdq)
    exact (zpow_lt_zpow_iff_right₀ (by norm_num : (1 : ℚ) < 2)).mp this
  have he : rexp n d ≤ E := by
    unfold rexp
    exact max_le (by omega) hE
  -- the scaled quotient is the natural number `K`
  obtain ⟨j, hj⟩ : ∃ j : Nat, E = rexp n d + (j : Int) :=
    ⟨(E - rexp n d).toNat, by rw [Int.toNat_of_nonneg (by omega)]; ring⟩
  have hK : rmant n d = M * 2 ^ j := by
    have heq : n * pow2n (-rexp n d) = (M * 2 ^ j) * (d * pow2n (rexp n d)) := by
      have : ((n * pow2n (-rexp n d) : Nat) : ℚ)
          = (((M * 2 ^ j) * (d * pow2n (rexp n d)) : Nat) : ℚ) := by
        push_cast
        rw [pow2n_cast (rexp n d), hx, hj, two_zpow_add, zpow_natCast]
        ring
      exact_mod_cast this
    unfold rmant
    apply le_antisymm
    · exact rne_le_of_le (Nat.mul_pos hd (pow2n_pos _)) (le_of_eq heq)
    · exact le_rne_of_le (Nat.mul_pos hd (pow2n_pos _)) (le_of_eq heq.symm)
  rw [hK, hj, two_zpow_add, zpow_natCast]
  push_cast
  ring

/-- A quotient below `2 ^ 1023` rounds to a finite double. -/
theorem round_isFinite (s : Bool) {n d : Nat} (hd : 0 < d)
    (h : (n : ℚ) < (d : ℚ) * (2 : ℚ) ^ (1023 : Int)) : (round s n d).isFinite = true := by
  rw [round_eq]
  by_cases hn : n = 0
  · rw [if_pos hn]; rfl
  rw [if_neg hn]
  have hdq : (0 : ℚ) < d := by exact_mod_cast hd
  have hL : ilog2 n d < 1023 := by
    have a := (ilog2_spec (Nat.pos_of_ne_zero hn) hd).1
    have := lt_of_mul_lt_mul_left (lt_of_le_of_lt a h) (le_of_lt hdq)
    exact (zpow_lt_zpow_iff_right₀ (by norm_num : (1 : ℚ) < 2)).mp this
  have he : rexp n d < 971 := by
    unfold rexp
    exact max_lt (by omega) (by norm_num)
  split_ifs <;> first | rfl | omega

/-- The integer part of a finite double, over the rationals. -/
theorem trunc_fin (s : Bool) (m : Nat) (e : Int) :
    trunc (fin s m e) = if s then -((⌊(m : ℚ) * (2 : ℚ) ^ e⌋₊ : Nat) : Int)
      else ((⌊(m : ℚ) * (2 : ℚ) ^ e⌋₊ : Nat) : Int) := by
  have hp : ((pow2n (-e) : Nat) : ℚ) ≠ 0 := by
    have := pow2n_pos (-e)
    exact_mod_cast (ne_of_gt this)
  have : m * pow2n e / pow2n (-e) = ⌊(m : ℚ) * (2 : ℚ) ^ e⌋₊ := by
    rw [← Nat.floor_div_eq_div (α := ℚ)]
    congr 1
    rw [Nat.cast_mul, pow2n_cast e]
    generalize ((pow2n (-e) : Nat) : ℚ) = P at hp ⊢
    field_simp
    ring
  simp only [trunc, this]

/-- Truncation is monotone on finite doubles. -/
theorem trunc_mono {x y : F64} (hx : x.isFinite = true) (hy : y.isFinite = true)
    (h : ext x ≤ ext y) : trunc x ≤ trunc y := by
  cases x with
  | inf _ => simp [isFinite] at hx
  | nan => simp [isFinite] at hx
  | fin s m e =>
    cases y with
    | inf _ => simp [isFinite] at hy
    | nan => simp [isFinite] at hy
    | fin t k f =>
      rw [trunc_fin, trunc_fin]
      have ha : (0 : ℚ) ≤ (m : ℚ) * (2 : ℚ) ^ e := by positivity
      have hb : (0 : ℚ) ≤ (k : ℚ) * (2 : ℚ) ^ f := by positivity
      simp only [ext, mul_assoc] at h
      cases s <;> cases t
      · simp only [sgn_false, one_mul] at h
        simp only [Bool.false_eq_true, if_false]
        exact_mod_cast Nat.floor_le_floor h
      · simp only [sgn_false, sgn_true, one_mul] at h
        have z1 : (m : ℚ) * (2 : ℚ) ^ e = 0 := by linarith
        have z2 : (k : ℚ) * (2 : ℚ) ^ f = 0 := by linarith
        simp [z1, z2]
      · simp only [Bool.false_eq_true, if_false, if_true]
        omega
      · simp only [sgn_true] at h
        simp only [if_true]
        have : ⌊(k : ℚ) * (2 : ℚ) ^ f⌋₊ ≤ ⌊(m : ℚ) * (2 : ℚ) ^ e⌋₊ :=
          Nat.floor_le_floor (by linarith)
        omega

/-- The integer part of a finite double lies between the floor and the ceiling
of its value. -/
theorem trunc_bounds {x : F64} (hx : x.isFinite = true) :
    ⌊ext x⌋ ≤ trunc x ∧ trunc x ≤ ⌈ext x⌉ := by
  cases x with
  | inf _ => simp [isFinite] at hx
  | nan => simp [isFinite] at hx
  | fin s m e =>
    rw [trunc_fin]
    have ha : (0 : ℚ) ≤ (m : ℚ) * (2 : ℚ) ^ e := by positivity
    have hfl := Int.natCast_floor_eq_floor ha
    cases s
    · simp only [ext, sgn_false, one_mul, Bool.false_eq_true, if_false, hfl]
      exact ⟨le_rfl, Int.floor_le_ceil _⟩
    · simp only [ext, sgn_true, if_true, hfl]
      have e1 : (-1 : ℚ) * (m : ℚ) * (2 : ℚ) ^ e = -((m : ℚ) * (2 : ℚ) ^ e) := by ring
      rw [e1, Int.ceil_neg]
      refine ⟨?_, le_rfl⟩
      rw [← Int.ceil_neg]
      exact Int.floor_le_ceil _

/-- The signed quotient that `(double)i` rounds. -/
theorem ofInt_sval (i : Int) : sgn (decide (i < 0)) * (((i.natAbs : Nat) : ℚ) / ((1 : Nat) : ℚ)) = (i : ℚ) := by
  rcases lt_or_le i 0 with h | h
  · have : ((i.natAbs : Nat) : Int) = -i := by omega
    have hq : ((i.natAbs : Nat) : ℚ) = -(i : ℚ) := by
      rw [← Int.cast_natCast, this, Int.cast_neg]
    simp [sgn, h, hq]
  · have : ((i.natAbs : Nat) : Int) = i := by omega
    have hq : ((i.natAbs : Nat) : ℚ) = (i : ℚ) := by
      rw [← Int.cast_natCast, this]
    simp [sgn, not_lt.mpr h, hq]

/-- Conversion of integers to double is monotone. -/
theorem ofInt_mono {i j : Int} (h : i ≤ j) : ext (ofInt i) ≤ ext (ofInt j) := by
  unfold ofInt
  apply ext_round_mono _ _ Nat.one_pos Nat.one_pos
  rw [ofInt_sval, ofInt_sval]
  exact_mod_cast h

/-- Every `int64_t` converts to a finite double. -/
theorem ofInt_isFinite {i : Int} (h : InInt64 i) : (ofInt i).isFinite = true := by
  unfold ofInt
  apply round_isFinite _ Nat.one_pos
  have h1 : i.natAbs ≤ 2 ^ 63 := by
    unfold InInt64 at h
    omega
  have h2 : ((i.natAbs : Nat) : ℚ) ≤ ((2 ^ 63 : Nat) : ℚ) := by exact_mod_cast h1
  have e : ((2 ^ 63 : Nat) : ℚ) = (2 : ℚ) ^ (63 : Int) := (two_zpow_nat 63).symm
  rw [e] at h2
  have h3 : (2 : ℚ) ^ (63 : Int) < (2 : ℚ) ^ (1023 : Int) :=
    zpow_lt_zpow_right₀ (by norm_num) (by norm_num)
  simp only [Nat.cast_one, one_mul]
  linarith

/-- Integers of magnitude at most `2 ^ 53` convert to double exactly. -/
theorem ofInt_exact {i : Int} (h : i.natAbs ≤ 2 ^ 53) : ext (ofInt i) = (i : ℚ) := by
  have cap : ∀ q : ℚ, q ≤ (2 : ℚ) ^ (53 : Int) → min q ((2 : ℚ) ^ (1024 : Int)) = q := by
    intro q hq
    apply min_eq_left
    have : (2 : ℚ) ^ (53 : Int) ≤ (2 : ℚ) ^ (1024 : Int) := two_zpow_le (by norm_num)
    linarith
  have hq : ((i.natAbs : Nat) : ℚ) ≤ (2 : ℚ) ^ (53 : Int) := by
    have e : (2 : ℚ) ^ (53 : Int) = ((2 ^ 53 : Nat) : ℚ) := two_zpow_nat 53
    rw [e]; exact_mod_cast h
  have hs := ofInt_sval i
  simp only [Nat.cast_one, div_one] at hs
  unfold ofInt
  rcases lt_or_eq_of_le h with hlt | heq
  · rw [ext_round_exact (decide (i < 0)) (M := i.natAbs) (E := 0) Nat.one_pos hlt (by norm_num)
      (by simp)]
    simp only [zpow_zero, mul_one]
    rw [cap _ hq, hs]
  · rw [ext_round_exact (decide (i < 0)) (M := 2 ^ 52) (E := 1) Nat.one_pos (by norm_num)
      (by norm_num) (by rw [heq]; norm_num)]
    have e2 : (((2 ^ 52 : Nat)) : ℚ) * (2 : ℚ) ^ (1 : Int) = ((i.natAbs : Nat) : ℚ) := by
      rw [heq]; norm_num
    rw [e2, cap _ hq, hs]

/-- The product of two finite doubles is the rounding of the exact product. -/
theorem mul_fin_eq (s : Bool) (m : Nat) (e : Int) (t : Bool) (k : Nat) (f : Int) :
    mul (fin s m e) (fin t k f)
      = round (xor s t) (m * k * pow2n (e + f)) (pow2n (-(e + f))) := rfl

/-- The signed quotient that a product of finite doubles rounds. -/
theorem mul_sval (s : Bool) (m : Nat) (e : Int) (t : Bool) (k : Nat) (f : Int) :
    sgn (xor s t) * (((m * k * pow2n (e + f) : Nat) : ℚ) / ((pow2n (-(e + f)) : Nat) : ℚ))
      = ext (fin s m e) * ext (fin t k f) := by
  have hp : ((pow2n (-(e + f)) : Nat) : ℚ) ≠ 0 := by
    have := pow2n_pos (-(e + f))
    exact_mod_cast (ne_of_gt this)
  have hs : sgn (xor s t) = sgn s * sgn t := by
    cases s <;> cases t <;> simp [sgn]
  rw [Nat.cast_mul, Nat.cast_mul, pow2n_cast (e + f), hs, two_zpow_add]
  simp only [ext]
  generalize ((pow2n (-(e + f)) : Nat) : ℚ) = P at hp ⊢
  field_simp
  ring

/-- Multiplication by a non-negative finite double is monotone. -/
theorem mul_mono_left {a b c : F64} (ha : a.isFinite = true) (hb : b.isFinite = true)
    (hc : c.isFinite = true) (hc0 : 0 ≤ ext c) (h : ext a ≤ ext b) :
    ext (mul a c) ≤ ext (mul b c) := by
  cases a with
  | inf _ => simp [isFinite] at ha
  | nan => simp [isFinite] at ha
  | fin s m e =>
    cases b with
    | inf _ => simp [isFinite] at hb
    | nan => simp [isFinite] at hb
    | fin t k f =>
      cases c with
      | inf _ => simp [isFinite] at hc
      | nan => simp [isFinite] at hc
      | fin u j g =>
        rw [mul_fin_eq, mul_fin_eq]
        apply ext_round_mono _ _ (pow2n_pos _) (pow2n_pos _)
        rw [mul_sval, mul_sval]
        exact mul_le_mul_of_nonneg_right h hc0

end F64

/-! ## The read path -/

theorem wrap64_of_inInt64 {x : Int} (h : InInt64 x) : wrap64 x = x := by
  unfold InInt64 at h
  unfold wrap64
  omega

theorem wrap64_inInt64 (x : Int) : InInt64 (wrap64 x) := by
  unfold InInt64 wrap64
  omega

/-- Clearing bit 0 of a `uint32_t`. -/
theorem land_clear_bit0 {n : Nat} (h : n < 2 ^ 32) : n &&& 0xFFFFFFFE = n - n % 2 := by
  apply Nat.eq_of_testBit_eq
  intro i
  have e1 : (0xFFFFFFFE : Nat) = (2 ^ 31 - 1) <<< 1 := by decide
  have e2 : n - n % 2 = (n / 2) <<< 1 := by
    rw [Nat.shiftLeft_eq]; omega
  rw [Nat.testBit_and, e1, e2, Nat.testBit_shiftLeft, Nat.testBit_shiftLeft,
    Nat.testBit_two_pow_sub_one, Nat.testBit_div_two]
  rcases Nat.eq_zero_or_pos i with h0 | hpos
  · subst h0; simp
  · have hi : i - 1 + 1 = i := by omega
    rw [hi]
    rcases Nat.lt_or_ge i 32 with hlt | hge
    · have : decide (i - 1 < 31) = true := by simp; omega
      have h1 : decide (i ≥ 1) = true := by simp; omega
      simp [this, h1]
    · have : n.testBit i = false := by
        apply Nat.testBit_lt_two_pow
        calc n < 2 ^ 32 := h
          _ ≤ 2 ^ i := Nat.pow_le_pow_right (by norm_num) hge
      simp [this]

/-- A pass returns exactly when the first load with bit 0 cleared equals the
second load. -/
theorem tsc2nsPass_eq (l : Loads) (tsc : Int) :
    tsc2nsPass l tsc
      = if l.seq1 &&& 0xFFFFFFFE = l.seq2 then
          some (wrap64 (l.base_ns
            + F64.toInt64 (F64.mul (F64.ofInt (wrap64 (tsc - l.base_tsc))) l.ns_per_tsc)))
        else none := rfl

/-- With no write in progress the first pass returns. -/
theorem tsc2nsPass_stable {st : TSCNS} (h : Stable st) (tsc : Int) :
    tsc2nsPass st.loads tsc = some (nsValue st tsc) := by
  rw [tsc2nsPass_eq]
  have : st.loads.seq1 &&& 0xFFFFFFFE = st.loads.seq2 := by
    show st.param_seq_ &&& 0xFFFFFFFE = st.param_seq_
    rw [land_clear_bit0 h.1, h.2]; rfl
  rw [if_pos this]; rfl

/-- With no write in progress `tsc2ns` returns the value of its first pass. -/
theorem tsc2ns_stable {st : TSCNS} (h : Stable st) {fuel : Nat} (hf : 0 < fuel) (tsc : Int) :
    tsc2ns fuel st tsc = .ok (nsValue st tsc) := by
  obtain ⟨f, rfl⟩ : ∃ f, fuel = f + 1 := ⟨fuel - 1, by omega⟩
  simp only [tsc2ns, List.replicate_succ, tsc2nsLoop, tsc2nsPass_stable h]

/-- Without overflow the value of a pass is `base_ns_` plus the integer part of
the double product. -/
theorem nsValue_of_noOverflow {st : TSCNS} {c : Int} (h : NoOverflow st c) :
    nsValue st c
      = st.base_ns_ + F64.trunc (F64.mul (F64.ofInt (c - st.base_tsc_)) st.ns_per_tsc_) := by
  obtain ⟨h1, h2, h3⟩ := h
  unfold nsValue
  rw [wrap64_of_inInt64 h1]
  unfold F64.toInt64
  rw [if_pos h2, wrap64_of_inInt64 h3]

namespace F64

theorem toRat_eq_ext {x : F64} (h : x.isFinite = true) : toRat x = ext x := by
  cases x with
  | inf _ => simp [isFinite] at h
  | nan => simp [isFinite] at h
  | fin s m e => rfl

/-- A quotient between two integers of magnitude at most `2 ^ 53` rounds to a
finite double between the same integers. -/
theorem round_int_bounds (s : Bool) {n d : Nat} (hd : 0 < d) {lo hi : Int}
    (hlo : lo.natAbs ≤ 2 ^ 53) (hhi : hi.natAbs ≤ 2 ^ 53)
    (h1 : (lo : ℚ) ≤ sgn s * ((n : ℚ) / d)) (h2 : sgn s * ((n : ℚ) / d) ≤ (hi : ℚ)) :
    (round s n d).isFinite = true ∧ (lo : ℚ) ≤ ext (round s n d)
      ∧ ext (round s n d) ≤ (hi : ℚ) := by
  have hdq : (0 : ℚ) < d := by exact_mod_cast hd
  have hloq : -(2 : ℚ) ^ (53 : Int) ≤ (lo : ℚ) := by
    have : -(2 ^ 53 : Int) ≤ lo := by omega
    have e : (2 : ℚ) ^ (53 : Int) = (((2 ^ 53 : Int)) : ℚ) := by norm_num
    rw [e]; exact_mod_cast this
  have hhiq : (hi : ℚ) ≤ (2 : ℚ) ^ (53 : Int) := by
    have : hi ≤ (2 ^ 53 : Int) := by omega
    have e : (2 : ℚ) ^ (53 : Int) = (((2 ^ 53 : Int)) : ℚ) := by norm_num
    rw [e]; exact_mod_cast this
  have hq0 : (0 : ℚ) ≤ (n : ℚ) / d := by positivity
  have hq : (n : ℚ) / d ≤ (2 : ℚ) ^ (53 : Int) := by
    cases s
    · simp only [sgn_false, one_mul] at h2; linarith
    · simp only [sgn_true] at h1; linarith
  refine ⟨?_, ?_, ?_⟩
  · apply round_isFinite s hd
    have h3 : (2 : ℚ) ^ (53 : Int) < (2 : ℚ) ^ (1023 : Int) :=
      zpow_lt_zpow_right₀ (by norm_num) (by norm_num)
    have : (n : ℚ) ≤ (d : ℚ) * (2 : ℚ) ^ (53 : Int) := by
      rw [div_le_iff₀ hdq] at hq; linarith
    calc (n : ℚ) ≤ (d : ℚ) * (2 : ℚ) ^ (53 : Int) := this
      _ < (d : ℚ) * (2 : ℚ) ^ (1023 : Int) := mul_lt_mul_of_pos_left h3 hdq
  · rw [← ofInt_exact hlo]
    unfold ofInt
    apply ext_round_mono _ _ Nat.one_pos hd
    rw [ofInt_sval]; exact h1
  · rw [← ofInt_exact hhi]
    unfold ofInt
    apply ext_round_mono _ _ hd Nat.one_pos
    rw [ofInt_sval]; exact h2

/-- A product of finite doubles whose exact value lies between two integers of
magnitude at most `2 ^ 53` is finite and lies between the same integers. -/
theorem mul_int_bounds {a b : F64} (ha : a.isFinite = true) (hb : b.isFinite = true)
    (lo hi : Int) (hlo : lo.natAbs ≤ 2 ^ 53) (hhi : hi.natAbs ≤ 2 ^ 53)
    (h1 : (lo : ℚ) ≤ ext a * ext b) (h2 : ext a * ext b ≤ (hi : ℚ)) :
    (mul a b).isFinite = true ∧ (lo : ℚ) ≤ ext (mul a b) ∧ ext (mul a b) ≤ (hi : ℚ) := by
  cases a with
  | inf _ => simp [isFinite] at ha
  | nan => simp [isFinite] at ha
  | fin s m e =>
    cases b with
    | inf _ => simp [isFinite] at hb
    | nan => simp [isFinite] at hb
    | fin t k f =>
      rw [mul_fin_eq]
      apply round_int_bounds _ (pow2n_pos _) hlo hhi
      · rw [mul_sval]; exact h1
      · rw [mul_sval]; exact h2

end F64

/-! ## C1: fidelity of the conversion to the affine model -/

/-- C1, as stated, fails: on the published snapshot `snapshotHalf` (slope `0.5`,
no write in progress) `tsc2ns(1001)` and `cpu_to_ns(1001)` return `5000`, while
the affine value is `5000 + 1/2`: the product is truncated. -/
theorem tsc2ns_not_affine :
    Stable snapshotHalf
      ∧ tsc2ns 1 snapshotHalf 1001 = .ok 5000
      ∧ cpu_to_ns 1 snapshotHalf 1001 = .ok 5000
      ∧ affine snapshotHalf 1001 = 5000 + 1 / 2
      ∧ ((5000 : Int) : ℚ) ≠ affine snapshotHalf 1001 := by
  refine ⟨by decide, by decide!, by decide!, ?_, ?_⟩
  · norm_num [affine, snapshotHalf, F64.half, F64.toRat]
  · norm_num [affine, snapshotHalf, F64.half, F64.toRat]

/-- C1, amended: with no write in progress and a finite slope, `tsc2ns(c)` (and
so `cpu_to_ns(c)`) returns after one pass an integer between the floor and the
ceiling of the affine value `base_ns_ + (c - base_tsc_) * ns_per_tsc_`, hence
the affine value itself whenever that is an integer; this for
`|c - base_tsc_| < 2 ^ 53`, a product of magnitude at most `2 ^ 53` and
`|base_ns_| ≤ 2 ^ 62`. -/
theorem tsc2ns_within_affine (fuel : Nat) (st : TSCNS) (c : Int) (hf : 0 < fuel)
    (hs : Stable st) (hfin : st.ns_per_tsc_.isFinite = true)
    (hd : (c - st.base_tsc_).natAbs < 2 ^ 53)
    (hp : |((c : ℚ) - (st.base_tsc_ : ℚ)) * st.ns_per_tsc_.toRat| ≤ 2 ^ 53)
    (hb : st.base_ns_.natAbs ≤ 2 ^ 62) :
    ∃ r : Int, tsc2ns fuel st c = .ok r ∧ cpu_to_ns fuel st c = .ok r
      ∧ ⌊affine st c⌋ ≤ r ∧ r ≤ ⌈affine st c⌉
      ∧ ∀ k : Int, affine st c = (k : ℚ) → r = k := by
  have hdr : InInt64 (c - st.base_tsc_) := by unfold InInt64; omega
  have hafin := F64.ofInt_isFinite hdr
  have haext : F64.ext (F64.ofInt (c - st.base_tsc_)) = ((c : ℚ) - (st.base_tsc_ : ℚ)) := by
    rw [F64.ofInt_exact (le_of_lt hd)]; push_cast; ring
  have hprod : F64.ext (F64.ofInt (c - st.base_tsc_)) * F64.ext st.ns_per_tsc_
      = ((c : ℚ) - (st.base_tsc_ : ℚ)) * st.ns_per_tsc_.toRat := by
    rw [haext, F64.toRat_eq_ext hfin]
  obtain ⟨hp1, hp2⟩ := abs_le.mp hp
  set p : ℚ := ((c : ℚ) - (st.base_tsc_ : ℚ)) * st.ns_per_tsc_.toRat with hpdef
  -- the floor and the ceiling of the product have magnitude at most 2 ^ 53
  have c53 : ((2 : ℚ) ^ 53) = (((2 ^ 53 : Int)) : ℚ) := by norm_num
  have flo : -(2 ^ 53 : Int) ≤ ⌊p⌋ := by
    rw [Int.le_floor]; rw [c53] at hp1; exact_mod_cast hp1
  have fhi : ⌊p⌋ ≤ (2 ^ 53 : Int) := by
    have : (⌊p⌋ : ℚ) ≤ p := Int.floor_le p
    have : (⌊p⌋ : ℚ) ≤ (((2 ^ 53 : Int)) : ℚ) := by rw [← c53]; linarith
    exact_mod_cast this
  have clo : -(2 ^ 53 : Int) ≤ ⌈p⌉ := by
    have : p ≤ (⌈p⌉ : ℚ) := Int.le_ceil p
    have : ((-(2 ^ 53 : Int) : Int) : ℚ) ≤ (⌈p⌉ : ℚ) := by
      push_cast; rw [c53] at hp1; push_cast at hp1; linarith
    exact_mod_cast this
  have chi : ⌈p⌉ ≤ (2 ^ 53 : Int) := by
    rw [Int.ceil_le]; rw [c53] at hp2; exact_mod_cast hp2
  obtain ⟨xfin, xlo, xhi⟩ := F64.mul_int_bounds hafin hfin ⌊p⌋ ⌈p⌉ (by omega) (by omega)
    (by rw [hprod]; exact Int.floor_le p) (by rw [hprod]; exact Int.le_ceil p)
  obtain ⟨tlo, thi⟩ := F64.trunc_bounds xfin
  have t1 : ⌊p⌋ ≤ F64.trunc (F64.mul (F64.ofInt (c - st.base_tsc_)) st.ns_per_tsc_) :=
    le_trans (Int.le_floor.mpr xlo) tlo
  have t2 : F64.trunc (F64.mul (F64.ofInt (c - st.base_tsc_)) st.ns_per_tsc_) ≤ ⌈p⌉ :=
    le_trans thi (Int.ceil_le.mpr xhi)
  have hno : NoOverflow st c := by
    refine ⟨hdr, ⟨xfin, ?_⟩, ?_⟩
    · unfold InInt64; omega
    · unfold InInt64; omega
  have haff : affine st c = (st.base_ns_ : ℚ) + p := rfl
  have hfloor : ⌊affine st c⌋ = st.base_ns_ + ⌊p⌋ := by rw [haff, Int.floor_int_add]
  have hceil : ⌈affine st c⌉ = st.base_ns_ + ⌈p⌉ := by
    rw [haff, add_comm, Int.ceil_add_int, add_comm]
  have hval := nsValue_of_noOverflow hno
  refine ⟨nsValue st c, tsc2ns_stable hs hf c, tsc2ns_stable hs hf c, ?_, ?_, ?_⟩
  · rw [hfloor, hval]; omega
  · rw [hceil, hval]; omega
  · intro k hk
    have h1 : ⌊affine st c⌋ = k := by rw [hk, Int.floor_intCast]
    have h2 : ⌈affine st c⌉ = k := by rw [hk, Int.ceil_intCast]
    rw [hfloor] at h1
    rw [hceil] at h2
    rw [hval]; omega

/-- An instance of `tsc2ns_within_affine`: the snapshot `snapshotHalf` read at
cycle `1001`. -/
theorem tsc2ns_within_affine_witness :
    ∃ r : Int, tsc2ns 1 snapshotHalf 1001 = .ok r ∧ cpu_to_ns 1 snapshotHalf 1001 = .ok r
      ∧ ⌊affine snapshotHalf 1001⌋ ≤ r ∧ r ≤ ⌈affine snapshotHalf 1001⌉
      ∧ ∀ k : Int, affine snapshotHalf 1001 = (k : ℚ) → r = k :=
  tsc2ns_within_affine 1 snapshotHalf 1001 (by decide) (by decide) (by decide) (by decide)
    (by norm_num [snapshotHalf, F64.half, F64.toRat, abs_le]) (by decide)

/-! ## Monotonicity of the conversion within one snapshot -/

/-- With a finite, non-negative slope and no `int64_t` overflow, the value
computed by a pass is monotone in the cycle count. -/
theorem nsValue_mono {st : TSCNS} (hfin : st.ns_per_tsc_.isFinite = true)
    (hpos : 0 ≤ st.ns_per_tsc_.toRat) {c1 c2 : Int} (hc : c1 ≤ c2)
    (h1 : NoOverflow st c1) (h2 : NoOverflow st c2) : nsValue st c1 ≤ nsValue st c2 := by
  rw [nsValue_of_noOverflow h1, nsValue_of_noOverflow h2]
  have hx := F64.mul_mono_left (F64.ofInt_isFinite h1.1) (F64.ofInt_isFinite h2.1) hfin
    (by rw [← F64.toRat_eq_ext hfin]; exact hpos)
    (F64.ofInt_mono (by omega : c1 - st.base_tsc_ ≤ c2 - st.base_tsc_))
  have := F64.trunc_mono h1.2.1.1 h2.2.1.1 hx
  omega

/-! ## The vector operations -/

/-- The read loop never raises an exception: it returns or keeps looping. -/
theorem tsc2nsLoop_error {ls : List Loads} {tsc : Int} {f : Fault}
    (h : tsc2nsLoop ls tsc = .error f) : f = .blocked := by
  induction ls with
  | nil => simp [tsc2nsLoop] at h; exact h.symm
  | cons l rest ih =>
    simp only [tsc2nsLoop] at h
    split at h
    · simp at h
    · exact ih h

/-- The fault of `cpu_to_ns_vector`, if any, is a loop that has not finished. -/
theorem cpu_to_ns_vector_fault (fuel : Nat) (st : TSCNS) (l : List Int) (f : Fault)
    (h : (cpu_to_ns_vector fuel st l).2 = some f) : f = .blocked := by
  induction l with
  | nil => simp [cpu_to_ns_vector] at h
  | cons t rest ih =>
    simp only [cpu_to_ns_vector] at h
    split at h
    · rename_i g hg
      simp only [Option.some.injEq] at h
      subst h
      exact tsc2nsLoop_error hg
    · exact ih h

/-- With no write in progress `cpu_to_ns_vector` converts every element. -/
theorem cpu_to_ns_vector_stable {st : TSCNS} (hs : Stable st) {fuel : Nat} (hf : 0 < fuel)
    (l : List Int) : cpu_to_ns_vector fuel st l = (l.map (nsValue st), none) := by
  induction l with
  | nil => rfl
  | cons t rest ih =>
    simp only [cpu_to_ns_vector, cpu_to_ns, tsc2ns_stable hs hf, ih, List.map_cons]

/-- With no write in progress and equal lengths, `ns_duration_vector` returns
with both vectors converted and the first holding the differences. -/
theorem ns_duration_vector_stable {st : TSCNS} (hs : Stable st) {fuel : Nat} (hf : 0 < fuel)
    {s e : List Int} (hlen : s.length = e.length) :
    ns_duration_vector fuel st s e
      = { tsc_start := (List.range s.length).map
            (fun i => wrap64 ((e.map (nsValue st)).getD i 0 - (s.map (nsValue st)).getD i 0)),
          tsc_end := e.map (nsValue st), fault := none } := by
  unfold ns_duration_vector
  rw [if_neg (by simpa using hlen), cpu_to_ns_vector_stable hs hf, cpu_to_ns_vector_stable hs hf]
  simp

/-- With no write in progress and equal lengths, element `i` of `tsc_start`
becomes the `int64_t` difference of the two converted elements. -/
theorem ns_duration_vector_getElem {st : TSCNS} (hs : Stable st) {fuel : Nat} (hf : 0 < fuel)
    {s e : List Int} (hlen : s.length = e.length) {i : Nat} {x y : Int}
    (hx : s[i]? = some x) (hy : e[i]? = some y) :
    (ns_duration_vector fuel st s e).tsc_start[i]?
      = some (wrap64 (nsValue st y - nsValue st x)) := by
  rw [ns_duration_vector_stable hs hf hlen]
  have hi : i < s.length := by
    rcases Nat.lt_or_ge i s.length with h | h
    · exact h
    · rw [List.getElem?_eq_none h] at hx; cases hx
  simp only []
  rw [List.getElem?_map, List.getElem?_range hi]
  simp [List.getD, List.getElem?_map, hx, hy]

/-! ## C3: validation of the lengths -/

/-- C3: `ns_duration_vector` raises an exception exactly when the two vectors
differ in length, whatever the state of the clock; when it does, both vectors
are as they were; with equal lengths and no write in progress it returns
without a fault. -/
theorem ns_duration_vector_throws_iff (fuel : Nat) (st : TSCNS) (s e : List Int) :
    ((∃ w, (ns_duration_vector fuel st s e).fault = some (.exception w))
        ↔ s.length ≠ e.length)
      ∧ (s.length ≠ e.length →
          (ns_duration_vector fuel st s e).fault = some (.exception sizeMismatch)
            ∧ (ns_duration_vector fuel st s e).tsc_start = s
            ∧ (ns_duration_vector fuel st s e).tsc_end = e)
      ∧ (s.length = e.length → Stable st → 0 < fuel →
          (ns_duration_vector fuel st s e).fault = none) := by
  have hne : s.length ≠ e.length →
      (ns_duration_vector fuel st s e).fault = some (.exception sizeMismatch)
        ∧ (ns_duration_vector fuel st s e).tsc_start = s
        ∧ (ns_duration_vector fuel st s e).tsc_end = e := by
    intro h
    unfold ns_duration_vector
    rw [if_pos h]
    exact ⟨rfl, rfl, rfl⟩
  refine ⟨⟨?_, fun h => ⟨sizeMismatch, (hne h).1⟩⟩, hne, ?_⟩
  · rintro ⟨w, hw⟩ heq
    unfold ns_duration_vector at hw
    rw [if_neg (by simpa using heq)] at hw
    generalize h1 : cpu_to_ns_vector fuel st s = r1 at hw
    obtain ⟨s1, f1⟩ := r1
    cases f1 with
    | some f =>
      simp only [Option.some.injEq] at hw
      have := cpu_to_ns_vector_fault fuel st s f (by rw [h1])
      rw [hw] at this
      cases this
    | none =>
      simp only at hw
      generalize h2 : cpu_to_ns_vector fuel st e = r2 at hw
      obtain ⟨e1, f2⟩ := r2
      cases f2 with
      | some f =>
        simp only [Option.some.injEq] at hw
        have := cpu_to_ns_vector_fault fuel st e f (by rw [h2])
        rw [hw] at this
        cases this
      | none => simp at hw
  · intro hlen hs hf
    rw [ns_duration_vector_stable hs hf hlen]

/-- An instance of `ns_duration_vector_throws_iff`: vectors of lengths 3 and 4. -/
theorem ns_duration_vector_throws_iff_witness :
    (ns_duration_vector 1 snapshotHalf [1000, 1002, 1004] [1010, 1012, 1014, 1016]).fault
        = some (.exception sizeMismatch)
      ∧ (ns_duration_vector 1 snapshotHalf [1000, 1002, 1004] [1010, 1012, 1014, 1016]).tsc_start
        = [1000, 1002, 1004]
      ∧ (ns_duration_vector 1 snapshotHalf [1000, 1002, 1004] [1010, 1012, 1014, 1016]).tsc_end
        = [1010, 1012, 1014, 1016] :=
  (ns_duration_vector_throws_iff 1 snapshotHalf [1000, 1002, 1004]
    [1010, 1012, 1014, 1016]).2.1 (by decide)

/-! ## C4: the differences -/

/-- C4: for vectors of equal length `n` and a snapshot with no write in
progress, `ns_duration_vector` returns without a fault, `tsc_start` keeps
length `n`, and its element `i` is the `int64_t` difference
`tsc2ns(e[i]) - tsc2ns(s[i])`, which is the mathematical difference whenever
that is an `int64_t`: nothing is clamped. -/
theorem ns_duration_vector_differences (fuel : Nat) (st : TSCNS) (s e : List Int)
    (hf : 0 < fuel) (hs : Stable st) (hlen : s.length = e.length) :
    (ns_duration_vector fuel st s e).fault = none
      ∧ (ns_duration_vector fuel st s e).tsc_start.length = s.length
      ∧ ∀ (i : Nat) (x y : Int), s[i]? = some x → e[i]? = some y →
          ∃ a b : Int, tsc2ns fuel st x = .ok a ∧ tsc2ns fuel st y = .ok b
            ∧ (ns_duration_vector fuel st s e).tsc_start[i]? = some (wrap64 (b - a))
            ∧ (InInt64 (b - a) →
                (ns_duration_vector fuel st s e).tsc_start[i]? = some (b - a)) := by
  refine ⟨?_, ?_, ?_⟩
  · rw [ns_duration_vector_stable hs hf hlen]
  · rw [ns_duration_vector_stable hs hf hlen]; simp
  · intro i x y hx hy
    have key := ns_duration_vector_getElem hs hf hlen hx hy
    refine ⟨nsValue st x, nsValue st y, tsc2ns_stable hs hf x, tsc2ns_stable hs hf y, key, ?_⟩
    intro hr
    rw [key, wrap64_of_inInt64 hr]

/-- An instance of `ns_duration_vector_differences`: two vectors of length 2 on
the snapshot `snapshotHalf`. -/
theorem ns_duration_vector_differences_witness :
    (ns_duration_vector 1 snapshotHalf [1000, 1003] [1010, 1001]).fault = none
      ∧ (ns_duration_vector 1 snapshotHalf [1000, 1003] [1010, 1001]).tsc_start.length = 2
      ∧ ∀ (i : Nat) (x y : Int), [1000, 1003][i]? = some x → [1010, 1001][i]? = some y →
          ∃ a b : Int, tsc2ns 1 snapshotHalf x = .ok a ∧ tsc2ns 1 snapshotHalf y = .ok b
            ∧ (ns_duration_vector 1 snapshotHalf [1000, 1003] [1010, 1001]).tsc_start[i]?
                = some (wrap64 (b - a))
            ∧ (InInt64 (b - a) →
                (ns_duration_vector 1 snapshotHalf [1000, 1003] [1010, 1001]).tsc_start[i]?
                  = some (b - a)) :=
  ns_duration_vector_differences 1 snapshotHalf [1000, 1003] [1010, 1001] (by decide)
    (by decide) (by decide)

/-! ## The structure of `saveParam`, `init` and `calibrate` -/

theorem saveParam_param_seq (st : TSCNS) (bt bn sn : Int) (x : F64) :
    (saveParam st bt bn sn x).param_seq_ = wrap32 (wrap32 (st.param_seq_ + 1) + 1) := rfl

theorem saveParam_base_tsc (st : TSCNS) (bt bn sn : Int) (x : F64) :
    (saveParam st bt bn sn x).base_tsc_ = bt := rfl

theorem saveParam_base_ns (st : TSCNS) (bt bn sn : Int) (x : F64) :
    (saveParam st bt bn sn x).base_ns_ = bn := rfl

theorem saveParam_ns_per_tsc (st : TSCNS) (bt bn sn : Int) (x : F64) :
    (saveParam st bt bn sn x).ns_per_tsc_ = x := rfl

theorem saveParam_base_ns_err (st : TSCNS) (bt bn sn : Int) (x : F64) :
    (saveParam st bt bn sn x).base_ns_err_ = wrap64 (bn - sn) := rfl

theorem saveParam_interval (st : TSCNS) (bt bn sn : Int) (x : F64) :
    (saveParam st bt bn sn x).calibate_interval_ns_ = st.calibate_interval_ns_ := rfl

/-- Two increments of a `uint32_t` add `2` modulo `2 ^ 32`. -/
theorem wrap32_twice (n : Nat) : wrap32 (wrap32 (n + 1) + 1) = (n + 2) % 2 ^ 32 := by
  unfold wrap32; omega

/-- `saveParam` keeps the sequence counter stable. -/
theorem saveParam_stable {st : TSCNS} (h : st.param_seq_ % 2 = 0) (bt bn sn : Int) (x : F64) :
    Stable (saveParam st bt bn sn x) := by
  unfold Stable
  rw [saveParam_param_seq, wrap32_twice]
  omega

/-- A value returned by `tsc2ns` is the value of a pass on the parameters. -/
theorem tsc2ns_ok {fuel : Nat} {st : TSCNS} {c v : Int} (h : tsc2ns fuel st c = .ok v) :
    v = nsValue st c := by
  unfold tsc2ns at h
  induction fuel with
  | zero => simp [tsc2nsLoop] at h
  | succ f ih =>
    simp only [List.replicate_succ, tsc2nsLoop] at h
    split at h
    · rename_i ns hns
      rw [tsc2nsPass_eq] at hns
      split at hns
      · simp only [Option.some.injEq, Except.ok.injEq] at hns h
        rw [← h, ← hns]; rfl
      · cases hns
    · exact ih h

/-- What `init` has done when it returns. -/
theorem init_ok {st : TSCNS} {env : Env} {a b : Int} {st' : TSCNS} {env' : Env}
    (h : init st env a b = .ok (st', env')) :
    ∃ bt bn env1 rest dt dn, syncTime env = .ok (bt, bn, env1)
      ∧ waitUntil (wrap64 (bn + a)) env1.ns = some rest
      ∧ syncTime { env1 with ns := rest } = .ok (dt, dn, env')
      ∧ st' = saveParam { st with calibate_interval_ns_ := b } bt bn bn
          (F64.div (F64.ofInt (wrap64 (dn - bn))) (F64.ofInt (wrap64 (dt - bt)))) := by
  unfold init at h
  simp only [bind, Except.bind, pure, Except.pure] at h
  split at h
  · cases h
  · rename_i v hv
    obtain ⟨bt, bn, env1⟩ := v
    simp only at h
    split at h
    · cases h
    · rename_i rest hrest
      split at h
      · cases h
      · rename_i w hw
        obtain ⟨dt, dn, env2⟩ := w
        simp only [Except.ok.injEq, Prod.mk.injEq] at h
        exact ⟨bt, bn, env1, rest, dt, dn, hv, hrest, by rw [hw, h.2], h.1.symm⟩

/-- `init` returns as soon as the clocks supply its two samples and a
wall-clock reading that ends the wait. -/
theorem init_of {env : Env} {bt bn dt dn : Int} {env1 env2 : Env} {rest : List Int}
    (st : TSCNS) (a b : Int) (h1 : syncTime env = .ok (bt, bn, env1))
    (h2 : waitUntil (wrap64 (bn + a)) env1.ns = some rest)
    (h3 : syncTime { env1 with ns := rest } = .ok (dt, dn, env2)) :
    init st env a b = .ok (saveParam { st with calibate_interval_ns_ := b } bt bn bn
          (F64.div (F64.ofInt (wrap64 (dn - bn))) (F64.ofInt (wrap64 (dt - bt)))), env2) := by
  unfold init
  simp only [bind, Except.bind, pure, Except.pure, h1, h2, h3]

/-- `init` raises no exception. -/
theorem init_no_exception (st : TSCNS) (env : Env) (a b : Int) (w : String) :
    init st env a b ≠ .error (.exception w) := by
  have rd : ∀ e f, rdtsc e = .error f → f = .blocked := by
    intro e f h
    unfold rdtsc at h
    split at h
    · simp only [Except.error.injEq] at h; exact h.symm
    · cases h
  have rs : ∀ e f, rdsysns e = .error f → f = .blocked := by
    intro e f h
    unfold rdsysns at h
    split at h
    · simp only [Except.error.injEq] at h; exact h.symm
    · cases h
  have sy : ∀ e f, syncTime e = .error f → f = .blocked := by
    intro e f h
    unfold syncTime at h
    simp only [bind, Except.bind, pure, Except.pure] at h
    repeat' split at h
    all_goals
      cases h <;> first
        | exact rd _ _ (by assumption)
        | exact rs _ _ (by assumption)
  intro h
  unfold init at h
  simp only [bind, Except.bind, pure, Except.pure] at h
  split at h
  · rename_i f hf
    simp only [Except.error.injEq] at h
    have := sy _ _ hf
    rw [h] at this; cases this
  · split at h
    · cases h
    · split at h
      · rename_i f hf
        simp only [Except.error.injEq] at h
        have := sy _ _ hf
        rw [h] at this; cases this
      · cases h

/-- A `calibrate` call below `next_calibrate_tsc_` takes one cycle reading and
returns. -/
theorem calibrate_noop (fuel : Nat) (st : TSCNS) (env : Env) (c : Int) (rest : List Int)
    (henv : env.tsc = c :: rest) (hc : c < st.next_calibrate_tsc_) :
    calibrate fuel st env = .ok (st, { env with tsc := rest }) := by
  simp [calibrate, rdtsc, henv, hc, bind, Except.bind, pure, Except.pure]

/-- What `calibrate` has done when it returns. -/
theorem calibrate_ok {fuel : Nat} {st : TSCNS} {env : Env} {st' : TSCNS} {env' : Env}
    (h : calibrate fuel st env = .ok (st', env')) :
    ∃ now env1, rdtsc env = .ok (now, env1) ∧
      ((now < st.next_calibrate_tsc_ ∧ st' = st ∧ env' = env1) ∨
       (¬ now < st.next_calibrate_tsc_ ∧ ∃ tsc ns E,
          syncTime env1 = .ok (tsc, ns, env')
          ∧ tsc2ns fuel st tsc = .ok (nsValue st tsc)
          ∧ projectedErr st (nsValue st tsc) ns = .ok E
          ∧ st' = saveParam st tsc (nsValue st tsc) ns (correctedSlope st E))) := by
  unfold calibrate at h
  simp only [bind, Except.bind, pure, Except.pure] at h
  split at h
  · cases h
  · rename_i v hv
    obtain ⟨now, env1⟩ := v
    refine ⟨now, env1, hv, ?_⟩
    simp only at h
    split at h
    · rename_i hlt
      simp only [Except.ok.injEq, Prod.mk.injEq] at h
      exact Or.inl ⟨hlt, h.1.symm, h.2.symm⟩
    · rename_i hge
      right
      refine ⟨hge, ?_⟩
      split at h
      · cases h
      · rename_i w hw
        obtain ⟨tsc, ns, env2⟩ := w
        simp only at h
        split at h
        · cases h
        · rename_i cn hcn
          have hcn' := tsc2ns_ok hcn
          subst hcn'
          split at h
          · cases h
          · rename_i q hq
            simp only [Except.ok.injEq, Prod.mk.injEq] at h
            refine ⟨tsc, ns, wrap64 (wrap64 (nsValue st tsc - ns) + q), ?_, hcn, ?_, ?_⟩
            · rw [hw, h.2]
            · unfold projectedErr
              simp only [bind, Except.bind, pure, Except.pure, hq]
            · rw [← h.1]; rfl

/-- Between calls the sequence counter is an even `uint32_t`. -/
theorem Reachable.stable {st : TSCNS} (h : Reachable st) : Stable st := by
  induction h with
  | fresh st h0 => unfold Stable; rw [h0]; decide
  | init _ hi ih =>
    obtain ⟨bt, bn, env1, rest, dt, dn, _, _, _, hst⟩ := init_ok hi
    subst hst
    apply saveParam_stable
    exact ih.2
  | calibrate _ hc ih =>
    obtain ⟨now, env1, _, h1 | h2⟩ := calibrate_ok hc
    · rw [h1.2.1]; exact ih
    · obtain ⟨_, tsc, ns, E, _, _, _, hst⟩ := h2
      subst hst
      apply saveParam_stable
      exact ih.2

/-! ## C5: the sign of an elapsed time -/

/-- C5, as stated, fails: on `snapshotHalf` (slope `0.5 > 0`) the elapsed time
for start `a = 1001` and end `b = 1000 < a` is `0`, which is not negative;
no error is raised. -/
theorem elapsed_not_negative :
    0 < snapshotHalf.ns_per_tsc_.toRat ∧ (1000 : Int) < 1001
      ∧ ns_duration_vector 1 snapshotHalf [1001] [1000]
          = { tsc_start := [0], tsc_end := [5000], fault := none }
      ∧ ¬ ((0 : Int) < 0) := by
  refine ⟨?_, by decide, by decide!, by decide⟩
  norm_num [snapshotHalf, F64.half, F64.toRat]

/-- C5, amended: for a snapshot with no write in progress and a finite slope
`ns_per_tsc_ > 0`, and cycles `b < a` at the same position of the end and the
start vector, `ns_duration_vector` raises no error and leaves at that position
`tsc2ns(b) - tsc2ns(a)`, which is at most zero (it can be zero); this when the
`int64_t` arithmetic of the two conversions and of the difference does not
overflow. -/
theorem elapsed_nonpositive (fuel : Nat) (st : TSCNS) (s e : List Int) (i : Nat) (a b : Int)
    (hf : 0 < fuel) (hs : Stable st) (hfin : st.ns_per_tsc_.isFinite = true)
    (hpos : 0 < st.ns_per_tsc_.toRat) (hlen : s.length = e.length)
    (ha : s[i]? = some a) (hb : e[i]? = some b) (hba : b < a)
    (hoa : NoOverflow st a) (hob : NoOverflow st b) :
    ∃ ra rb : Int, tsc2ns fuel st a = .ok ra ∧ tsc2ns fuel st b = .ok rb
      ∧ (ns_duration_vector fuel st s e).fault = none
      ∧ (InInt64 (rb - ra) → (ns_duration_vector fuel st s e).tsc_start[i]? = some (rb - ra))
      ∧ rb - ra ≤ 0 := by
  have key := ns_duration_vector_getElem hs hf hlen ha hb
  refine ⟨nsValue st a, nsValue st b, tsc2ns_stable hs hf a, tsc2ns_stable hs hf b, ?_, ?_, ?_⟩
  · rw [ns_duration_vector_stable hs hf hlen]
  · intro hr
    rw [key, wrap64_of_inInt64 hr]
  · have := nsValue_mono hfin (le_of_lt hpos) (le_of_lt hba) hob hoa
    omega

/-- An instance of `elapsed_nonpositive`: `snapshotHalf`, start `1003`, end
`1001`. -/
theorem elapsed_nonpositive_witness :
    ∃ ra rb : Int, tsc2ns 1 snapshotHalf 1003 = .ok ra ∧ tsc2ns 1 snapshotHalf 1001 = .ok rb
      ∧ (ns_duration_vector 1 snapshotHalf [1003] [1001]).fault = none
      ∧ (InInt64 (rb - ra) →
          (ns_duration_vector 1 snapshotHalf [1003] [1001]).tsc_start[0]? = some (rb - ra))
      ∧ rb - ra ≤ 0 :=
  elapsed_nonpositive 1 snapshotHalf [1003] [1001] 0 1003 1001 (by decide) (by decide)
    (by decide) (by norm_num [snapshotHalf, F64.half, F64.toRat]) (by decide) (by decide)
    (by decide) (by decide) (by decide!) (by decide!)

/-! ## C7: the sequence counter -/

/-- C7: in every state between calls of an object that started with
`param_seq_ = 0` the counter is an even `uint32_t`; a `saveParam` call from such
a state leaves it unchanged during its first two stores, holds the odd value
`param_seq_ + 1` from its third store to its sixth, which are the stores of
`base_tsc_`, `base_ns_` and `ns_per_tsc_`, and ends on the even value
`param_seq_ + 2` modulo `2 ^ 32`; the three parameters keep their old values
until the counter is odd and have their new values before it is even again. -/
theorem param_seq_protocol (st : TSCNS) (h : Reachable st) (bt bn sn : Int) (x : F64) :
    Stable st
      ∧ (saveParam st bt bn sn x).param_seq_ = (st.param_seq_ + 2) % 2 ^ 32
      ∧ (saveParam st bt bn sn x).param_seq_ % 2 = 0
      ∧ (∀ k, k < 3 → (saveParamAt k st bt bn sn x).param_seq_ = st.param_seq_)
      ∧ (∀ k, 3 ≤ k → k < 7 →
          (saveParamAt k st bt bn sn x).param_seq_ = (st.param_seq_ + 1) % 2 ^ 32
            ∧ (saveParamAt k st bt bn sn x).param_seq_ % 2 = 1)
      ∧ (∀ k, 7 ≤ k →
          (saveParamAt k st bt bn sn x).param_seq_ = (st.param_seq_ + 2) % 2 ^ 32)
      ∧ (∀ k, k ≤ 3 → (saveParamAt k st bt bn sn x).base_tsc_ = st.base_tsc_
          ∧ (saveParamAt k st bt bn sn x).base_ns_ = st.base_ns_
          ∧ (saveParamAt k st bt bn sn x).ns_per_tsc_ = st.ns_per_tsc_)
      ∧ (∀ k, 6 ≤ k → (saveParamAt k st bt bn sn x).base_tsc_ = bt
          ∧ (saveParamAt k st bt bn sn x).base_ns_ = bn
          ∧ (saveParamAt k st bt bn sn x).ns_per_tsc_ = x)
      ∧ (∀ env a b st' env', init st env a b = .ok (st', env') →
          st'.param_seq_ = (st.param_seq_ + 2) % 2 ^ 32)
      ∧ (∀ fuel env st' env', calibrate fuel st env = .ok (st', env') →
          st' = st ∨ st'.param_seq_ = (st.param_seq_ + 2) % 2 ^ 32) := by
  have hst := h.stable
  have hmid : ∀ k, 3 ≤ k → k < 7 →
      (saveParamAt k st bt bn sn x).param_seq_ = (st.param_seq_ + 1) % 2 ^ 32 := by
    intro k hk hk7
    have h1 : 1 ≤ k := by omega
    have h2 : 2 ≤ k := by omega
    have h7 : ¬ 7 ≤ k := by omega
    simp only [saveParamAt, h1, h2, hk, h7, if_true, if_false]
    split_ifs <;> simp [wrap32]
  refine ⟨hst, ?_, ?_, ?_, ?_, ?_, ?_, ?_, ?_, ?_⟩
  · rw [saveParam_param_seq, wrap32_twice]
  · exact (saveParam_stable hst.2 bt bn sn x).2
  · intro k hk
    have h3 : ¬ 3 ≤ k := by omega
    have h4 : ¬ 4 ≤ k := by omega
    have h5 : ¬ 5 ≤ k := by omega
    have h6 : ¬ 6 ≤ k := by omega
    have h7 : ¬ 7 ≤ k := by omega
    simp only [saveParamAt, h3, h4, h5, h6, h7, if_false]
    split_ifs <;> rfl
  · intro k hk hk7
    refine ⟨hmid k hk hk7, ?_⟩
    rw [hmid k hk hk7]
    have := hst.1
    have := hst.2
    omega
  · intro k hk
    have h1 : 1 ≤ k := by omega
    have h2 : 2 ≤ k := by omega
    have h3 : 3 ≤ k := by omega
    have h4 : 4 ≤ k := by omega
    have h5 : 5 ≤ k := by omega
    have h6 : 6 ≤ k := by omega
    simp only [saveParamAt, h1, h2, h3, h4, h5, h6, hk, if_true]
    exact wrap32_twice _
  · intro k hk
    have h4 : ¬ 4 ≤ k := by omega
    have h5 : ¬ 5 ≤ k := by omega
    have h6 : ¬ 6 ≤ k := by omega
    have h7 : ¬ 7 ≤ k := by omega
    simp only [saveParamAt, h4, h5, h6, h7, if_false]
    split_ifs <;> exact ⟨rfl, rfl, rfl⟩
  · intro k hk
    have h1 : 1 ≤ k := by omega
    have h2 : 2 ≤ k := by omega
    have h3 : 3 ≤ k := by omega
    have h4 : 4 ≤ k := by omega
    have h5 : 5 ≤ k := by omega
    simp only [saveParamAt, h1, h2, h3, h4, h5, hk, if_true]
    split_ifs <;> exact ⟨rfl, rfl, rfl⟩
  · intro env a b st' env' hi
    obtain ⟨bt', bn', env1, rest, dt, dn, _, _, _, hs'⟩ := init_ok hi
    subst hs'
    rw [saveParam_param_seq, wrap32_twice]
  · intro fuel env st' env' hc
    obtain ⟨now, env1, _, h1 | h2⟩ := calibrate_ok hc
    · exact Or.inl h1.2.1
    · obtain ⟨_, tsc, ns, E, _, _, _, hs'⟩ := h2
      subst hs'
      right
      rw [saveParam_param_seq, wrap32_twice]

/-- An instance of `param_seq_protocol`: the state `afterInit`, reached from a
new object by `init()`, and the `saveParam` call of a calibration. -/
theorem param_seq_protocol_witness :
    Stable afterInit
      ∧ (saveParam afterInit 3000001150 3000001150 1000001150 F64.one).param_seq_
          = (afterInit.param_seq_ + 2) % 2 ^ 32
      ∧ (saveParam afterInit 3000001150 3000001150 1000001150 F64.one).param_seq_ % 2 = 0 :=
  have h := param_seq_protocol afterInit
    (Reachable.init (Reachable.fresh freshTSCNS rfl)
      (show init freshTSCNS steppedClock 20000000 3000000000
          = .ok (afterInit, steppedClockAfterInit) by decide!))
    3000001150 3000001150 1000001150 F64.one
  ⟨h.1, h.2.1, h.2.2.1⟩

/-! ## C9: the arguments of `init` -/

/-- C9, as stated, fails: `init(-20000000, -3000000000)` on `steppedClock`
reports no failure and publishes parameters: `param_seq_` becomes `2`, the
anchor `(1050, 1050)` and the slope `1.0` are stored, next to the negative
interval. -/
theorem init_accepts_nonpositive :
    init freshTSCNS steppedClock (-20000000) (-3000000000)
      = .ok ({ param_seq_ := 2, ns_per_tsc_ := F64.one, base_tsc_ := 1050, base_ns_ := 1050,
               calibate_interval_ns_ := -3000000000, base_ns_err_ := 0,
               next_calibrate_tsc_ := -2999999950 }, steppedClockAfterInit) := by
  decide!

/-- C9, amended: `init` checks neither argument. For every argument pair,
positive or not, it raises no exception; it returns as soon as the clocks
supply its two samples and a wall-clock reading that ends the wait; and when
it returns it has published through `saveParam`: `param_seq_` has advanced by
`2`, the first sample is the anchor, `base_ns_err_` is `0` and
`calibate_interval_ns_` is the argument as given. The `tsc_timer` constructor
calls it with the defaults `20000000` and `3000000000`. -/
theorem init_checks_no_argument (st : TSCNS) (env : Env) (a b : Int) :
    (∀ w, init st env a b ≠ .error (.exception w))
      ∧ (∀ bt bn dt dn env1 env2 rest, syncTime env = .ok (bt, bn, env1) →
          waitUntil (wrap64 (bn + a)) env1.ns = some rest →
          syncTime { env1 with ns := rest } = .ok (dt, dn, env2) →
          ∃ st', init st env a b = .ok (st', env2))
      ∧ (∀ st' env', init st env a b = .ok (st', env') →
          st'.param_seq_ = (st.param_seq_ + 2) % 2 ^ 32
            ∧ st'.calibate_interval_ns_ = b ∧ st'.base_ns_err_ = 0
            ∧ ∃ bt bn env1, syncTime env = .ok (bt, bn, env1)
                ∧ st'.base_tsc_ = bt ∧ st'.base_ns_ = bn)
      ∧ tsc_timer st env = init st env 20000000 3000000000 := by
  refine ⟨init_no_exception st env a b, ?_, ?_, rfl⟩
  · intro bt bn dt dn env1 env2 rest h1 h2 h3
    exact ⟨_, init_of st a b h1 h2 h3⟩
  · intro st' env' h
    obtain ⟨bt, bn, env1, rest, dt, dn, h1, _, _, hs'⟩ := init_ok h
    subst hs'
    refine ⟨?_, rfl, ?_, bt, bn, env1, h1, rfl, rfl⟩
    · rw [saveParam_param_seq, wrap32_twice]
    · rw [saveParam_base_ns_err]
      simp [wrap64]

/-- An instance of `init_checks_no_argument`: a new object, the clock
`steppedClock`, and the arguments `(-20000000, -3000000000)`. -/
theorem init_checks_no_argument_witness :
    ∃ st', init freshTSCNS steppedClock (-20000000) (-3000000000)
        = .ok (st', steppedClockAfterInit) :=
  (init_checks_no_argument freshTSCNS steppedClock (-20000000) (-3000000000)).2.1
    1050 1050 20001250 20001250 steppedClockInInit steppedClockAfterInit
    [20001250, 20001350, 20001450, 1000001150, 1000001250, 1000001350]
    (by decide!) (by decide!) (by decide!)

/-! ## C10: the rate limit of `calibrate` -/

/-- C10: when the cycle counter reads `c < next_calibrate_tsc_`, `calibrate`
returns with every member of the object unchanged, having consumed that one
cycle reading and no wall-clock reading: no clock sample is taken. -/
theorem calibrate_before_next_is_noop (fuel : Nat) (st : TSCNS) (env : Env) (c : Int)
    (rest : List Int) (henv : env.tsc = c :: rest) (hc : c < st.next_calibrate_tsc_) :
    ∃ st' env', calibrate fuel st env = .ok (st', env')
      ∧ st'.param_seq_ = st.param_seq_ ∧ st'.base_tsc_ = st.base_tsc_
      ∧ st'.base_ns_ = st.base_ns_ ∧ st'.ns_per_tsc_ = st.ns_per_tsc_
      ∧ st'.base_ns_err_ = st.base_ns_err_
      ∧ st'.next_calibrate_tsc_ = st.next_calibrate_tsc_
      ∧ st' = st ∧ env'.tsc = rest ∧ env'.ns = env.ns :=
  ⟨st, { env with tsc := rest }, calibrate_noop fuel st env c rest henv hc,
    rfl, rfl, rfl, rfl, rfl, rfl, rfl, rfl, rfl⟩

/-- An instance of `calibrate_before_next_is_noop`: the state `afterInit`, whose
next calibration is due at cycle `3000000050`, and a counter reading
`2000000000`. -/
theorem calibrate_before_next_is_noop_witness :
    ∃ st' env', calibrate 1 afterInit { tsc := [2000000000, 2000000100], ns := [2000000050] }
        = .ok (st', env')
      ∧ st'.param_seq_ = afterInit.param_seq_ ∧ st'.base_tsc_ = afterInit.base_tsc_
      ∧ st'.base_ns_ = afterInit.base_ns_ ∧ st'.ns_per_tsc_ = afterInit.ns_per_tsc_
      ∧ st'.base_ns_err_ = afterInit.base_ns_err_
      ∧ st'.next_calibrate_tsc_ = afterInit.next_calibrate_tsc_
      ∧ st' = afterInit ∧ env'.tsc = [2000000100] ∧ env'.ns = [2000000050] :=
  calibrate_before_next_is_noop 1 afterInit
    { tsc := [2000000000, 2000000100], ns := [2000000050] } 2000000000 [2000000100]
    rfl (by decide)

/-! ## C2: monotonicity of the readings -/

/-- What `rdns` has done when it returns. -/
theorem rdns_ok {fuel : Nat} {st : TSCNS} {env env' : Env} {r : Int}
    (h : rdns fuel st env = .ok (r, env')) :
    ∃ c rest, env.tsc = c :: rest ∧ r = nsValue st c := by
  unfold rdns at h
  simp only [bind, Except.bind, pure, Except.pure] at h
  split at h
  · cases h
  · rename_i v hv
    obtain ⟨c, env1⟩ := v
    simp only at h
    split at h
    · cases h
    · rename_i ns hns
      simp only [Except.ok.injEq, Prod.mk.injEq] at h
      unfold rdtsc at hv
      split at hv
      · cases hv
      · rename_i t rest ht
        simp only [Except.ok.injEq, Prod.mk.injEq] at hv
        refine ⟨t, rest, ht, ?_⟩
        rw [← h.1, tsc2ns_ok hns, hv.1]

/-- At the anchor cycle the conversion returns the anchor time. -/
theorem nsValue_anchor {st : TSCNS} (hfin : st.ns_per_tsc_.isFinite = true)
    (hb : InInt64 st.base_ns_) :
    NoOverflow st st.base_tsc_ ∧ nsValue st st.base_tsc_ = st.base_ns_ := by
  have h0 : F64.ofInt (st.base_tsc_ - st.base_tsc_) = F64.fin false 0 0 := by
    rw [sub_self]; rfl
  have hm : ∃ t, F64.mul (F64.ofInt (st.base_tsc_ - st.base_tsc_)) st.ns_per_tsc_
      = F64.fin t 0 0 := by
    rw [h0]
    cases hx : st.ns_per_tsc_ with
    | inf _ => rw [hx] at hfin; simp [F64.isFinite] at hfin
    | nan => rw [hx] at hfin; simp [F64.isFinite] at hfin
    | fin t k f => exact ⟨t, by simp [F64.mul, F64.round]⟩
  obtain ⟨t, ht⟩ := hm
  have htr : F64.trunc (F64.fin t 0 0) = 0 := by
    cases t <;> simp [F64.trunc]
  have hno : NoOverflow st st.base_tsc_ := by
    refine ⟨?_, ?_, ?_⟩
    · rw [sub_self]; unfold InInt64; omega
    · rw [ht]; refine ⟨rfl, ?_⟩; rw [htr]; unfold InInt64; omega
    · rw [ht, htr, add_zero]; exact hb
  refine ⟨hno, ?_⟩
  rw [nsValue_of_noOverflow hno, ht, htr, add_zero]

theorem nsValue_inInt64 (st : TSCNS) (c : Int) : InInt64 (nsValue st c) :=
  wrap64_inInt64 _

/-- C2, as stated, fails. On `steppedClock` a new object runs `init()`, a
reader calls `rdns()` at cycle `3000000900` and gets `3000000900`, a `calibrate`
call republishes, and a reader calls `rdns()` at the later cycle `3000001500`
and gets `3000000567`, which is less: the calibration met a wall clock set back
by two seconds and published a negative slope. -/
theorem rdns_not_monotone :
    init freshTSCNS steppedClock 20000000 3000000000 = .ok (afterInit, steppedClockAfterInit)
      ∧ rdns 1 afterInit steppedClockAfterInit = .ok (3000000900, steppedClockAfterRead)
      ∧ calibrate 1 afterInit steppedClockAfterRead
          = .ok (afterCalibrate, steppedClockAfterCalibrate)
      ∧ rdns 1 afterCalibrate steppedClockAfterCalibrate = .ok (3000000567, { tsc := [], ns := [] })
      ∧ steppedClockAfterInit.tsc.head? = some 3000000900
      ∧ steppedClockAfterCalibrate.tsc.head? = some 3000001500
      ∧ (3000000900 : Int) ≤ 3000001500
      ∧ ¬ ((3000000567 : Int) ≥ 3000000900) := by
  refine ⟨by decide!, by decide!, by decide!, by decide!, by decide, by decide, by decide,
    by decide⟩

/-- C2, amended: let a reader call `rdns()` at cycle `c1` in state `st`, let a
`calibrate` call take `st` to `st'`, and let a reader call `rdns()` at cycle
`c2 ≥ c1` in `st'`. The second result is at least the first when the slopes of
`st` and `st'` are finite and not negative and, if the call republished, its
new anchor cycle lies between the two readings (`c1 ≤ base_tsc_ ≤ c2`); this
when the `int64_t` arithmetic of the conversions involved does not overflow. -/
theorem rdns_monotone (fuel : Nat) (st st' : TSCNS) (env env' e1 e1' e2 e2' : Env)
    (c1 c2 r1 r2 : Int) (t1 t2 : List Int)
    (h1 : rdns fuel st e1 = .ok (r1, e1')) (hc1 : e1.tsc = c1 :: t1)
    (hcal : calibrate fuel st env = .ok (st', env'))
    (h2 : rdns fuel st' e2 = .ok (r2, e2')) (hc2 : e2.tsc = c2 :: t2)
    (hc : c1 ≤ c2)
    (hanchor : st' = st ∨ (c1 ≤ st'.base_tsc_ ∧ st'.base_tsc_ ≤ c2))
    (hfin : st.ns_per_tsc_.isFinite = true) (hpos : 0 ≤ st.ns_per_tsc_.toRat)
    (hfin' : st'.ns_per_tsc_.isFinite = true) (hpos' : 0 ≤ st'.ns_per_tsc_.toRat)
    (ho1 : NoOverflow st c1) (hoa : NoOverflow st st'.base_tsc_) (ho2 : NoOverflow st' c2) :
    r1 ≤ r2 := by
  obtain ⟨c1', t1', hc1', hr1⟩ := rdns_ok h1
  obtain ⟨c2', t2', hc2', hr2⟩ := rdns_ok h2
  rw [hc1] at hc1'
  rw [hc2] at hc2'
  simp only [List.cons.injEq] at hc1' hc2'
  rw [← hc1'.1] at hr1
  rw [← hc2'.1] at hr2
  subst hr1 hr2
  obtain ⟨now, env1, _, hn | hw⟩ := calibrate_ok hcal
  · obtain ⟨_, hst, _⟩ := hn
    subst hst
    exact nsValue_mono hfin hpos hc ho1 ho2
  · obtain ⟨_, tsc, ns, E, _, _, _, hst⟩ := hw
    rcases hanchor with heq | ⟨ha1, ha2⟩
    · subst heq
      exact nsValue_mono hfin hpos hc ho1 ho2
    · have hbt : st'.base_tsc_ = tsc := by rw [hst]; rfl
      have hbn : st'.base_ns_ = nsValue st tsc := by rw [hst]; rfl
      have hanch := nsValue_anchor hfin' (by rw [hbn]; exact nsValue_inInt64 st tsc)
      have s1 : nsValue st c1 ≤ nsValue st st'.base_tsc_ := nsValue_mono hfin hpos ha1 ho1 hoa
      have s2 : nsValue st' st'.base_tsc_ ≤ nsValue st' c2 :=
        nsValue_mono hfin' hpos' ha2 hanch.1 ho2
      rw [hanch.2, hbn, ← hbt] at s2
      exact le_trans s1 s2

/-- An instance of `rdns_monotone`: the state `afterInit`, a read at cycle
`3000000900`, the `calibrate` call on `steadyClock`, which moves the anchor to
cycle `3000001150` and the slope to about `1.0000002`, and a read at cycle
`3000001500`. -/
theorem rdns_monotone_witness :
    rdns 1 afterInit { tsc := [3000000900], ns := [] } = .ok (3000000900, { tsc := [], ns := [] })
      ∧ calibrate 1 afterInit steadyClock = .ok (afterSteadyCalibrate, { tsc := [], ns := [] })
      ∧ rdns 1 afterSteadyCalibrate { tsc := [3000001500], ns := [] }
          = .ok (3000001500, { tsc := [], ns := [] })
      ∧ (3000000900 : Int) ≤ 3000001500 :=
  ⟨by decide!, by decide!, by decide!,
    rdns_monotone 1 afterInit afterSteadyCalibrate steadyClock { tsc := [], ns := [] }
      { tsc := [3000000900], ns := [] } { tsc := [], ns := [] }
      { tsc := [3000001500], ns := [] } { tsc := [], ns := [] }
      3000000900 3000001500 3000000900 3000001500 [] []
      (by decide!) rfl (by decide!) (by decide!) rfl (by decide)
      (Or.inr (by decide))
      (by decide) (by norm_num [afterInit, F64.one, F64.toRat])
      (by decide) (by norm_num [afterSteadyCalibrate, F64.toRat])
      (by decide!) (by decide!) (by decide!)⟩

/-! ## The sign of the slope -/

namespace F64

/-- A representable value below the quotient is below its rounding. -/
theorem ext_round_ge (s : Bool) {n d : Nat} (hd : 0 < d) (t : Bool) {M : Nat} {E : Int}
    (hM : M < 2 ^ 53) (hE : -1074 ≤ E) (hcap : (M : ℚ) * (2 : ℚ) ^ E ≤ (2 : ℚ) ^ (1024 : Int))
    (h : sgn t * ((M : ℚ) * (2 : ℚ) ^ E) ≤ sgn s * ((n : ℚ) / d)) :
    sgn t * ((M : ℚ) * (2 : ℚ) ^ E) ≤ ext (round s n d) := by
  have hp : ((pow2n (-E) : Nat) : ℚ) ≠ 0 := by
    have := pow2n_pos (-E)
    exact_mod_cast (ne_of_gt this)
  have hx : ((M * pow2n E : Nat) : ℚ) = ((pow2n (-E) : Nat) : ℚ) * ((M : ℚ) * (2 : ℚ) ^ E) := by
    rw [Nat.cast_mul, pow2n_cast E]; ring
  have hex := ext_round_exact t (pow2n_pos (-E)) hM hE hx
  rw [min_eq_left hcap] at hex
  rw [← hex]
  apply ext_round_mono t s (pow2n_pos (-E)) hd
  have : ((M * pow2n E : Nat) : ℚ) / ((pow2n (-E) : Nat) : ℚ) = (M : ℚ) * (2 : ℚ) ^ E := by
    rw [hx]; field_simp
  rw [this]; exact h

/-- A representable value above the quotient is above its rounding. -/
theorem ext_round_le (s : Bool) {n d : Nat} (hd : 0 < d) (t : Bool) {M : Nat} {E : Int}
    (hM : M < 2 ^ 53) (hE : -1074 ≤ E) (hcap : (M : ℚ) * (2 : ℚ) ^ E ≤ (2 : ℚ) ^ (1024 : Int))
    (h : sgn s * ((n : ℚ) / d) ≤ sgn t * ((M : ℚ) * (2 : ℚ) ^ E)) :
    ext (round s n d) ≤ sgn t * ((M : ℚ) * (2 : ℚ) ^ E) := by
  have hp : ((pow2n (-E) : Nat) : ℚ) ≠ 0 := by
    have := pow2n_pos (-E)
    exact_mod_cast (ne_of_gt this)
  have hx : ((M * pow2n E : Nat) : ℚ) = ((pow2n (-E) : Nat) : ℚ) * ((M : ℚ) * (2 : ℚ) ^ E) := by
    rw [Nat.cast_mul, pow2n_cast E]; ring
  have hex := ext_round_exact t (pow2n_pos (-E)) hM hE hx
  rw [min_eq_left hcap] at hex
  rw [← hex]
  apply ext_round_mono s t hd (pow2n_pos (-E))
  have : ((M * pow2n E : Nat) : ℚ) / ((pow2n (-E) : Nat) : ℚ) = (M : ℚ) * (2 : ℚ) ^ E := by
    rw [hx]; field_simp
  rw [this]; exact h

/-- A quotient of magnitude below `2 ^ 1023` rounds to a finite double. -/
theorem round_isFinite_of_abs (s : Bool) {n d : Nat} (hd : 0 < d)
    (h : |sgn s * ((n : ℚ) / d)| < (2 : ℚ) ^ (1023 : Int)) : (round s n d).isFinite = true := by
  apply round_isFinite s hd
  have hdq : (0 : ℚ) < d := by exact_mod_cast hd
  have hq0 : (0 : ℚ) ≤ (n : ℚ) / d := by positivity
  have : |sgn s * ((n : ℚ) / d)| = (n : ℚ) / d := by
    cases s
    · rw [sgn_false, one_mul, abs_of_nonneg hq0]
    · rw [sgn_true, neg_one_mul, abs_neg, abs_of_nonneg hq0]
  rw [this, div_lt_iff₀ hdq] at h
  linarith

theorem round_ne_nan (s : Bool) (n d : Nat) : round s n d ≠ nan := by
  rw [round_eq]
  split_ifs <;> simp

/-- A double with a positive extended value is positive. -/
theorem isPositive_of_ext_pos {x : F64} (h : 0 < ext x) : isPositive x := by
  cases x with
  | nan => simp [ext] at h
  | inf s =>
    cases s
    · rfl
    · exfalso
      simp only [ext, sgn_true] at h
      have := two_zpow_pos 1024
      linarith
  | fin s m e =>
    cases s
    · refine ⟨rfl, ?_⟩
      rcases Nat.eq_zero_or_pos m with h0 | hp
      · subst h0; simp [ext] at h
      · exact hp
    · exfalso
      simp only [ext, sgn_true] at h
      have : (0 : ℚ) ≤ (m : ℚ) * (2 : ℚ) ^ e := by positivity
      linarith

theorem div_round_form {a b : F64} (ha : a.isFinite = true) (hb : b.isFinite = true)
    (hb0 : ext b ≠ 0) :
    ∃ s n d, 0 < d ∧ div a b = round s n d ∧ sgn s * ((n : ℚ) / (d : ℚ)) = ext a / ext b := by
  cases a with
  | inf _ => simp [isFinite] at ha
  | nan => simp [isFinite] at ha
  | fin s m e =>
    cases b with
    | inf _ => simp [isFinite] at hb
    | nan => simp [isFinite] at hb
    | fin t k f =>
      have hk : k ≠ 0 := by
        rintro rfl
        simp [ext] at hb0
      have hkpos : 0 < k := Nat.pos_of_ne_zero hk
      refine ⟨xor s t, m * pow2n (e - f), k * pow2n (f - e),
        Nat.mul_pos hkpos (pow2n_pos _), by simp [div, hk], ?_⟩
      have hp : ((pow2n (f - e) : Nat) : ℚ) ≠ 0 := by
        have := pow2n_pos (f - e)
        exact_mod_cast (ne_of_gt this)
      have hkq : (k : ℚ) ≠ 0 := by exact_mod_cast hk
      have h2 : (2 : ℚ) ^ f ≠ 0 := ne_of_gt (two_zpow_pos f)
      have e1 : ((pow2n (e - f) : Nat) : ℚ)
          = (2 : ℚ) ^ e / (2 : ℚ) ^ f * ((pow2n (f - e) : Nat) : ℚ) := by
        have := pow2n_cast (e - f)
        rw [neg_sub] at this
        rw [this, zpow_sub₀ (by norm_num : (2 : ℚ) ≠ 0)]
      rw [Nat.cast_mul, Nat.cast_mul, e1]
      simp only [ext]
      generalize ((pow2n (f - e) : Nat) : ℚ) = P at hp ⊢
      generalize (2 : ℚ) ^ f = F at h2 ⊢
      generalize (2 : ℚ) ^ e = G
      cases s <;> cases t <;> simp only [sgn, Bool.xor_false, Bool.xor_true, Bool.not_false,
        Bool.not_true, Bool.false_eq_true, if_false, if_true, Bool.false_xor, Bool.true_xor] <;>
        field_simp <;> ring

theorem mul_round_form {a b : F64} (ha : a.isFinite = true) (hb : b.isFinite = true) :
    ∃ s n d, 0 < d ∧ mul a b = round s n d ∧ sgn s * ((n : ℚ) / (d : ℚ)) = ext a * ext b := by
  cases a with
  | inf _ => simp [isFinite] at ha
  | nan => simp [isFinite] at ha
  | fin s m e =>
    cases b with
    | inf _ => simp [isFinite] at hb
    | nan => simp [isFinite] at hb
    | fin t k f =>
      exact ⟨xor s t, m * k * pow2n (e + f), pow2n (-(e + f)), pow2n_pos _, mul_fin_eq _ _ _ _ _ _,
        mul_sval _ _ _ _ _ _⟩

theorem ext_neg (x : F64) : ext (neg x) = -ext x := by
  cases x with
  | nan => simp [neg, ext]
  | inf s => cases s <;> simp [neg, ext, sgn]
  | fin s m e => cases s <;> simp [neg, ext, sgn]

/-- A difference of finite doubles that is not zero is the rounding of the
exact difference. -/
theorem sub_round_form {a b : F64} (ha : a.isFinite = true) (hb : b.isFinite = true)
    (hne : ext a - ext b ≠ 0) :
    ∃ s n d, 0 < d ∧ sub a b = round s n d ∧ sgn s * ((n : ℚ) / (d : ℚ)) = ext a - ext b := by
  cases a with
  | inf _ => simp [isFinite] at ha
  | nan => simp [isFinite] at ha
  | fin s m e =>
    cases b with
    | inf _ => simp [isFinite] at hb
    | nan => simp [isFinite] at hb
    | fin t k f =>
      have hg1 : 0 ≤ e - min e f := by have := min_le_left e f; omega
      have hg2 : 0 ≤ f - min e f := by have := min_le_right e f; omega
      have two : (2 : ℚ) ≠ 0 := by norm_num
      -- the exact difference, as an integer multiple of `2 ^ min e f`
      have hc : ((((if s then -1 else 1) * ((m * pow2n (e - min e f) : Nat) : Int)
          + (if (!t) then -1 else 1) * ((k * pow2n (f - min e f) : Nat) : Int) : Int)) : ℚ)
            * (2 : ℚ) ^ (min e f) = ext (fin s m e) - ext (fin t k f) := by
        have p1 : ((pow2n (e - min e f) : Nat) : ℚ) * (2 : ℚ) ^ (min e f) = (2 : ℚ) ^ e := by
          rw [pow2n_of_nonneg hg1, ← zpow_add₀ two]; congr 1; ring
        have p2 : ((pow2n (f - min e f) : Nat) : ℚ) * (2 : ℚ) ^ (min e f) = (2 : ℚ) ^ f := by
          rw [pow2n_of_nonneg hg2, ← zpow_add₀ two]; congr 1; ring
        simp only [ext]
        push_cast
        cases s <;> cases t <;> simp only [sgn, Bool.not_false, Bool.not_true,
          Bool.false_eq_true, if_false, if_true, Int.cast_neg, Int.cast_one] <;>
          first
            | linear_combination (m : ℚ) * p1 - (k : ℚ) * p2
            | linear_combination (m : ℚ) * p1 + (k : ℚ) * p2
            | linear_combination -(m : ℚ) * p1 - (k : ℚ) * p2
            | linear_combination -(m : ℚ) * p1 + (k : ℚ) * p2
      generalize hcdef : ((if s then -1 else 1) * ((m * pow2n (e - min e f) : Nat) : Int)
          + (if (!t) then -1 else 1) * ((k * pow2n (f - min e f) : Nat) : Int) : Int) = c at hc
      have hc0 : c ≠ 0 := by
        rintro rfl
        apply hne
        rw [← hc]; simp
      have hsub : sub (fin s m e) (fin t k f)
          = round (decide (c < 0)) (c.natAbs * pow2n (min e f)) (pow2n (-(min e f))) := by
        simp only [sub, neg, add]
        rw [hcdef, if_neg hc0]
      refine ⟨decide (c < 0), c.natAbs * pow2n (min e f), pow2n (-(min e f)), pow2n_pos _,
        hsub, ?_⟩
      have hp : ((pow2n (-(min e f)) : Nat) : ℚ) ≠ 0 := by
        have := pow2n_pos (-(min e f))
        exact_mod_cast (ne_of_gt this)
      have hsv := ofInt_sval c
      simp only [Nat.cast_one, div_one] at hsv
      rw [← hc, Nat.cast_mul, pow2n_cast (min e f), ← hsv]
      generalize ((pow2n (-(min e f)) : Nat) : ℚ) = P at hp ⊢
      field_simp
      ring

/-- Bounds on the conversion of a positive `int64_t`. -/
theorem ofInt_pos_bounds {i : Int} (h0 : 0 < i) (h : InInt64 i) :
    (ofInt i).isFinite = true ∧ 1 ≤ ext (ofInt i) ∧ ext (ofInt i) ≤ (2 : ℚ) ^ (63 : Int) := by
  refine ⟨ofInt_isFinite h, ?_, ?_⟩
  · have := ofInt_mono (by omega : (1 : Int) ≤ i)
    rw [ofInt_exact (by decide)] at this
    exact_mod_cast this
  · have hle := ext_round_le (decide (i < 0)) (n := i.natAbs) Nat.one_pos false (M := 1) (E := 63)
      (by norm_num) (by norm_num)
      (by rw [Nat.cast_one, one_mul]; exact two_zpow_le (by norm_num))
      (by
        rw [ofInt_sval, sgn_false, one_mul, Nat.cast_one, one_mul]
        have : i ≤ 2 ^ 63 := by unfold InInt64 at h; omega
        have hq : (i : ℚ) ≤ (((2 ^ 63 : Int)) : ℚ) := by exact_mod_cast this
        have e : (2 : ℚ) ^ (63 : Int) = (((2 ^ 63 : Int)) : ℚ) := by norm_num
        rw [e]; exact hq)
    rw [sgn_false, one_mul, Nat.cast_one, one_mul] at hle
    exact hle

/-- The quotient of two positive `int64_t` values, computed in doubles, is
positive. -/
theorem div_ofInt_isPositive {i j : Int} (hi : 0 < i) (hj : 0 < j) (hi' : InInt64 i)
    (hj' : InInt64 j) : isPositive (div (ofInt i) (ofInt j)) := by
  obtain ⟨fi, li, ui⟩ := ofInt_pos_bounds hi hi'
  obtain ⟨fj, lj, uj⟩ := ofInt_pos_bounds hj hj'
  obtain ⟨s, n, d, hd, hdiv, hsv⟩ := div_round_form fi fj (by linarith)
  rw [hdiv]
  apply isPositive_of_ext_pos
  have hpos : (0 : ℚ) < (2 : ℚ) ^ (-63 : Int) := two_zpow_pos _
  have hge := ext_round_ge s (n := n) hd false (M := 1) (E := -63) (by norm_num) (by norm_num)
    (by rw [Nat.cast_one, one_mul]; exact two_zpow_le (by norm_num))
    (by
      rw [hsv, sgn_false, one_mul, Nat.cast_one, one_mul]
      have hj0 : (0 : ℚ) < ext (ofInt j) := by linarith
      rw [le_div_iff₀ hj0]
      have e : (2 : ℚ) ^ (-63 : Int) * (2 : ℚ) ^ (63 : Int) = 1 := by
        rw [← two_zpow_add]; norm_num
      calc (2 : ℚ) ^ (-63 : Int) * ext (ofInt j)
          ≤ (2 : ℚ) ^ (-63 : Int) * (2 : ℚ) ^ (63 : Int) :=
            mul_le_mul_of_nonneg_left uj (le_of_lt hpos)
        _ = 1 := e
        _ ≤ ext (ofInt i) := li)
  rw [sgn_false, one_mul, Nat.cast_one, one_mul] at hge
  linarith

end F64

/-- The corrected slope is positive when the projected error is below the
calibration interval. -/
theorem correctedSlope_isPositive {st : TSCNS} {E : Int}
    (hfin : st.ns_per_tsc_.isFinite = true)
    (hlow : (2 : ℚ) ^ (-1021 : Int) ≤ st.ns_per_tsc_.toRat)
    (hI0 : 0 < st.calibate_interval_ns_) (hI : st.calibate_interval_ns_ ≤ 2 ^ 53)
    (hE : InInt64 E) (hlt : E < st.calibate_interval_ns_) :
    F64.isPositive (correctedSlope st E) := by
  set I := st.calibate_interval_ns_ with hIdef
  have hIq : (1 : ℚ) ≤ (I : ℚ) := by exact_mod_cast hI0
  have hIq2 : (I : ℚ) ≤ (2 : ℚ) ^ (53 : Int) := by
    have e : (2 : ℚ) ^ (53 : Int) = (((2 ^ 53 : Int)) : ℚ) := by norm_num
    rw [e]; exact_mod_cast hI
  -- the two converted integers
  have fE := F64.ofInt_isFinite hE
  have fI : (F64.ofInt I).isFinite = true := F64.ofInt_isFinite (by unfold InInt64; omega)
  have eI : F64.ext (F64.ofInt I) = (I : ℚ) := F64.ofInt_exact (by omega)
  have uE : F64.ext (F64.ofInt E) ≤ (I : ℚ) - 1 := by
    have := F64.ofInt_mono (by omega : E ≤ I - 1)
    rw [F64.ofInt_exact (by omega : (I - 1).natAbs ≤ 2 ^ 53)] at this
    push_cast at this
    exact this
  have lE : -(2 : ℚ) ^ (63 : Int) ≤ F64.ext (F64.ofInt E) := by
    have h := F64.ext_round_ge (decide (E < 0)) (n := E.natAbs) Nat.one_pos true (M := 1)
      (E := 63) (by norm_num) (by norm_num)
      (by rw [Nat.cast_one, one_mul]; exact F64.two_zpow_le (by norm_num))
      (by
        rw [F64.ofInt_sval, F64.sgn_true, Nat.cast_one, one_mul]
        have : -(2 ^ 63 : Int) ≤ E := by unfold InInt64 at hE; omega
        have hq : (((-(2 ^ 63 : Int)) : Int) : ℚ) ≤ (E : ℚ) := by exact_mod_cast this
        have e : (-1 : ℚ) * (2 : ℚ) ^ (63 : Int) = (((-(2 ^ 63 : Int)) : Int) : ℚ) := by norm_num
        rw [e]; exact hq)
    rw [F64.sgn_true, Nat.cast_one, one_mul] at h
    have e2 : (-1 : ℚ) * (2 : ℚ) ^ (63 : Int) = -(2 : ℚ) ^ (63 : Int) := by ring
    rw [e2] at h
    exact h
  -- the quotient
  obtain ⟨s, n, d, hd, hdiv, hsv⟩ := F64.div_round_form fE fI (by rw [eI]; linarith)
  rw [eI] at hsv
  have p63 : (0 : ℚ) < (2 : ℚ) ^ (63 : Int) := F64.two_zpow_pos _
  have c1 : (2 : ℚ) ^ (53 : Int) = 9007199254740992 := by norm_num
  have c2 : (2 : ℚ) ^ (-53 : Int) = 1 / 9007199254740992 := by
    rw [zpow_neg, c1]; norm_num
  have hIpos : (0 : ℚ) < (I : ℚ) := by linarith
  have qup : F64.sgn s * ((n : ℚ) / d)
      ≤ F64.sgn false * (((9007199254740991 : Nat) : ℚ) * (2 : ℚ) ^ (-53 : Int)) := by
    rw [hsv, F64.sgn_false, one_mul, c2, div_le_iff₀ hIpos]
    rw [c1] at hIq2
    push_cast
    nlinarith
  have qlo : F64.sgn true * (((1 : Nat) : ℚ) * (2 : ℚ) ^ (63 : Int))
      ≤ F64.sgn s * ((n : ℚ) / d) := by
    rw [hsv, F64.sgn_true, Nat.cast_one, one_mul, le_div_iff₀ hIpos]
    nlinarith
  have hq1 := F64.ext_round_le s hd false (by norm_num) (by norm_num)
    (by rw [c2]; norm_num) qup
  have hq2 := F64.ext_round_ge s hd true (by norm_num) (by norm_num)
    (by rw [Nat.cast_one, one_mul]; exact F64.two_zpow_le (by norm_num)) qlo
  rw [F64.sgn_false, one_mul] at hq1
  rw [F64.sgn_true, Nat.cast_one, one_mul] at hq2
  have fq : (F64.round s n d).isFinite = true := by
    apply F64.round_isFinite_of_abs s hd
    have h3 : (2 : ℚ) ^ (63 : Int) < (2 : ℚ) ^ (1023 : Int) :=
      zpow_lt_zpow_right₀ (by norm_num) (by norm_num)
    rw [F64.sgn_false, one_mul, c2] at qup
    rw [F64.sgn_true, Nat.cast_one, one_mul] at qlo
    rw [abs_lt]
    constructor
    · linarith
    · have : ((9007199254740991 : Nat) : ℚ) * (1 / 9007199254740992) ≤ 1 := by norm_num
      linarith
  -- the correction factor
  have fone : F64.one.isFinite = true := rfl
  have eone : F64.ext F64.one = 1 := by
    simp only [F64.one, F64.ext, F64.sgn_false]
    norm_num
  have hdiff : (2 : ℚ) ^ (-53 : Int) ≤ F64.ext F64.one - F64.ext (F64.round s n d) := by
    rw [eone, c2]
    rw [c2] at hq1
    have : ((9007199254740991 : Nat) : ℚ) * (1 / 9007199254740992) = 1 - 1 / 9007199254740992 := by
      norm_num
    linarith
  have p53 : (0 : ℚ) < (2 : ℚ) ^ (-53 : Int) := F64.two_zpow_pos _
  obtain ⟨s2, n2, d2, hd2, hsub, hsv2⟩ := F64.sub_round_form fone fq (by linarith)
  have flo : F64.sgn false * (((1 : Nat) : ℚ) * (2 : ℚ) ^ (-53 : Int))
      ≤ F64.sgn s2 * ((n2 : ℚ) / d2) := by
    rw [hsv2, F64.sgn_false, one_mul, Nat.cast_one, one_mul]; exact hdiff
  have hf1 := F64.ext_round_ge s2 hd2 false (by norm_num) (by norm_num)
    (by rw [Nat.cast_one, one_mul]; exact F64.two_zpow_le (by norm_num)) flo
  rw [F64.sgn_false, one_mul, Nat.cast_one, one_mul] at hf1
  have ff : (F64.round s2 n2 d2).isFinite = true := by
    apply F64.round_isFinite_of_abs s2 hd2
    have h3 : (2 : ℚ) ^ (64 : Int) < (2 : ℚ) ^ (1023 : Int) :=
      zpow_lt_zpow_right₀ (by norm_num) (by norm_num)
    have h4 : (2 : ℚ) ^ (64 : Int) = 2 * (2 : ℚ) ^ (63 : Int) := by
      rw [show (64 : Int) = 1 + 63 by norm_num, F64.two_zpow_add]; norm_num
    have h5 : (1 : ℚ) ≤ (2 : ℚ) ^ (63 : Int) := by
      have := F64.two_zpow_le (by norm_num : (0 : Int) ≤ 63)
      simpa using this
    rw [hsv2, eone, abs_lt]
    constructor <;> linarith
  -- the product
  obtain ⟨s3, n3, d3, hd3, hmul, hsv3⟩ := F64.mul_round_form hfin ff
  have hnew : correctedSlope st E = F64.round s3 n3 d3 := by
    unfold correctedSlope
    rw [← hIdef, hdiv, hsub, hmul]
  rw [hnew]
  apply F64.isPositive_of_ext_pos
  have plo : F64.sgn false * (((1 : Nat) : ℚ) * (2 : ℚ) ^ (-1074 : Int))
      ≤ F64.sgn s3 * ((n3 : ℚ) / d3) := by
    rw [hsv3, F64.sgn_false, one_mul, Nat.cast_one, one_mul, ← F64.toRat_eq_ext hfin]
    have e : (2 : ℚ) ^ (-1074 : Int) = (2 : ℚ) ^ (-1021 : Int) * (2 : ℚ) ^ (-53 : Int) := by
      rw [← F64.two_zpow_add]; norm_num
    rw [e]
    exact mul_le_mul hlow hf1 (le_of_lt p53)
      (le_trans (le_of_lt (F64.two_zpow_pos _)) hlow)
  have hn := F64.ext_round_ge s3 hd3 false (by norm_num) (by norm_num)
    (by rw [Nat.cast_one, one_mul]; exact F64.two_zpow_le (by norm_num)) plo
  rw [F64.sgn_false, one_mul, Nat.cast_one, one_mul] at hn
  have := F64.two_zpow_pos (-1074)
  linarith

/-! ## C8: positivity of the slope -/

/-- The projected error is an `int64_t`. -/
theorem projectedErr_inInt64 {st : TSCNS} {cn ns E : Int} (h : projectedErr st cn ns = .ok E) :
    InInt64 E := by
  unfold projectedErr at h
  simp only [bind, Except.bind, pure, Except.pure] at h
  split at h
  · cases h
  · simp only [Except.ok.injEq] at h
    rw [← h]
    exact wrap64_inInt64 _

/-- C8, as stated, fails. On `steppedClock`, whose cycle readings and
wall-clock readings are both strictly increasing, `init(20000000, 3000000000)`
publishes the slope `1.0` and the next `calibrate` call publishes a negative
slope: its sample `(3000001150, 1000001150)` lies three seconds of cycles but
one second of wall clock after the anchor, so the projected error `7999999400`
exceeds the interval. -/
theorem slope_not_positive :
    (0 : Int) < 3000000000
      ∧ steppedClock.tsc.Pairwise (fun x y => x < y)
      ∧ steppedClock.ns.Pairwise (fun x y => x < y)
      ∧ init freshTSCNS steppedClock 20000000 3000000000
          = .ok (afterInit, steppedClockAfterInit)
      ∧ F64.isPositive afterInit.ns_per_tsc_
      ∧ calibrate 1 afterInit steppedClockAfterRead
          = .ok (afterCalibrate, steppedClockAfterCalibrate)
      ∧ projectedErr afterInit 3000001150 1000001150 = .ok 7999999400
      ∧ ¬ F64.isPositive afterCalibrate.ns_per_tsc_
      ∧ afterCalibrate.ns_per_tsc_.toRat < 0 := by
  refine ⟨by decide, by decide, by decide, by decide!, by decide, by decide!, by decide!,
    by decide, ?_⟩
  norm_num [afterCalibrate, F64.toRat]

/-- C8, amended. After `init`, `ns_per_tsc_ > 0` holds whenever its two samples
are strictly increasing in cycles and in wall-clock time (with `int64_t`
differences). After a `calibrate` call from a state with a finite
`ns_per_tsc_ ≥ 2 ^ -1021` and `0 < calibate_interval_ns_ ≤ 2 ^ 53`,
`ns_per_tsc_ > 0` holds unless the call did work and its projected error
`expected_err_at_next_calibration` was at least the calibration interval. -/
theorem slope_positive :
    (∀ (st : TSCNS) (env : Env) (a b bt bn dt dn : Int) (env1 env2 : Env) (rest : List Int),
        syncTime env = .ok (bt, bn, env1) →
        waitUntil (wrap64 (bn + a)) env1.ns = some rest →
        syncTime { env1 with ns := rest } = .ok (dt, dn, env2) →
        bt < dt → bn < dn → InInt64 (dt - bt) → InInt64 (dn - bn) →
        ∃ st', init st env a b = .ok (st', env2) ∧ F64.isPositive st'.ns_per_tsc_)
      ∧ (∀ (fuel : Nat) (st st' : TSCNS) (env env' : Env),
        calibrate fuel st env = .ok (st', env') →
        st.ns_per_tsc_.isFinite = true →
        (2 : ℚ) ^ (-1021 : Int) ≤ st.ns_per_tsc_.toRat →
        0 < st.calibate_interval_ns_ → st.calibate_interval_ns_ ≤ 2 ^ 53 →
        F64.isPositive st'.ns_per_tsc_
          ∨ ∃ tsc ns E, projectedErr st (nsValue st tsc) ns = .ok E
              ∧ st.calibate_interval_ns_ ≤ E
              ∧ st'.ns_per_tsc_ = correctedSlope st E) := by
  constructor
  · intro st env a b bt bn dt dn env1 env2 rest h1 h2 h3 ht hn ht' hn'
    refine ⟨_, init_of st a b h1 h2 h3, ?_⟩
    rw [saveParam_ns_per_tsc, wrap64_of_inInt64 hn', wrap64_of_inInt64 ht']
    exact F64.div_ofInt_isPositive (by omega) (by omega) hn' ht'
  · intro fuel st st' env env' hcal hfin hlow hI0 hI
    obtain ⟨now, env1, _, hn | hw⟩ := calibrate_ok hcal
    · left
      rw [hn.2.1]
      apply F64.isPositive_of_ext_pos
      rw [← F64.toRat_eq_ext hfin]
      exact lt_of_lt_of_le (F64.two_zpow_pos _) hlow
    · obtain ⟨_, tsc, ns, E, _, _, hE, hst⟩ := hw
      rcases lt_or_le E st.calibate_interval_ns_ with hlt | hge
      · left
        rw [hst, saveParam_ns_per_tsc]
        exact correctedSlope_isPositive hfin hlow hI0 hI (projectedErr_inInt64 hE) hlt
      · right
        exact ⟨tsc, ns, E, hE, hge, by rw [hst, saveParam_ns_per_tsc]⟩

/-- An instance of `slope_positive`: `init` on `steppedClock`, and the
`calibrate` call from `afterInit` on `steadyClock`. -/
theorem slope_positive_witness :
    (∃ st', init freshTSCNS steppedClock 20000000 3000000000 = .ok (st', steppedClockAfterInit)
        ∧ F64.isPositive st'.ns_per_tsc_)
      ∧ (F64.isPositive afterSteadyCalibrate.ns_per_tsc_
          ∨ ∃ tsc ns E, projectedErr afterInit (nsValue afterInit tsc) ns = .ok E
              ∧ afterInit.calibate_interval_ns_ ≤ E
              ∧ afterSteadyCalibrate.ns_per_tsc_ = correctedSlope afterInit E) :=
  ⟨slope_positive.1 freshTSCNS steppedClock 20000000 3000000000 1050 1050 20001250 20001250
      steppedClockInInit steppedClockAfterInit
      [20001250, 20001350, 20001450, 1000001150, 1000001250, 1000001350]
      (by decide!) (by decide!) (by decide!) (by decide) (by decide) (by decide) (by decide),
    slope_positive.2 1 afterInit afterSteadyCalibrate steadyClock { tsc := [], ns := [] }
      (by decide!) (by decide) (by norm_num [afterInit, F64.one, F64.toRat]) (by decide)
      (by decide)⟩

/-! ## C6: the reader never uses a torn snapshot -/

theorem saveParamAt_param_seq (k : Nat) (st : TSCNS) (bt bn sn : Int) (x : F64) :
    (saveParamAt k st bt bn sn x).param_seq_
      = if k < 3 then st.param_seq_ else if k < 7 then wrap32 (st.param_seq_ + 1)
        else wrap32 (wrap32 (st.param_seq_ + 1) + 1) := by
  unfold saveParamAt
  by_cases h3 : k < 3
  · have a3 : ¬ 3 ≤ k := by omega
    have a4 : ¬ 4 ≤ k := by omega
    have a5 : ¬ 5 ≤ k := by omega
    have a6 : ¬ 6 ≤ k := by omega
    have a7 : ¬ 7 ≤ k := by omega
    simp only [a3, a4, a5, a6, a7, h3, if_false, if_true]
    split_ifs <;> rfl
  · by_cases h7 : k < 7
    · have a1 : 1 ≤ k := by omega
      have a2 : 2 ≤ k := by omega
      have a3 : 3 ≤ k := by omega
      have a7 : ¬ 7 ≤ k := by omega
      simp only [a1, a2, a3, a7, h3, h7, if_false, if_true]
      split_ifs <;> rfl
    · have a1 : 1 ≤ k := by omega
      have a2 : 2 ≤ k := by omega
      have a3 : 3 ≤ k := by omega
      have a4 : 4 ≤ k := by omega
      have a5 : 5 ≤ k := by omega
      have a6 : 6 ≤ k := by omega
      have a7 : 7 ≤ k := by omega
      simp only [a1, a2, a3, a4, a5, a6, a7, h3, h7, if_false, if_true]

theorem saveParamAt_base_tsc (k : Nat) (st : TSCNS) (bt bn sn : Int) (x : F64) :
    (saveParamAt k st bt bn sn x).base_tsc_ = if k < 4 then st.base_tsc_ else bt := by
  unfold saveParamAt
  by_cases h : k < 4
  · have a4 : ¬ 4 ≤ k := by omega
    have a5 : ¬ 5 ≤ k := by omega
    have a6 : ¬ 6 ≤ k := by omega
    have a7 : ¬ 7 ≤ k := by omega
    simp only [a4, a5, a6, a7, h, if_false, if_true]
    split_ifs <;> rfl
  · have a1 : 1 ≤ k := by omega
    have a2 : 2 ≤ k := by omega
    have a3 : 3 ≤ k := by omega
    have a4 : 4 ≤ k := by omega
    simp only [a1, a2, a3, a4, h, if_false, if_true]
    split_ifs <;> rfl

theorem saveParamAt_base_ns (k : Nat) (st : TSCNS) (bt bn sn : Int) (x : F64) :
    (saveParamAt k st bt bn sn x).base_ns_ = if k < 5 then st.base_ns_ else bn := by
  unfold saveParamAt
  by_cases h : k < 5
  · have a5 : ¬ 5 ≤ k := by omega
    have a6 : ¬ 6 ≤ k := by omega
    have a7 : ¬ 7 ≤ k := by omega
    simp only [a5, a6, a7, h, if_false, if_true]
    split_ifs <;> rfl
  · have a1 : 1 ≤ k := by omega
    have a2 : 2 ≤ k := by omega
    have a3 : 3 ≤ k := by omega
    have a4 : 4 ≤ k := by omega
    have a5 : 5 ≤ k := by omega
    simp only [a1, a2, a3, a4, a5, h, if_false, if_true]
    split_ifs <;> rfl

theorem saveParamAt_ns_per_tsc (k : Nat) (st : TSCNS) (bt bn sn : Int) (x : F64) :
    (saveParamAt k st bt bn sn x).ns_per_tsc_ = if k < 6 then st.ns_per_tsc_ else x := by
  unfold saveParamAt
  by_cases h : k < 6
  · have a6 : ¬ 6 ≤ k := by omega
    have a7 : ¬ 7 ≤ k := by omega
    simp only [a6, a7, h, if_false, if_true]
    split_ifs <;> rfl
  · have a1 : 1 ≤ k := by omega
    have a2 : 2 ≤ k := by omega
    have a3 : 3 ≤ k := by omega
    have a4 : 4 ≤ k := by omega
    have a5 : 5 ≤ k := by omega
    have a6 : 6 ≤ k := by omega
    simp only [a1, a2, a3, a4, a5, a6, h, if_false, if_true]
    split_ifs <;> rfl

theorem afterCalls_param_seq (st0 : TSCNS) (calls : Nat → Args) (h : st0.param_seq_ < 2 ^ 32)
    (j : Nat) : (afterCalls st0 calls j).param_seq_ = (st0.param_seq_ + 2 * j) % 2 ^ 32 := by
  induction j with
  | zero => simp only [afterCalls]; omega
  | succ j ih =>
    simp only [afterCalls, saveParam_param_seq, wrap32_twice, ih]
    omega

theorem memAt_param_seq (st0 : TSCNS) (calls : Nat → Args) (h : st0.param_seq_ < 2 ^ 32)
    (t : Nat) : (memAt st0 calls t).param_seq_
      = (st0.param_seq_ + 2 * (t / 7) + (if t % 7 < 3 then 0 else 1)) % 2 ^ 32 := by
  unfold memAt
  rw [saveParamAt_param_seq, afterCalls_param_seq st0 calls h]
  have h7 : t % 7 < 7 := Nat.mod_lt _ (by norm_num)
  by_cases h3 : t % 7 < 3
  · simp only [h3, if_true]; omega
  · simp only [h3, h7, if_false, if_true, wrap32]; omega

theorem memAt_base_tsc (st0 : TSCNS) (calls : Nat → Args) (t : Nat) :
    (memAt st0 calls t).base_tsc_ = (afterCalls st0 calls (writerOfBaseTsc t)).base_tsc_ := by
  unfold memAt writerOfBaseTsc
  rw [saveParamAt_base_tsc]
  by_cases h : t % 7 < 4
  · rw [if_pos h]; congr 2; omega
  · rw [if_neg h, show (t + 3) / 7 = t / 7 + 1 by omega]
    rfl

theorem memAt_base_ns (st0 : TSCNS) (calls : Nat → Args) (t : Nat) :
    (memAt st0 calls t).base_ns_ = (afterCalls st0 calls (writerOfBaseNs t)).base_ns_ := by
  unfold memAt writerOfBaseNs
  rw [saveParamAt_base_ns]
  by_cases h : t % 7 < 5
  · rw [if_pos h]; congr 2; omega
  · rw [if_neg h, show (t + 2) / 7 = t / 7 + 1 by omega]
    rfl

theorem memAt_ns_per_tsc (st0 : TSCNS) (calls : Nat → Args) (t : Nat) :
    (memAt st0 calls t).ns_per_tsc_ = (afterCalls st0 calls (writerOfNsPerTsc t)).ns_per_tsc_ := by
  unfold memAt writerOfNsPerTsc
  rw [saveParamAt_ns_per_tsc]
  by_cases h : t % 7 < 6
  · rw [if_pos h]; congr 2; omega
  · rw [if_neg h, show (t + 1) / 7 = t / 7 + 1 by omega]
    rfl

theorem afterCalls_succ_base_ns (st0 : TSCNS) (calls : Nat → Args) (j : Nat) :
    (afterCalls st0 calls (j + 1)).base_ns_ = (calls j).base_ns := rfl

theorem afterCalls_succ_ns_per_tsc (st0 : TSCNS) (calls : Nat → Args) (j : Nat) :
    (afterCalls st0 calls (j + 1)).ns_per_tsc_ = (calls j).new_ns_per_tsc := rfl

/-- A pass that returns has loaded all three parameters in one stable window. -/
theorem pass_window {st0 : TSCNS} (calls : Nat → Args) (hst : Stable st0) {p : PassTimes}
    (ho : p.Ordered) (hd : p.seq2 - p.seq1 ≤ 7 * (2 ^ 31 - 1)) {c r : Int}
    (h : tsc2nsPass (passLoads st0 calls p) c = some r) :
    writerOfBaseTsc p.base_tsc = p.seq1 / 7 ∧ writerOfBaseNs p.base_ns = p.seq1 / 7
      ∧ writerOfNsPerTsc p.ns_per_tsc = p.seq1 / 7 := by
  rw [tsc2nsPass_eq] at h
  split at h
  · rename_i heq
    simp only [passLoads] at heq
    have hlt : (memAt st0 calls p.seq1).param_seq_ < 2 ^ 32 := by
      rw [memAt_param_seq st0 calls hst.1]; omega
    rw [land_clear_bit0 hlt, memAt_param_seq st0 calls hst.1, memAt_param_seq st0 calls hst.1]
      at heq
    obtain ⟨o1, o2, o3, o4, o5, o6⟩ := ho
    have e0 := hst.2
    unfold writerOfBaseTsc writerOfBaseNs writerOfNsPerTsc
    split_ifs at heq <;> omega
  · cases h

/-- C6, as stated, fails when the counter wraps around. From `afterInit` the
writer repeats a `saveParam` call; the pass `wrappedPass` loads the counter (`2`)
and `base_tsc_` (`1050`, stored by `init`) before the writer's first store, and
`base_ns_`, `ns_per_tsc_` and the counter again after `2 ^ 31` calls, when the
counter is `2` again: the pass returns a value computed from the `base_tsc_` of
`init` and the `base_ns_` and `ns_per_tsc_` of the last call. -/
theorem torn_read_after_wraparound :
    Stable afterInit ∧ wrappedPass.Ordered
      ∧ passLoads afterInit steadyCalls wrappedPass
          = { seq1 := 2, base_tsc := 1050, base_ns := 3000001150,
              ns_per_tsc := F64.fin false 4503600526589222 (-52), seq2 := 2 }
      ∧ tsc2nsPass (passLoads afterInit steadyCalls wrappedPass) 3000001500 = some 6000002199
      ∧ writerOfBaseTsc wrappedPass.base_tsc = 0
      ∧ writerOfBaseNs wrappedPass.base_ns = 2147483648
      ∧ writerOfNsPerTsc wrappedPass.ns_per_tsc = 2147483648 := by
  have hl : passLoads afterInit steadyCalls wrappedPass
      = { seq1 := 2, base_tsc := 1050, base_ns := 3000001150,
          ns_per_tsc := F64.fin false 4503600526589222 (-52), seq2 := 2 } := by
    have hlt : afterInit.param_seq_ < 2 ^ 32 := by decide
    unfold passLoads
    rw [memAt_param_seq _ _ hlt, memAt_param_seq _ _ hlt, memAt_base_tsc, memAt_base_ns,
      memAt_ns_per_tsc]
    have w1 : writerOfBaseTsc wrappedPass.base_tsc = 0 := by decide
    have w2 : writerOfBaseNs wrappedPass.base_ns = 2147483647 + 1 := by decide
    have w3 : writerOfNsPerTsc wrappedPass.ns_per_tsc = 2147483647 + 1 := by decide
    rw [w1, w2, w3, afterCalls_succ_base_ns, afterCalls_succ_ns_per_tsc]
    rfl
  refine ⟨by decide, by decide, hl, ?_, by decide, by decide, by decide⟩
  rw [hl]
  decide!

/-- C6, amended: let the writer run `saveParam` calls one after another from a
state with no write in progress, and let a reader run the passes of `tsc2ns`,
each pass loading the counter, then the three parameters in any order, then the
counter again, while the writer performs fewer than `2 ^ 31` calls' worth of
stores (at most `7 * (2 ^ 31 - 1)`) between the two loads of the counter. Then
a value `tsc2ns` returns was computed by a pass whose three loads returned
values stored by one and the same `saveParam` call (or all three the initial
ones): it is the conversion on the parameters as that call left them. -/
theorem no_torn_read (st0 : TSCNS) (calls : Nat → Args) (hst : Stable st0)
    (passes : List PassTimes)
    (hp : ∀ p ∈ passes, p.Ordered ∧ p.seq2 - p.seq1 ≤ 7 * (2 ^ 31 - 1)) (c r : Int)
    (h : tsc2nsLoop (passes.map (passLoads st0 calls)) c = .ok r) :
    ∃ p ∈ passes, ∃ g : Nat, tsc2nsPass (passLoads st0 calls p) c = some r
      ∧ writerOfBaseTsc p.base_tsc = g ∧ writerOfBaseNs p.base_ns = g
      ∧ writerOfNsPerTsc p.ns_per_tsc = g
      ∧ (passLoads st0 calls p).base_tsc = (afterCalls st0 calls g).base_tsc_
      ∧ (passLoads st0 calls p).base_ns = (afterCalls st0 calls g).base_ns_
      ∧ (passLoads st0 calls p).ns_per_tsc = (afterCalls st0 calls g).ns_per_tsc_
      ∧ r = nsValue (afterCalls st0 calls g) c := by
  induction passes with
  | nil => simp [tsc2nsLoop] at h
  | cons p rest ih =>
    simp only [List.map_cons, tsc2nsLoop] at h
    split at h
    · rename_i ns hns
      simp only [Except.ok.injEq] at h
      subst h
      obtain ⟨ho, hd⟩ := hp p (List.mem_cons_self _ _)
      obtain ⟨w1, w2, w3⟩ := pass_window calls hst ho hd hns
      have f1 : (passLoads st0 calls p).base_tsc = (afterCalls st0 calls (p.seq1 / 7)).base_tsc_ := by
        rw [← w1]; exact memAt_base_tsc st0 calls _
      have f2 : (passLoads st0 calls p).base_ns = (afterCalls st0 calls (p.seq1 / 7)).base_ns_ := by
        rw [← w2]; exact memAt_base_ns st0 calls _
      have f3 : (passLoads st0 calls p).ns_per_tsc
          = (afterCalls st0 calls (p.seq1 / 7)).ns_per_tsc_ := by
        rw [← w3]; exact memAt_ns_per_tsc st0 calls _
      refine ⟨p, List.mem_cons_self _ _, p.seq1 / 7, hns, w1, w2, w3, f1, f2, f3, ?_⟩
      rw [tsc2nsPass_eq] at hns
      split at hns
      · simp only [Option.some.injEq] at hns
        rw [← hns, f1, f2, f3]
        rfl
      · cases hns
    · obtain ⟨q, hq, g, hg⟩ := ih (fun q hq => hp q (List.mem_cons_of_mem _ hq)) h
      exact ⟨q, List.mem_cons_of_mem _ hq, g, hg⟩

/-- An instance of `no_torn_read`: from `afterInit` the writer runs the
`saveParam` call of a calibration; the reader's first pass starts inside the
call and is retried, its second pass runs after the call and returns the
conversion on the parameters the call published. -/
theorem no_torn_read_witness :
    ∃ p ∈ racingPasses, ∃ g : Nat,
      tsc2nsPass (passLoads afterInit steadyCalls p) 3000001500 = some 3000001500
      ∧ writerOfBaseTsc p.base_tsc = g ∧ writerOfBaseNs p.base_ns = g
      ∧ writerOfNsPerTsc p.ns_per_tsc = g
      ∧ (passLoads afterInit steadyCalls p).base_tsc = (afterCalls afterInit steadyCalls g).base_tsc_
      ∧ (passLoads afterInit steadyCalls p).base_ns = (afterCalls afterInit steadyCalls g).base_ns_
      ∧ (passLoads afterInit steadyCalls p).ns_per_tsc
          = (afterCalls afterInit steadyCalls g).ns_per_tsc_
      ∧ (3000001500 : Int) = nsValue (afterCalls afterInit steadyCalls g) 3000001500 :=
  no_torn_read afterInit steadyCalls (by decide) racingPasses (by decide) 3000001500 3000001500
    (by decide!)

/-! ## C16: when a pass returns -/

/-- A returning `tsc2ns` has found an even `uint32_t` in the counter. -/
theorem tsc2ns_ok_stable {fuel : Nat} {st : TSCNS} {c v : Int} (h : tsc2ns fuel st c = .ok v) :
    Stable st ∧ 0 < fuel := by
  unfold tsc2ns at h
  induction fuel with
  | zero => simp [tsc2nsLoop] at h
  | succ f ih =>
    simp only [List.replicate_succ, tsc2nsLoop] at h
    split at h
    · rename_i ns hns
      rw [tsc2nsPass_eq] at hns
      split at hns
      · rename_i heq
        have heq' : st.param_seq_ &&& 0xFFFFFFFE = st.param_seq_ := heq
        have hlt : st.param_seq_ < 2 ^ 32 := by
          have := Nat.and_le_right (n := st.param_seq_) (m := 0xFFFFFFFE)
          rw [heq'] at this
          omega
        rw [land_clear_bit0 hlt] at heq'
        exact ⟨⟨hlt, by omega⟩, Nat.succ_pos _⟩
      · cases hns
    · exact ⟨(ih h).1, Nat.succ_pos _⟩

/-- C16, as stated, fails: a pass whose first read of the counter is the odd
value `5` and whose second read is `4` is not retried; it returns `5000`. -/
theorem odd_first_read_returns :
    oddFirstRead.seq1 % 2 = 1 ∧ oddFirstRead.seq2 ≠ oddFirstRead.seq1
      ∧ tsc2nsPass oddFirstRead 1001 = some 5000 := by
  refine ⟨by decide, by decide, by decide!⟩

/-- C16, amended: one pass, as a function of its two reads `s1` and `s2` of the
counter (any two `uint32_t` values), returns its computed result if and only
if `s2` equals `s1` with bit 0 cleared: for an even `s1` exactly when
`s2 = s1`, for an odd `s1` exactly when `s2 = s1 - 1`. A pass whose first read
is odd is retried whenever the second read is not below the first. -/
theorem pass_returns_iff (l : Loads) (c : Int) (h1 : l.seq1 < 2 ^ 32) :
    ((tsc2nsPass l c).isSome = true ↔ l.seq2 = l.seq1 - l.seq1 % 2)
      ∧ (l.seq1 % 2 = 0 → ((tsc2nsPass l c).isSome = true ↔ l.seq2 = l.seq1))
      ∧ (l.seq1 % 2 = 1 → ((tsc2nsPass l c).isSome = true ↔ l.seq2 = l.seq1 - 1))
      ∧ (l.seq1 % 2 = 1 → l.seq1 ≤ l.seq2 → tsc2nsPass l c = none) := by
  have key : (tsc2nsPass l c).isSome = true ↔ l.seq2 = l.seq1 - l.seq1 % 2 := by
    rw [tsc2nsPass_eq, land_clear_bit0 h1]
    split
    · rename_i h; simp [h.symm]
    · rename_i h
      simp only [Option.isSome_none, Bool.false_eq_true, false_iff]
      exact fun h' => h h'.symm
  refine ⟨key, ?_, ?_, ?_⟩
  · intro he; rw [key, he]; simp
  · intro ho; rw [key, ho]
  · intro ho hle
    have : ¬ (tsc2nsPass l c).isSome = true := by
      rw [key]; omega
    simpa using this

/-- An instance of `pass_returns_iff`: the loads `oddFirstRead`. -/
theorem pass_returns_iff_witness :
    ((tsc2nsPass oddFirstRead 1001).isSome = true
        ↔ oddFirstRead.seq2 = oddFirstRead.seq1 - oddFirstRead.seq1 % 2)
      ∧ (oddFirstRead.seq1 % 2 = 0 →
          ((tsc2nsPass oddFirstRead 1001).isSome = true ↔ oddFirstRead.seq2 = oddFirstRead.seq1))
      ∧ (oddFirstRead.seq1 % 2 = 1 →
          ((tsc2nsPass oddFirstRead 1001).isSome = true
            ↔ oddFirstRead.seq2 = oddFirstRead.seq1 - 1))
      ∧ (oddFirstRead.seq1 % 2 = 1 → oddFirstRead.seq1 ≤ oddFirstRead.seq2 →
          tsc2nsPass oddFirstRead 1001 = none) :=
  pass_returns_iff oddFirstRead 1001 (by decide)

/-! ## C17: the read loop ends after one pass -/

/-- C17: in every state between calls of an object that started with
`param_seq_ = 0` (after `init` and any number of completed `calibrate` calls),
with no store during the read, the first pass of `tsc2ns(c)` returns, for every
cycle value `c`: one pass of fuel is enough, and more fuel gives the same
result. -/
theorem tsc2ns_one_pass (st : TSCNS) (h : Reachable st) (c : Int) :
    tsc2nsPass st.loads c = some (nsValue st c)
      ∧ tsc2ns 1 st c = .ok (nsValue st c)
      ∧ ∀ fuel, 0 < fuel → tsc2ns fuel st c = .ok (nsValue st c) :=
  ⟨tsc2nsPass_stable h.stable c, tsc2ns_stable h.stable Nat.one_pos c,
    fun _ hf => tsc2ns_stable h.stable hf c⟩

/-- An instance of `tsc2ns_one_pass`: the state `afterInit`, reached from a new
object by `init()`, read at cycle `3000000900`. -/
theorem tsc2ns_one_pass_witness :
    tsc2nsPass afterInit.loads 3000000900 = some (nsValue afterInit 3000000900)
      ∧ tsc2ns 1 afterInit 3000000900 = .ok (nsValue afterInit 3000000900)
      ∧ ∀ fuel, 0 < fuel → tsc2ns fuel afterInit 3000000900
          = .ok (nsValue afterInit 3000000900) :=
  tsc2ns_one_pass afterInit
    (Reachable.init (Reachable.fresh freshTSCNS rfl)
      (show init freshTSCNS steppedClock 20000000 3000000000
          = .ok (afterInit, steppedClockAfterInit) by decide!))
    3000000900

/-! ## C18: no jump at the new anchor -/

/-- C18: when `calibrate` does work (the counter reads at least
`next_calibrate_tsc_`) on a sample with cycle value `tsc` and the slope it
publishes is finite, the new `base_tsc_` is `tsc`, and `tsc2ns(tsc)` on the
published parameters returns the same value as `tsc2ns(tsc)` on the parameters
in force before the call. -/
theorem calibrate_no_jump (fuel : Nat) (st st' : TSCNS) (env env' : Env) (c : Int)
    (rest : List Int) (hcal : calibrate fuel st env = .ok (st', env'))
    (henv : env.tsc = c :: rest) (hc : ¬ c < st.next_calibrate_tsc_)
    (hfin : st'.ns_per_tsc_.isFinite = true) :
    ∃ tsc ns, syncTime { env with tsc := rest } = .ok (tsc, ns, env')
      ∧ st'.base_tsc_ = tsc
      ∧ tsc2ns fuel st' tsc = tsc2ns fuel st tsc
      ∧ tsc2ns fuel st tsc = .ok (nsValue st tsc)
      ∧ nsValue st' tsc = nsValue st tsc := by
  obtain ⟨now, env1, hrd, hn | hw⟩ := calibrate_ok hcal
  · exfalso
    unfold rdtsc at hrd
    rw [henv] at hrd
    simp only [Except.ok.injEq, Prod.mk.injEq] at hrd
    rw [← hrd.1] at hn
    exact hc hn.1
  · obtain ⟨_, tsc, ns, E, hsync, hread, _, hst⟩ := hw
    have henv1 : env1 = { env with tsc := rest } := by
      unfold rdtsc at hrd
      rw [henv] at hrd
      simp only [Except.ok.injEq, Prod.mk.injEq] at hrd
      exact hrd.2.symm
    obtain ⟨hstable, hfuel⟩ := tsc2ns_ok_stable hread
    have hbt : st'.base_tsc_ = tsc := by rw [hst]; rfl
    have hbn : st'.base_ns_ = nsValue st tsc := by rw [hst]; rfl
    have hstable' : Stable st' := by
      rw [hst]; exact saveParam_stable hstable.2 _ _ _ _
    have hanch := nsValue_anchor hfin (by rw [hbn]; exact nsValue_inInt64 st tsc)
    have hval : nsValue st' tsc = nsValue st tsc := by
      rw [← hbt, hanch.2, hbn, hbt]
    refine ⟨tsc, ns, by rw [← henv1]; exact hsync, hbt, ?_, hread, hval⟩
    rw [tsc2ns_stable hstable' hfuel, hread, hval]

/-- An instance of `calibrate_no_jump`: the `calibrate` call from `afterInit`
on `steadyClock`, whose sample has the cycle value `3000001150`. -/
theorem calibrate_no_jump_witness :
    ∃ tsc ns, syncTime { steadyClock with tsc := [3000001100, 3000001200, 3000001300,
          3000001400] } = .ok (tsc, ns, { tsc := [], ns := [] })
      ∧ afterSteadyCalibrate.base_tsc_ = tsc
      ∧ tsc2ns 1 afterSteadyCalibrate tsc = tsc2ns 1 afterInit tsc
      ∧ tsc2ns 1 afterInit tsc = .ok (nsValue afterInit tsc)
      ∧ nsValue afterSteadyCalibrate tsc = nsValue afterInit tsc :=
  calibrate_no_jump 1 afterInit afterSteadyCalibrate steadyClock { tsc := [], ns := [] }
    3000001000 [3000001100, 3000001200, 3000001300, 3000001400] (by decide!) rfl (by decide)
    (by decide)

/-! ## C19: the second argument -/

/-- Element `i` of a converted vector. -/
theorem map_nsValue_getElem (st : TSCNS) (e : List Int) (i : Nat) (y : Int)
    (hy : e[i]? = some y) : (e.map (nsValue st))[i]? = some (nsValue st y) := by
  rw [List.getElem?_map, hy]; rfl

/-- C19, as stated, fails when the second argument is the first one: called
with the one vector `[1010, 1020]` as both arguments on `snapshotHalf`, the call
succeeds and leaves `[0, 0]` in it, while `tsc2ns(1010)` is `5005` and
`tsc2ns(1020)` is `5010`. -/
theorem same_vector_is_zeroed :
    ns_duration_vector_same 1 snapshotHalf [1010, 1020] = ([0, 0], none)
      ∧ tsc2ns 1 snapshotHalf 1010 = .ok 5005
      ∧ tsc2ns 1 snapshotHalf 1020 = .ok 5010 := by
  refine ⟨by decide!, by decide!, by decide!⟩

/-- C19, amended: for two distinct vectors of equal length and a snapshot with
no write in progress, `ns_duration_vector` returns without a fault, `tsc_end`
keeps its length, and its element `i` is `tsc2ns(e[i])`: converted nanoseconds
in place of the cycle value. -/
theorem ns_duration_vector_converts_end (fuel : Nat) (st : TSCNS) (s e : List Int)
    (hf : 0 < fuel) (hs : Stable st) (hlen : s.length = e.length) :
    (ns_duration_vector fuel st s e).fault = none
      ∧ (ns_duration_vector fuel st s e).tsc_end.length = e.length
      ∧ ∀ (i : Nat) (y : Int), e[i]? = some y →
          ∃ b : Int, tsc2ns fuel st y = .ok b
            ∧ (ns_duration_vector fuel st s e).tsc_end[i]? = some b := by
  rw [ns_duration_vector_stable hs hf hlen]
  refine ⟨rfl, by simp, ?_⟩
  intro i y hy
  exact ⟨nsValue st y, tsc2ns_stable hs hf y, map_nsValue_getElem st e i y hy⟩

/-- An instance of `ns_duration_vector_converts_end`: two vectors of length 2
on `snapshotHalf`. -/
theorem ns_duration_vector_converts_end_witness :
    (ns_duration_vector 1 snapshotHalf [1000, 1003] [1010, 1020]).fault = none
      ∧ (ns_duration_vector 1 snapshotHalf [1000, 1003] [1010, 1020]).tsc_end.length = 2
      ∧ ∀ (i : Nat) (y : Int), [1010, 1020][i]? = some y →
          ∃ b : Int, tsc2ns 1 snapshotHalf y = .ok b
            ∧ (ns_duration_vector 1 snapshotHalf [1000, 1003] [1010, 1020]).tsc_end[i]?
                = some b :=
  ns_duration_vector_converts_end 1 snapshotHalf [1000, 1003] [1010, 1020] (by decide)
    (by decide) (by decide)

/-! ## C12: the tightest bracket -/

/-- `syncTime` on clocks that hold four cycle readings and three wall-clock
readings. -/
theorem syncTime_eq (env : Env) (t0 t1 t2 t3 n1 n2 n3 : Int) (tr nr : List Int)
    (ht : env.tsc = t0 :: t1 :: t2 :: t3 :: tr) (hn : env.ns = n1 :: n2 :: n3 :: nr) :
    syncTime env = .ok
      (wrap64 ([t0, t1, t2, t3].getD (syncBest [t0, t1, t2, t3] 4) 0
          + [t0, t1, t2, t3].getD (syncBest [t0, t1, t2, t3] 4 - 1) 0) / 2,
        [0, n1, n2, n3].getD (syncBest [t0, t1, t2, t3] 4) 0, { tsc := tr, ns := nr }) := by
  obtain ⟨tsc, ns⟩ := env
  simp only at ht hn
  subst ht hn
  simp only [syncTime, rdtsc, rdsysns, bind, Except.bind, pure, Except.pure, syncN]

/-- The selection loop of `syncTime` for `N = 3`, unrolled. -/
theorem syncBest_eq (tsc : List Int) :
    syncBest tsc 4
      = if bracketWidth tsc 3 < bracketWidth tsc (if bracketWidth tsc 2 < bracketWidth tsc 1 then 2 else 1)
        then 3 else (if bracketWidth tsc 2 < bracketWidth tsc 1 then 2 else 1) := rfl

/-- The selected bracket is one of `1, 2, 3`, no bracket is narrower, and every
earlier bracket is strictly wider. -/
theorem syncBest_spec (tsc : List Int) :
    (syncBest tsc 4 = 1 ∨ syncBest tsc 4 = 2 ∨ syncBest tsc 4 = 3)
      ∧ (∀ i, 1 ≤ i → i ≤ 3 → bracketWidth tsc (syncBest tsc 4) ≤ bracketWidth tsc i)
      ∧ (∀ i, 1 ≤ i → i < syncBest tsc 4 →
          bracketWidth tsc (syncBest tsc 4) < bracketWidth tsc i) := by
  have hw : ∀ i, 1 ≤ i → i ≤ 3 → i = 1 ∨ i = 2 ∨ i = 3 := by intro i h1 h2; omega
  rw [syncBest_eq]
  by_cases c2 : bracketWidth tsc 2 < bracketWidth tsc 1
  · simp only [c2, if_true]
    by_cases c3 : bracketWidth tsc 3 < bracketWidth tsc 2
    · simp only [c3, if_true]
      refine ⟨by decide, ?_, ?_⟩
      · intro i h1 h2
        rcases hw i h1 h2 with rfl | rfl | rfl <;> omega
      · intro i h1 h2
        rcases hw i h1 (by omega) with rfl | rfl | rfl <;> omega
    · simp only [c3, if_false]
      refine ⟨by decide, ?_, ?_⟩
      · intro i h1 h2
        rcases hw i h1 h2 with rfl | rfl | rfl <;> omega
      · intro i h1 h2
        rcases hw i h1 (by omega) with rfl | rfl | rfl <;> omega
  · simp only [c2, if_false]
    by_cases c3 : bracketWidth tsc 3 < bracketWidth tsc 1
    · simp only [c3, if_true]
      refine ⟨by decide, ?_, ?_⟩
      · intro i h1 h2
        rcases hw i h1 h2 with rfl | rfl | rfl <;> omega
      · intro i h1 h2
        rcases hw i h1 (by omega) with rfl | rfl | rfl <;> omega
    · simp only [c3, if_false]
      refine ⟨by decide, ?_, ?_⟩
      · intro i h1 h2
        rcases hw i h1 h2 with rfl | rfl | rfl <;> omega
      · intro i h1 h2
        omega

/-- Halving by an arithmetic right shift is the floor of the half. -/
theorem half_eq_floor (x : Int) : x / 2 = ⌊(x : ℚ) / 2⌋ := by
  have := Rat.floor_intCast_div_natCast x 2
  simpa using this.symm

/-- The selection reads the first four cycle readings only. -/
theorem syncBest_prefix (t0 t1 t2 t3 : Int) (tr : List Int) :
    syncBest [t0, t1, t2, t3] 4 = syncBest (t0 :: t1 :: t2 :: t3 :: tr) 4 := by
  have h1 : bracketWidth [t0, t1, t2, t3] 1 = bracketWidth (t0 :: t1 :: t2 :: t3 :: tr) 1 := rfl
  have h2 : bracketWidth [t0, t1, t2, t3] 2 = bracketWidth (t0 :: t1 :: t2 :: t3 :: tr) 2 := rfl
  have h3 : bracketWidth [t0, t1, t2, t3] 3 = bracketWidth (t0 :: t1 :: t2 :: t3 :: tr) 3 := rfl
  rw [syncBest_eq, syncBest_eq, h1, h2, h3]
  by_cases c : bracketWidth (t0 :: t1 :: t2 :: t3 :: tr) 2
      < bracketWidth (t0 :: t1 :: t2 :: t3 :: tr) 1
  · simp only [c, if_true, h2]
  · simp only [c, if_false, h1]

/-- The result of `syncTime` in terms of the readings it takes. -/
theorem syncTime_of_readings (env : Env) (ht : 4 ≤ env.tsc.length) (hn : 3 ≤ env.ns.length) :
    syncTime env = .ok
      (wrap64 (env.tsc.getD (syncBest env.tsc 4) 0 + env.tsc.getD (syncBest env.tsc 4 - 1) 0) / 2,
        env.ns.getD (syncBest env.tsc 4 - 1) 0,
        { tsc := env.tsc.drop 4, ns := env.ns.drop 3 }) := by
  obtain ⟨tsc, ns⟩ := env
  match tsc, ht with
  | t0 :: t1 :: t2 :: t3 :: tr, _ =>
    match ns, hn with
    | n1 :: n2 :: n3 :: nr, _ =>
      rw [syncTime_eq _ t0 t1 t2 t3 n1 n2 n3 tr nr rfl rfl, syncBest_prefix t0 t1 t2 t3 tr]
      rcases (syncBest_spec (t0 :: t1 :: t2 :: t3 :: tr)).1 with h | h | h <;> rw [h] <;> rfl

/-- C12: on clocks that hold four cycle readings `tsc[0..3]` and three
wall-clock readings (`ns[i]` is wall-clock reading `i - 1`), `syncTime` returns
`tsc_out = (tsc[b] + tsc[b - 1]) >> 1` and `ns_out = ns[b]`, where `b` in
`1, 2, 3` is the first index whose bracket width `tsc[b] - tsc[b - 1]` is
minimal; sums and differences are `int64_t` values, and where they do not
overflow the widths are the mathematical differences and `tsc_out` is the floor
of half the mathematical sum. -/
theorem syncTime_tightest_bracket (env : Env) (ht : 4 ≤ env.tsc.length)
    (hn : 3 ≤ env.ns.length) :
    ∃ b : Nat, (b = 1 ∨ b = 2 ∨ b = 3)
      ∧ syncTime env = .ok
          (wrap64 (env.tsc.getD b 0 + env.tsc.getD (b - 1) 0) / 2, env.ns.getD (b - 1) 0,
            { tsc := env.tsc.drop 4, ns := env.ns.drop 3 })
      ∧ (∀ i, 1 ≤ i → i ≤ 3 → bracketWidth env.tsc b ≤ bracketWidth env.tsc i)
      ∧ (∀ i, 1 ≤ i → i < b → bracketWidth env.tsc b < bracketWidth env.tsc i)
      ∧ ((∀ i, 1 ≤ i → i ≤ 3 → InInt64 (env.tsc.getD i 0 - env.tsc.getD (i - 1) 0)) →
          (∀ i, 1 ≤ i → i ≤ 3 →
            env.tsc.getD b 0 - env.tsc.getD (b - 1) 0
              ≤ env.tsc.getD i 0 - env.tsc.getD (i - 1) 0)
          ∧ (∀ i, 1 ≤ i → i < b →
            env.tsc.getD b 0 - env.tsc.getD (b - 1) 0
              < env.tsc.getD i 0 - env.tsc.getD (i - 1) 0))
      ∧ (InInt64 (env.tsc.getD b 0 + env.tsc.getD (b - 1) 0) →
          wrap64 (env.tsc.getD b 0 + env.tsc.getD (b - 1) 0) / 2
            = ⌊((env.tsc.getD b 0 + env.tsc.getD (b - 1) 0 : Int) : ℚ) / 2⌋) := by
  obtain ⟨hb, hmin, hfirst⟩ := syncBest_spec env.tsc
  refine ⟨syncBest env.tsc 4, hb, syncTime_of_readings env ht hn, hmin, hfirst, ?_, ?_⟩
  · intro hr
    have hw : ∀ i, 1 ≤ i → i ≤ 3 → bracketWidth env.tsc i
        = env.tsc.getD i 0 - env.tsc.getD (i - 1) 0 :=
      fun i h1 h3 => wrap64_of_inInt64 (hr i h1 h3)
    have hb1 : 1 ≤ syncBest env.tsc 4 := by rcases hb with h | h | h <;> omega
    have hb3 : syncBest env.tsc 4 ≤ 3 := by rcases hb with h | h | h <;> omega
    refine ⟨fun i h1 h3 => ?_, fun i h1 h3 => ?_⟩
    · rw [← hw i h1 h3, ← hw _ hb1 hb3]; exact hmin i h1 h3
    · rw [← hw i h1 (by omega), ← hw _ hb1 hb3]; exact hfirst i h1 h3
  · intro hr
    rw [wrap64_of_inInt64 hr]
    exact half_eq_floor _

/-- An instance of `syncTime_tightest_bracket`: the first sample of `init` on
`steppedClock`, which is `(1050, 1050)`. -/
theorem syncTime_tightest_bracket_witness :
    4 ≤ steppedClock.tsc.length ∧ 3 ≤ steppedClock.ns.length
      ∧ syncTime steppedClock = .ok (1050, 1050, steppedClockInInit)
      ∧ ∃ b : Nat, (b = 1 ∨ b = 2 ∨ b = 3)
      ∧ syncTime steppedClock = .ok
          (wrap64 (steppedClock.tsc.getD b 0 + steppedClock.tsc.getD (b - 1) 0) / 2,
            steppedClock.ns.getD (b - 1) 0,
            { tsc := steppedClock.tsc.drop 4, ns := steppedClock.ns.drop 3 })
      ∧ (∀ i, 1 ≤ i → i ≤ 3 → bracketWidth steppedClock.tsc b ≤ bracketWidth steppedClock.tsc i)
      ∧ (∀ i, 1 ≤ i → i < b → bracketWidth steppedClock.tsc b < bracketWidth steppedClock.tsc i)
      ∧ ((∀ i, 1 ≤ i → i ≤ 3 →
            InInt64 (steppedClock.tsc.getD i 0 - steppedClock.tsc.getD (i - 1) 0)) →
          (∀ i, 1 ≤ i → i ≤ 3 →
            steppedClock.tsc.getD b 0 - steppedClock.tsc.getD (b - 1) 0
              ≤ steppedClock.tsc.getD i 0 - steppedClock.tsc.getD (i - 1) 0)
          ∧ (∀ i, 1 ≤ i → i < b →
            steppedClock.tsc.getD b 0 - steppedClock.tsc.getD (b - 1) 0
              < steppedClock.tsc.getD i 0 - steppedClock.tsc.getD (i - 1) 0))
      ∧ (InInt64 (steppedClock.tsc.getD b 0 + steppedClock.tsc.getD (b - 1) 0) →
          wrap64 (steppedClock.tsc.getD b 0 + steppedClock.tsc.getD (b - 1) 0) / 2
            = ⌊((steppedClock.tsc.getD b 0 + steppedClock.tsc.getD (b - 1) 0 : Int) : ℚ) / 2⌋) :=
  ⟨by decide, by decide, by decide!,
    syncTime_tightest_bracket steppedClock (by decide) (by decide)⟩

/-- A narrower later bracket wins, and a tie goes to the earlier bracket. -/
theorem syncTime_examples :
    syncTime { tsc := [10, 40, 61, 81], ns := [1, 2, 3] } = .ok (71, 3, { tsc := [], ns := [] })
      ∧ syncTime { tsc := [10, 30, 50, 70], ns := [1, 2, 3] }
          = .ok (20, 1, { tsc := [], ns := [] })
      ∧ syncTime { tsc := [-10, -3, 50, 70], ns := [1, 2, 3] }
          = .ok (-7, 1, { tsc := [], ns := [] }) := by
  refine ⟨by decide!, by decide!, by decide!⟩

/-! ## C15: the divisor of the projection -/

/-- Subtracting the stored error from the stored anchor gives back the
wall-clock value, in `int64_t` arithmetic. -/
theorem wrap64_sub_wrap64_sub (a b : Int) : wrap64 (a - wrap64 (a - b)) = wrap64 b := by
  unfold wrap64; omega

/-- A `calibrate` call that returns either took no sample and left the state
as it was, or published from the sample `calibrateSample` names. -/
theorem calibrateSample_of_ok {fuel : Nat} {st st' : TSCNS} {env env' : Env}
    (h : calibrate fuel st env = .ok (st', env')) :
    (calibrateSample st env = none ∧ st' = st)
      ∨ ∃ tsc ns E, calibrateSample st env = some (tsc, ns)
          ∧ tsc2ns fuel st tsc = .ok (nsValue st tsc)
          ∧ projectedErr st (nsValue st tsc) ns = .ok E
          ∧ st' = saveParam st tsc (nsValue st tsc) ns (correctedSlope st E) := by
  obtain ⟨now, env1, hrd, hn | hw⟩ := calibrate_ok h
  · left
    refine ⟨?_, hn.2.1⟩
    unfold calibrateSample
    rw [hrd]
    simp only [hn.1, if_true]
  · right
    obtain ⟨hge, tsc, ns, E, hsync, ht, hE, hst⟩ := hw
    refine ⟨tsc, ns, E, ?_, ht, hE, hst⟩
    unfold calibrateSample
    rw [hrd]
    simp only [hge, if_false, hsync]

/-- The invariant of C15: `base_ns_ - base_ns_err_` is the wall-clock value of
the sample of the last publish, in `int64_t` arithmetic. -/
theorem PublishedWith.anchor {st : TSCNS} {sys : Int} (h : PublishedWith st sys) :
    wrap64 (st.base_ns_ - st.base_ns_err_) = wrap64 sys := by
  induction h with
  | init hi hs =>
    obtain ⟨bt, bn, env1, rest, dt, dn, h1, _, _, hst⟩ := init_ok hi
    rw [hs] at h1
    simp only [Except.ok.injEq, Prod.mk.injEq] at h1
    subst hst
    rw [saveParam_base_ns, saveParam_base_ns_err, ← h1.2.1]
    exact wrap64_sub_wrap64_sub _ _
  | calibrate _ hc ih =>
    rcases calibrateSample_of_ok hc with ⟨hnone, hst⟩ | ⟨tsc, ns, E, hsome, _, _, hst⟩
    · rw [hnone, hst]; exact ih
    · rw [hsome]
      subst hst
      rw [saveParam_base_ns, saveParam_base_ns_err]
      exact wrap64_sub_wrap64_sub _ _

/-- Under the invariant the divisor of `calibrate` is the wall-clock time since
the previous sample. -/
theorem divisor_eq {st : TSCNS} {sys : Int} (h : wrap64 (st.base_ns_ - st.base_ns_err_) = wrap64 sys)
    (ns : Int) : wrap64 (wrap64 (ns - st.base_ns_) + st.base_ns_err_) = wrap64 (ns - sys) := by
  unfold wrap64 at *; omega

/-- C15: in every state reached by `init` followed by `calibrate` calls, with
`sys` the wall-clock value of the sample of the last publish,
`base_ns_ - base_ns_err_` is `sys` (as `int64_t` values, and as integers when
neither side overflows), the divisor `ns - base_ns_ + base_ns_err_` of
`calibrate` is `ns - sys`, and a `calibrate` call that does work on a sample
`(tsc, ns)` publishes the slope corrected by the projected error
`err + (err - base_ns_err_) * calibate_interval_ns_ / (ns - sys)` with
`err = tsc2ns(tsc) - ns`. -/
theorem calibrate_divisor_is_elapsed {st : TSCNS} {sys : Int} (h : PublishedWith st sys) :
    wrap64 (st.base_ns_ - st.base_ns_err_) = wrap64 sys
      ∧ (InInt64 sys → InInt64 (st.base_ns_ - st.base_ns_err_) →
          st.base_ns_ - st.base_ns_err_ = sys)
      ∧ (∀ ns : Int, wrap64 (wrap64 (ns - st.base_ns_) + st.base_ns_err_) = wrap64 (ns - sys))
      ∧ (∀ calulated_ns ns : Int,
          projectedErr st calulated_ns ns = projectedErrSince st sys calulated_ns ns)
      ∧ (∀ (fuel : Nat) (env env' : Env) (st' : TSCNS) (tsc ns : Int),
          calibrate fuel st env = .ok (st', env') → calibrateSample st env = some (tsc, ns) →
          ∃ c E, tsc2ns fuel st tsc = .ok c ∧ projectedErrSince st sys c ns = .ok E
            ∧ st' = saveParam st tsc c ns (correctedSlope st E)
            ∧ PublishedWith st' ns) := by
  have ha := h.anchor
  refine ⟨ha, ?_, divisor_eq ha, ?_, ?_⟩
  · intro h1 h2
    rw [← wrap64_of_inInt64 h2, ha, wrap64_of_inInt64 h1]
  · intro c ns
    unfold projectedErr projectedErrSince
    rw [divisor_eq ha]
  · intro fuel env env' st' tsc ns hc hs
    have hp := PublishedWith.calibrate h hc
    rw [hs] at hp
    rcases calibrateSample_of_ok hc with ⟨hnone, _⟩ | ⟨tsc1, ns1, E, hsome, ht, hE, hst⟩
    · rw [hnone] at hs; cases hs
    · rw [hsome] at hs
      simp only [Option.some.injEq, Prod.mk.injEq] at hs
      obtain ⟨rfl, rfl⟩ := hs
      refine ⟨nsValue st tsc1, E, ht, ?_, hst, hp⟩
      rw [← hE]
      unfold projectedErr projectedErrSince
      rw [divisor_eq ha]

/-- On `steppedClock` the sample of the last publish of `init` read `1050` ns. -/
theorem publishedWith_afterInit : PublishedWith afterInit 1050 :=
  PublishedWith.init
    (show init freshTSCNS steppedClock 20000000 3000000000
      = .ok (afterInit, steppedClockAfterInit) by decide!)
    (show syncTime steppedClock = .ok (1050, 1050, steppedClockInInit) by decide!)

/-- An instance of `calibrate_divisor_is_elapsed`: the state after `init` on
`steppedClock`, whose `calibrate` call divides by `1000001150 - 1050`. -/
theorem calibrate_divisor_is_elapsed_witness :
    PublishedWith afterInit 1050
      ∧ calibrate 1 afterInit steppedClockAfterRead
          = .ok (afterCalibrate, steppedClockAfterCalibrate)
      ∧ calibrateSample afterInit steppedClockAfterRead = some (3000001150, 1000001150)
      ∧ projectedErrSince afterInit 1050 3000001150 1000001150 = .ok 7999999400
      ∧ (wrap64 (afterInit.base_ns_ - afterInit.base_ns_err_) = wrap64 1050
      ∧ (InInt64 1050 → InInt64 (afterInit.base_ns_ - afterInit.base_ns_err_) →
          afterInit.base_ns_ - afterInit.base_ns_err_ = 1050)
      ∧ (∀ ns : Int, wrap64 (wrap64 (ns - afterInit.base_ns_) + afterInit.base_ns_err_)
          = wrap64 (ns - 1050))
      ∧ (∀ calulated_ns ns : Int,
          projectedErr afterInit calulated_ns ns = projectedErrSince afterInit 1050 calulated_ns ns)
      ∧ (∀ (fuel : Nat) (env env' : Env) (st' : TSCNS) (tsc ns : Int),
          calibrate fuel afterInit env = .ok (st', env') →
          calibrateSample afterInit env = some (tsc, ns) →
          ∃ c E, tsc2ns fuel afterInit tsc = .ok c ∧ projectedErrSince afterInit 1050 c ns = .ok E
            ∧ st' = saveParam afterInit tsc c ns (correctedSlope afterInit E)
            ∧ PublishedWith st' ns)) :=
  ⟨publishedWith_afterInit, by decide!, by decide!, by decide!,
    calibrate_divisor_is_elapsed publishedWith_afterInit⟩

/-! ## C11: what `init` publishes -/

/-- The cycle value of a sample is half of an `int64_t`. -/
theorem syncTime_tsc_range {env env' : Env} {t n : Int} (h : syncTime env = .ok (t, n, env')) :
    -2 ^ 62 ≤ t ∧ t < 2 ^ 62 := by
  have key : ∀ x : Int, -2 ^ 62 ≤ wrap64 x / 2 ∧ wrap64 x / 2 < 2 ^ 62 := by
    intro x
    have := wrap64_inInt64 x
    unfold InInt64 at this
    omega
  obtain ⟨tsc, ns⟩ := env
  rcases tsc with _ | ⟨t0, _ | ⟨t1, _ | ⟨t2, _ | ⟨t3, tr⟩⟩⟩⟩ <;>
    rcases ns with _ | ⟨n1, _ | ⟨n2, _ | ⟨n3, nr⟩⟩⟩ <;>
    simp only [syncTime, rdtsc, rdsysns, bind, Except.bind, pure, Except.pure,
      Except.ok.injEq, Prod.mk.injEq, reduceCtorEq] at h
  rw [← h.1]
  exact key _

/-- C11: when the clocks give `init` the base sample `(bt, bn)` and the delayed
sample `(dt, dn)` with `dt ≠ bt`, `init` returns and publishes `base_tsc_ = bt`,
`base_ns_ = bn`, `base_ns_err_ = 0` and the slope
`(double)(dn - bn) / (double)(dt - bt)`: the double nearest to the quotient of
the two converted differences, which for differences of magnitude at most
`2 ^ 53` is the double nearest to the rational `(dn - bn) / (dt - bt)`. -/
theorem init_publishes_first_sample (st : TSCNS) (env env1 env2 : Env) (a b bt bn dt dn : Int)
    (rest : List Int) (h1 : syncTime env = .ok (bt, bn, env1))
    (h2 : waitUntil (wrap64 (bn + a)) env1.ns = some rest)
    (h3 : syncTime { env1 with ns := rest } = .ok (dt, dn, env2)) (hne : dt ≠ bt) :
    ∃ st', init st env a b = .ok (st', env2)
      ∧ st'.base_tsc_ = bt ∧ st'.base_ns_ = bn ∧ st'.base_ns_err_ = 0
      ∧ st'.ns_per_tsc_ = F64.div (F64.ofInt (wrap64 (dn - bn))) (F64.ofInt (dt - bt))
      ∧ (∃ s n d, 0 < d ∧ st'.ns_per_tsc_ = F64.round s n d
          ∧ F64.sgn s * ((n : ℚ) / (d : ℚ))
              = F64.ext (F64.ofInt (wrap64 (dn - bn))) / F64.ext (F64.ofInt (dt - bt))
          ∧ ((dn - bn).natAbs ≤ 2 ^ 53 → (dt - bt).natAbs ≤ 2 ^ 53 →
              F64.sgn s * ((n : ℚ) / (d : ℚ)) = ((dn - bn : Int) : ℚ) / ((dt - bt : Int) : ℚ))) := by
  have r1 := syncTime_tsc_range h1
  have r3 := syncTime_tsc_range h3
  have hT : wrap64 (dt - bt) = dt - bt := wrap64_of_inInt64 (by unfold InInt64; omega)
  have hTin : InInt64 (dt - bt) := by unfold InInt64; omega
  have hT0 : dt - bt ≠ 0 := by omega
  refine ⟨_, init_of st a b h1 h2 h3, rfl, rfl, ?_, ?_, ?_⟩
  · rw [saveParam_base_ns_err]; unfold wrap64; omega
  · rw [saveParam_ns_per_tsc, hT]
  · rw [saveParam_ns_per_tsc, hT]
    have fN := F64.ofInt_isFinite (wrap64_inInt64 (dn - bn))
    have fT := F64.ofInt_isFinite hTin
    have hTe : F64.ext (F64.ofInt (dt - bt)) ≠ 0 := by
      rcases lt_or_gt_of_ne hT0 with hneg | hpos
      · have := F64.ofInt_mono (by omega : dt - bt ≤ -1)
        rw [F64.ofInt_exact (i := -1) (by decide)] at this
        have h' : F64.ext (F64.ofInt (dt - bt)) ≤ -1 := by exact_mod_cast this
        linarith
      · have := F64.ofInt_mono (by omega : (1 : Int) ≤ dt - bt)
        rw [F64.ofInt_exact (i := 1) (by decide)] at this
        have h' : (1 : ℚ) ≤ F64.ext (F64.ofInt (dt - bt)) := by exact_mod_cast this
        linarith
    obtain ⟨s, n, d, hd, hdiv, hsv⟩ := F64.div_round_form fN fT hTe
    refine ⟨s, n, d, hd, hdiv, hsv, ?_⟩
    intro hN hT53
    have hNin : InInt64 (dn - bn) := by unfold InInt64; omega
    rw [hsv, wrap64_of_inInt64 hNin, F64.ofInt_exact hN, F64.ofInt_exact hT53]

/-- An instance of `init_publishes_first_sample`: `init()` on `steppedClock`,
with the samples `(1050, 1050)` and `(20001250, 20001250)`. -/
theorem init_publishes_first_sample_witness :
    syncTime steppedClock = .ok (1050, 1050, steppedClockInInit)
      ∧ waitUntil (wrap64 (1050 + 20000000)) steppedClockInInit.ns
          = some steppedClockInInit.ns.tail
      ∧ syncTime { steppedClockInInit with ns := steppedClockInInit.ns.tail }
          = .ok (20001250, 20001250, steppedClockAfterInit)
      ∧ (20001250 : Int) ≠ 1050
      ∧ ∃ st', init freshTSCNS steppedClock 20000000 3000000000 = .ok (st', steppedClockAfterInit)
      ∧ st'.base_tsc_ = 1050 ∧ st'.base_ns_ = 1050 ∧ st'.base_ns_err_ = 0
      ∧ st'.ns_per_tsc_
          = F64.div (F64.ofInt (wrap64 (20001250 - 1050))) (F64.ofInt (20001250 - 1050))
      ∧ (∃ s n d, 0 < d ∧ st'.ns_per_tsc_ = F64.round s n d
          ∧ F64.sgn s * ((n : ℚ) / (d : ℚ))
              = F64.ext (F64.ofInt (wrap64 (20001250 - 1050)))
                  / F64.ext (F64.ofInt (20001250 - 1050))
          ∧ (((20001250 : Int) - 1050).natAbs ≤ 2 ^ 53 →
              ((20001250 : Int) - 1050).natAbs ≤ 2 ^ 53 →
              F64.sgn s * ((n : ℚ) / (d : ℚ))
                = (((20001250 : Int) - 1050 : Int) : ℚ) / (((20001250 : Int) - 1050 : Int) : ℚ))) :=
  ⟨by decide!, by decide!, by decide!, by decide,
    init_publishes_first_sample freshTSCNS steppedClock steppedClockInInit steppedClockAfterInit
      20000000 3000000000 1050 1050 20001250 20001250 steppedClockInInit.ns.tail
      (by decide!) (by decide!) (by decide!) (by decide)⟩

/-! ## C13: the mean and the population standard deviation -/

namespace F64

/-- The helper of `isqrt` computes the integer square root when it has enough
fuel. -/
theorem isqrtAux_spec : ∀ (fuel n : Nat), n < 4 ^ fuel →
    isqrtAux fuel n * isqrtAux fuel n ≤ n ∧ n < (isqrtAux fuel n + 1) * (isqrtAux fuel n + 1) := by
  intro fuel
  induction fuel with
  | zero =>
    intro n hn
    have : n = 0 := by simpa using hn
    subst this
    simp [isqrtAux]
  | succ f ih =>
    intro n hn
    unfold isqrtAux
    by_cases h0 : n = 0
    · subst h0; simp
    · rw [if_neg h0]
      have hq : n / 4 < 4 ^ f := by
        rw [pow_succ] at hn
        omega
      obtain ⟨h1, h2⟩ := ih (n / 4) hq
      generalize isqrtAux f (n / 4) = r at h1 h2
      have hn4 : 4 * (n / 4) ≤ n := Nat.mul_div_le n 4
      have hn4' : n < 4 * (n / 4) + 4 := by omega
      simp only []
      by_cases hc : (2 * r + 1) * (2 * r + 1) ≤ n
      · rw [if_pos hc]
        refine ⟨hc, ?_⟩
        nlinarith
      · rw [if_neg hc]
        refine ⟨by nlinarith, by omega⟩

/-- The integer square root `r` of `n` satisfies `r * r ≤ n < (r + 1) * (r + 1)`. -/
theorem isqrt_spec (n : Nat) : isqrt n * isqrt n ≤ n ∧ n < (isqrt n + 1) * (isqrt n + 1) := by
  apply isqrtAux_spec
  rcases Nat.eq_zero_or_pos n with h | h
  · subst h; simp
  · have h1 := (bits_spec h).2
    have h2 : 2 ^ bits n ≤ 4 ^ bits n := Nat.pow_le_pow_left (by norm_num) _
    omega


/-- The square root is the rounding of the integer root `r` of the scaled
argument, with a half added when the root is not exact; `r` has at least 54
bits, so no double and no midpoint of two doubles lies strictly between
`r / 2 ^ k` and `(r + 1) / 2 ^ k`. -/
theorem sqrt_bracket (m : Nat) (e : Int) (hm : 0 < m) :
    ∃ r k sticky : Nat, sqrt (fin false m e) = round false (2 * r + sticky) (2 ^ (k + 1))
      ∧ sticky ≤ 1 ∧ 2 ^ 53 ≤ r
      ∧ ((r : ℚ) / 2 ^ k) ^ 2 ≤ toRat (fin false m e)
      ∧ toRat (fin false m e) < (((r : ℚ) + 1) / 2 ^ k) ^ 2
      ∧ (sticky = 0 ↔ ((r : ℚ) / 2 ^ k) ^ 2 = toRat (fin false m e)) := by
  have hk0 : 0 ≤ e + 2 * ((((107 - e) / 2).toNat : Nat) : Int) := by omega
  have hk106 : 106 ≤ e + 2 * ((((107 - e) / 2).toNat : Nat) : Int) := by omega
  generalize hk : ((107 - e) / 2).toNat = k at hk0 hk106
  obtain ⟨h1, h2⟩ := isqrt_spec (m * pow2n (e + 2 * (k : Int)))
  have hsq : sqrt (fin false m e)
      = round false (2 * isqrt (m * pow2n (e + 2 * (k : Int)))
          + (if isqrt (m * pow2n (e + 2 * (k : Int))) * isqrt (m * pow2n (e + 2 * (k : Int)))
              = m * pow2n (e + 2 * (k : Int)) then 0 else 1)) (2 ^ (k + 1)) := by
    simp only [sqrt, if_neg (Nat.pos_iff_ne_zero.mp hm), Bool.false_eq_true, if_false, hk]
  have two : (2 : ℚ) ≠ 0 := by norm_num
  have hn : ((m * pow2n (e + 2 * (k : Int)) : Nat) : ℚ)
      = toRat (fin false m e) * ((2 : ℚ) ^ k) ^ 2 := by
    rw [Nat.cast_mul, pow2n_of_nonneg hk0, zpow_add₀ two]
    simp only [toRat, Bool.false_eq_true, if_false, one_mul]
    have : (2 : ℚ) ^ (2 * (k : Int)) = ((2 : ℚ) ^ k) ^ 2 := by
      rw [show (2 * (k : Int)) = ((k * 2 : Nat) : Int) by push_cast; ring, zpow_natCast, pow_mul]
    rw [this]; ring
  have hbig : 2 ^ 106 ≤ m * pow2n (e + 2 * (k : Int)) := by
    have : 2 ^ 106 ≤ pow2n (e + 2 * (k : Int)) := by
      unfold pow2n
      apply Nat.pow_le_pow_right (by norm_num)
      omega
    calc 2 ^ 106 ≤ pow2n (e + 2 * (k : Int)) := this
      _ ≤ m * pow2n (e + 2 * (k : Int)) := Nat.le_mul_of_pos_left _ hm
  generalize hN : m * pow2n (e + 2 * (k : Int)) = N at h1 h2 hsq hn hbig
  generalize hr : isqrt N = r at h1 h2 hsq
  have hp : (0 : ℚ) < ((2 : ℚ) ^ k) ^ 2 := by positivity
  have e1 : ((r : ℚ) / 2 ^ k) ^ 2 = ((r * r : Nat) : ℚ) / ((2 : ℚ) ^ k) ^ 2 := by
    push_cast; rw [div_pow]; ring
  have e2 : (((r : ℚ) + 1) / 2 ^ k) ^ 2 = (((r + 1) * (r + 1) : Nat) : ℚ) / ((2 : ℚ) ^ k) ^ 2 := by
    push_cast; rw [div_pow]; ring
  have e3 : toRat (fin false m e) = (N : ℚ) / ((2 : ℚ) ^ k) ^ 2 := by
    rw [hn]; field_simp
  refine ⟨r, k, if r * r = N then 0 else 1, hsq, ?_, ?_, ?_, ?_, ?_⟩
  · split_ifs <;> omega
  · by_contra hlt
    have hlt' : r + 1 ≤ 2 ^ 53 := by omega
    have : (r + 1) * (r + 1) ≤ 2 ^ 53 * 2 ^ 53 := Nat.mul_le_mul hlt' hlt'
    have e106 : (2 : Nat) ^ 53 * 2 ^ 53 = 2 ^ 106 := by norm_num
    omega
  · rw [e1, e3]
    apply div_le_div_of_nonneg_right _ (le_of_lt hp)
    exact_mod_cast h1
  · rw [e2, e3]
    apply div_lt_div_of_pos_right _ hp
    exact_mod_cast h2
  · rw [e1, e3]
    constructor
    · intro h
      have : r * r = N := by
        by_contra hne
        rw [if_neg hne] at h
        exact absurd h (by decide)
      rw [this]
    · intro h
      have h' : ((r * r : Nat) : ℚ) = (N : ℚ) := by
        have := congrArg (fun x => x * ((2 : ℚ) ^ k) ^ 2) h
        simp only at this
        rwa [div_mul_cancel₀ _ (ne_of_gt hp), div_mul_cancel₀ _ (ne_of_gt hp)] at this
      have : r * r = N := by exact_mod_cast h'
      rw [if_pos this]


/-- Negation keeps finiteness. -/
theorem neg_isFinite (x : F64) : (neg x).isFinite = x.isFinite := by
  cases x <;> rfl

/-- A difference of finite doubles that is zero is a zero. -/
theorem sub_zero_form {a b : F64} (ha : a.isFinite = true) (hb : b.isFinite = true)
    (h0 : ext a - ext b = 0) : ∃ s, sub a b = fin s 0 0 := by
  cases a with
  | inf _ => simp [isFinite] at ha
  | nan => simp [isFinite] at ha
  | fin s m e =>
    cases b with
    | inf _ => simp [isFinite] at hb
    | nan => simp [isFinite] at hb
    | fin t k f =>
      have hg1 : 0 ≤ e - min e f := by have := min_le_left e f; omega
      have hg2 : 0 ≤ f - min e f := by have := min_le_right e f; omega
      have two : (2 : ℚ) ≠ 0 := by norm_num
      have hc : ((((if s then -1 else 1) * ((m * pow2n (e - min e f) : Nat) : Int)
          + (if (!t) then -1 else 1) * ((k * pow2n (f - min e f) : Nat) : Int) : Int)) : ℚ)
            * (2 : ℚ) ^ (min e f) = ext (fin s m e) - ext (fin t k f) := by
        have p1 : ((pow2n (e - min e f) : Nat) : ℚ) * (2 : ℚ) ^ (min e f) = (2 : ℚ) ^ e := by
          rw [pow2n_of_nonneg hg1, ← zpow_add₀ two]; congr 1; ring
        have p2 : ((pow2n (f - min e f) : Nat) : ℚ) * (2 : ℚ) ^ (min e f) = (2 : ℚ) ^ f := by
          rw [pow2n_of_nonneg hg2, ← zpow_add₀ two]; congr 1; ring
        simp only [ext]
        push_cast
        cases s <;> cases t <;> simp only [sgn, Bool.not_false, Bool.not_true,
          Bool.false_eq_true, if_false, if_true, Int.cast_neg, Int.cast_one] <;>
          first
            | linear_combination (m : ℚ) * p1 - (k : ℚ) * p2
            | linear_combination (m : ℚ) * p1 + (k : ℚ) * p2
            | linear_combination -(m : ℚ) * p1 - (k : ℚ) * p2
            | linear_combination -(m : ℚ) * p1 + (k : ℚ) * p2
      generalize hcdef : ((if s then -1 else 1) * ((m * pow2n (e - min e f) : Nat) : Int)
          + (if (!t) then -1 else 1) * ((k * pow2n (f - min e f) : Nat) : Int) : Int) = c at hc
      have hc0 : c = 0 := by
        rw [h0] at hc
        have hp : (2 : ℚ) ^ (min e f) ≠ 0 := zpow_ne_zero _ two
        rcases mul_eq_zero.mp hc with h | h
        · exact_mod_cast h
        · exact absurd h hp
      refine ⟨s && !t, ?_⟩
      simp only [sub, neg, add]
      rw [hcdef, if_pos hc0]

/-- A difference of finite doubles that is an integer of magnitude at most
`2 ^ 53` is computed exactly. -/
theorem sub_exact {a b : F64} (ha : a.isFinite = true) (hb : b.isFinite = true) {z : Int}
    (hz : ext a - ext b = (z : ℚ)) (hz53 : z.natAbs ≤ 2 ^ 53) :
    (sub a b).isFinite = true ∧ ext (sub a b) = (z : ℚ) := by
  by_cases h0 : ext a - ext b = 0
  · obtain ⟨s, hs⟩ := sub_zero_form ha hb h0
    rw [hs, ← hz, h0]
    exact ⟨rfl, by simp [ext]⟩
  · obtain ⟨s, n, d, hd, hsub, hsv⟩ := sub_round_form ha hb h0
    rw [hsub]
    obtain ⟨hf, h1, h2⟩ := round_int_bounds s hd hz53 hz53 (by rw [hsv, hz]) (by rw [hsv, hz])
    exact ⟨hf, le_antisymm h2 h1⟩

/-- Negating twice gives the double back. -/
theorem neg_neg_eq (x : F64) : neg (neg x) = x := by
  cases x <;> simp [neg]

/-- A sum of finite doubles that is an integer of magnitude at most `2 ^ 53` is
computed exactly. -/
theorem add_exact {a b : F64} (ha : a.isFinite = true) (hb : b.isFinite = true) {z : Int}
    (hz : ext a + ext b = (z : ℚ)) (hz53 : z.natAbs ≤ 2 ^ 53) :
    (add a b).isFinite = true ∧ ext (add a b) = (z : ℚ) := by
  have h := sub_exact (a := a) (b := neg b) ha (by rw [neg_isFinite]; exact hb) (z := z)
    (by rw [ext_neg]; linarith) hz53
  unfold sub at h
  rwa [neg_neg_eq] at h

/-- A product of finite doubles that is an integer of magnitude at most
`2 ^ 53` is computed exactly. -/
theorem mul_exact {a b : F64} (ha : a.isFinite = true) (hb : b.isFinite = true) {z : Int}
    (hz : ext a * ext b = (z : ℚ)) (hz53 : z.natAbs ≤ 2 ^ 53) :
    (mul a b).isFinite = true ∧ ext (mul a b) = (z : ℚ) := by
  obtain ⟨s, n, d, hd, hmul, hsv⟩ := mul_round_form ha hb
  rw [hmul]
  obtain ⟨hf, h1, h2⟩ := round_int_bounds s hd hz53 hz53 (by rw [hsv, hz]) (by rw [hsv, hz])
  exact ⟨hf, le_antisymm h2 h1⟩

/-- A quotient of finite doubles that is an integer of magnitude at most
`2 ^ 53` is computed exactly. -/
theorem div_exact {a b : F64} (ha : a.isFinite = true) (hb : b.isFinite = true)
    (hb0 : ext b ≠ 0) {z : Int} (hz : ext a / ext b = (z : ℚ)) (hz53 : z.natAbs ≤ 2 ^ 53) :
    (div a b).isFinite = true ∧ ext (div a b) = (z : ℚ) := by
  obtain ⟨s, n, d, hd, hdiv, hsv⟩ := div_round_form ha hb hb0
  rw [hdiv]
  obtain ⟨hf, h1, h2⟩ := round_int_bounds s hd hz53 hz53 (by rw [hsv, hz]) (by rw [hsv, hz])
  exact ⟨hf, le_antisymm h2 h1⟩

/-- An integer of magnitude at most `2 ^ 53` converts to a finite double of the
same value. -/
theorem ofInt_small {i : Int} (h : i.natAbs ≤ 2 ^ 53) :
    (ofInt i).isFinite = true ∧ ext (ofInt i) = (i : ℚ) :=
  ⟨ofInt_isFinite (by unfold InInt64; omega), ofInt_exact h⟩

end F64

/-- The accumulation of `mean_and_std` is exact while the partial sums have
magnitude at most `2 ^ 53`. -/
theorem accumulate_exact {B : Nat} : ∀ (l : List Int) (acc : F64) (a : Int),
    acc.isFinite = true → F64.ext acc = (a : ℚ) → (∀ v ∈ l, v.natAbs ≤ B) →
    a.natAbs + l.length * B ≤ 2 ^ 53 →
    (l.foldl (fun acc v => F64.add acc (F64.ofInt v)) acc).isFinite = true
      ∧ F64.ext (l.foldl (fun acc v => F64.add acc (F64.ofInt v)) acc) = ((a + l.sum : Int) : ℚ) := by
  intro l
  induction l with
  | nil => intro acc a hf he _ _; simpa using ⟨hf, he⟩
  | cons v l ih =>
    intro acc a hf he hB hb
    have hv : v.natAbs ≤ B := hB v (List.mem_cons_self _ _)
    simp only [List.length_cons] at hb
    have hb' : a.natAbs + B + l.length * B ≤ 2 ^ 53 := by
      have : (l.length + 1) * B = l.length * B + B := by ring
      omega
    obtain ⟨fv, ev⟩ := F64.ofInt_small (i := v) (by omega)
    obtain ⟨f1, e1⟩ := F64.add_exact hf fv (z := a + v) (by rw [he, ev]; push_cast; ring)
      (by omega)
    have := ih (F64.add acc (F64.ofInt v)) (a + v) f1 e1
      (fun w hw => hB w (List.mem_cons_of_mem _ hw)) (by omega)
    simp only [List.foldl_cons, List.sum_cons]
    rw [show a + (v + l.sum) = a + v + l.sum by ring]
    exact this

/-- The variance loop of `mean_and_std` is exact for an integer mean while the
partial sums of the squared deviations are at most `2 ^ 53`. -/
theorem variance_exact {D : Nat} {mean : F64} {M : Int} (hm : mean.isFinite = true)
    (hM : F64.ext mean = (M : ℚ)) : ∀ (l : List Int) (acc : F64) (a : Int),
    acc.isFinite = true → F64.ext acc = (a : ℚ) → 0 ≤ a → (∀ v ∈ l, v.natAbs ≤ 2 ^ 53) →
    (∀ v ∈ l, (v - M).natAbs ≤ D) → a.natAbs + l.length * (D * D) ≤ 2 ^ 53 →
    (l.foldl (fun variance value => F64.add variance
        (F64.mul (F64.sub (F64.ofInt value) mean) (F64.sub (F64.ofInt value) mean))) acc).isFinite
        = true
      ∧ F64.ext (l.foldl (fun variance value => F64.add variance
          (F64.mul (F64.sub (F64.ofInt value) mean) (F64.sub (F64.ofInt value) mean))) acc)
        = ((a + (l.map (fun v => (v - M) * (v - M))).sum : Int) : ℚ) := by
  intro l
  induction l with
  | nil => intro acc a hf he _ _ _ _; simpa using ⟨hf, he⟩
  | cons v l ih =>
    intro acc a hf he ha hB hD hb
    have hv : v.natAbs ≤ 2 ^ 53 := hB v (List.mem_cons_self _ _)
    have hd : (v - M).natAbs ≤ D := hD v (List.mem_cons_self _ _)
    have hsq : ((v - M) * (v - M)).natAbs ≤ D * D := by
      rw [Int.natAbs_mul]; exact Nat.mul_le_mul hd hd
    have hsq0 : 0 ≤ (v - M) * (v - M) := mul_self_nonneg _
    simp only [List.length_cons] at hb
    have hb' : a.natAbs + D * D + l.length * (D * D) ≤ 2 ^ 53 := by
      have : (l.length + 1) * (D * D) = l.length * (D * D) + D * D := by ring
      omega
    have hD53 : (v - M).natAbs ≤ 2 ^ 53 := by
      have : (v - M).natAbs ≤ (v - M).natAbs * (v - M).natAbs := by
        rcases Nat.eq_zero_or_pos (v - M).natAbs with h | h
        · rw [h]
        · exact Nat.le_mul_of_pos_left _ h
      rw [Int.natAbs_mul] at hsq
      omega
    obtain ⟨fv, ev⟩ := F64.ofInt_small (i := v) hv
    obtain ⟨fs, es⟩ := F64.sub_exact fv hm (z := v - M) (by rw [ev, hM]; push_cast; ring) hD53
    obtain ⟨fm, em⟩ := F64.mul_exact fs fs (z := (v - M) * (v - M))
      (by rw [es]; push_cast; ring) (by omega)
    obtain ⟨f1, e1⟩ := F64.add_exact hf fm (z := a + (v - M) * (v - M))
      (by rw [he, em]; push_cast; ring) (by omega)
    have := ih (F64.add acc (F64.mul (F64.sub (F64.ofInt v) mean) (F64.sub (F64.ofInt v) mean)))
      (a + (v - M) * (v - M)) f1 e1 (by omega)
      (fun w hw => hB w (List.mem_cons_of_mem _ hw))
      (fun w hw => hD w (List.mem_cons_of_mem _ hw)) (by omega)
    simp only [List.foldl_cons, List.map_cons, List.sum_cons]
    rw [show a + ((v - M) * (v - M) + (l.map (fun v => (v - M) * (v - M))).sum)
      = a + (v - M) * (v - M) + (l.map (fun v => (v - M) * (v - M))).sum by ring]
    exact this


/-- A sum of integers of magnitude at most `B`. -/
theorem natAbs_sum_le {B : Nat} : ∀ (l : List Int), (∀ v ∈ l, v.natAbs ≤ B) →
    l.sum.natAbs ≤ l.length * B := by
  intro l
  induction l with
  | nil => intro _; simp
  | cons v l ih =>
    intro h
    have hv := h v (List.mem_cons_self _ _)
    have hl := ih (fun w hw => h w (List.mem_cons_of_mem _ hw))
    simp only [List.sum_cons, List.length_cons]
    have : (l.length + 1) * B = l.length * B + B := by ring
    have := Int.natAbs_add_le v l.sum
    omega

/-- A sum of squares is not negative. -/
theorem sum_sq_nonneg (M : Int) : ∀ (l : List Int),
    0 ≤ (l.map (fun v => (v - M) * (v - M))).sum := by
  intro l
  induction l with
  | nil => simp
  | cons v l ih =>
    simp only [List.map_cons, List.sum_cons]
    have := mul_self_nonneg (v - M)
    omega

/-- The value `mean_and_std` returns for a non-empty vector. -/
theorem mean_and_std_eq (d : List Int) (hne : d ≠ []) :
    mean_and_std d = .ok
      (F64.div (d.foldl (fun acc v => F64.add acc (F64.ofInt v)) F64.zero) (F64.ofInt d.length),
        F64.sqrt (F64.div
          (d.foldl (fun variance value => F64.add variance
            (F64.mul
              (F64.sub (F64.ofInt value)
                (F64.div (d.foldl (fun acc v => F64.add acc (F64.ofInt v)) F64.zero)
                  (F64.ofInt d.length)))
              (F64.sub (F64.ofInt value)
                (F64.div (d.foldl (fun acc v => F64.add acc (F64.ofInt v)) F64.zero)
                  (F64.ofInt d.length))))) F64.zero)
          (F64.ofInt d.length))) := by
  unfold mean_and_std
  have : d.isEmpty = false := by
    cases d with
    | nil => exact absurd rfl hne
    | cons _ _ => rfl
  rw [this]
  rfl

/-- The exact regime of `mean_and_std`: an integer mean `M`, elements of
magnitude at most `B` and deviations of magnitude at most `D`, small enough for
every partial sum to stay within `2 ^ 53`. -/
theorem mean_and_std_exact (d : List Int) (hne : d ≠ []) (M : Int) (B D : Nat)
    (hM : d.sum = M * d.length) (hB : ∀ x ∈ d, x.natAbs ≤ B)
    (hD : ∀ x ∈ d, (x - M).natAbs ≤ D) (hnB : d.length * B ≤ 2 ^ 53)
    (hnD : d.length * (D * D) ≤ 2 ^ 53) (hn : d.length ≤ 2 ^ 53) (m v : F64)
    (hm : m = F64.div (d.foldl (fun acc x => F64.add acc (F64.ofInt x)) F64.zero)
      (F64.ofInt d.length))
    (hv : v = F64.div (d.foldl (fun acc x => F64.add acc
        (F64.mul (F64.sub (F64.ofInt x) m) (F64.sub (F64.ofInt x) m))) F64.zero)
      (F64.ofInt d.length)) :
    m.isFinite = true ∧ F64.toRat m = (d.sum : ℚ) / d.length
      ∧ v.isFinite = true
      ∧ F64.ext v = F64.ext (F64.round false
          ((d.map (fun x => (x - M) * (x - M))).sum).natAbs d.length) := by
  have hlen : 0 < d.length := List.length_pos.mpr hne
  have hlenq : (0 : ℚ) < (d.length : ℚ) := by exact_mod_cast hlen
  have hB1 : B ≤ 2 ^ 53 := by
    have : B ≤ d.length * B := Nat.le_mul_of_pos_left _ hlen
    omega
  obtain ⟨fn, en⟩ := F64.ofInt_small (i := (d.length : Int)) (by omega)
  have en' : F64.ext (F64.ofInt (d.length : Int)) = (d.length : ℚ) := by rw [en]; simp
  have hn0 : F64.ext (F64.ofInt (d.length : Int)) ≠ 0 := by rw [en']; exact ne_of_gt hlenq
  have hz : F64.ext F64.zero = ((0 : Int) : ℚ) := by simp [F64.zero, F64.ext]
  -- the mean
  obtain ⟨fs, es⟩ := accumulate_exact d F64.zero 0 rfl hz hB (by simpa using hnB)
  rw [zero_add] at es
  have hsum := natAbs_sum_le d hB
  have hM53 : M.natAbs ≤ 2 ^ 53 := by
    have h1 : d.sum.natAbs = M.natAbs * d.length := by
      rw [hM, Int.natAbs_mul, Int.natAbs_ofNat]
    have h2 : M.natAbs ≤ M.natAbs * d.length := Nat.le_mul_of_pos_right _ hlen
    omega
  obtain ⟨fm, em⟩ := F64.div_exact fs fn hn0 (z := M)
    (by rw [es, en', hM]; push_cast; field_simp) hM53
  rw [← hm] at fm em
  refine ⟨fm, ?_, ?_⟩
  · rw [F64.toRat_eq_ext fm, em, hM]; push_cast; field_simp
  -- the variance
  have hD' : (d.length : Nat) * (D * D) ≤ 2 ^ 53 := hnD
  obtain ⟨fq, eq⟩ := variance_exact (D := D) fm em d F64.zero 0 rfl hz (le_refl _)
    (fun x hx => le_trans (hB x hx) hB1) hD (by simpa using hnD)
  rw [zero_add] at eq
  have hS0 := sum_sq_nonneg M d
  generalize hS : (d.map (fun x => (x - M) * (x - M))).sum = S at eq hS0
  obtain ⟨s, n, k, hk, hdiv, hsv⟩ := F64.div_round_form fq fn hn0
  rw [← hv] at hdiv
  rw [eq, en'] at hsv
  have hSq : ((S.natAbs : Nat) : ℚ) = (S : ℚ) := by
    have : ((S.natAbs : Nat) : Int) = S := by omega
    rw [← Int.cast_natCast, this]
  have hval : F64.sgn false * (((S.natAbs : Nat) : ℚ) / (d.length : ℚ))
      = F64.sgn s * ((n : ℚ) / (k : ℚ)) := by
    rw [hsv, hSq]; simp [F64.sgn]
  rw [hdiv]
  refine ⟨?_, le_antisymm ?_ ?_⟩
  · have hS53 : S.natAbs ≤ 2 ^ 53 := by
      have h1 := natAbs_sum_le (B := D * D) (d.map (fun x => (x - M) * (x - M)))
        (by
          intro w hw
          obtain ⟨x, hx, rfl⟩ := List.mem_map.mp hw
          rw [Int.natAbs_mul]
          exact Nat.mul_le_mul (hD x hx) (hD x hx))
      rw [hS, List.length_map] at h1
      omega
    have hSn : (S : ℚ) / (d.length : ℚ) ≤ (S : ℚ) := by
      have h0 : (0 : ℚ) ≤ (S : ℚ) := by exact_mod_cast hS0
      have h1 : (1 : ℚ) ≤ (d.length : ℚ) := by exact_mod_cast hlen
      exact div_le_self h0 h1
    have h0' : ((0 : Int) : ℚ) ≤ (S : ℚ) / (d.length : ℚ) := by
      have h0 : (0 : ℚ) ≤ (S : ℚ) := by exact_mod_cast hS0
      rw [Int.cast_zero]
      positivity
    exact (@F64.round_int_bounds s n k hk 0 S (by decide) hS53 (by rw [hsv]; exact h0')
      (by rw [hsv]; exact hSn)).1
  · exact F64.ext_round_mono _ _ hk hlen (le_of_eq hval.symm)
  · exact F64.ext_round_mono _ _ hlen hk (le_of_eq hval)


namespace F64

/-- Rounding to nearest is within half a unit of the quotient. -/
theorem rne_half (n d : Nat) (hd : 0 < d) :
    2 * (roundNearestEven n d * d) ≤ 2 * n + d ∧ 2 * n ≤ 2 * (roundNearestEven n d * d) + d := by
  have h := Nat.div_add_mod n d
  have hr := Nat.mod_lt n hd
  unfold roundNearestEven
  simp only
  generalize n / d = q at h ⊢
  generalize n % d = r at h hr ⊢
  have e1 : (q + 1) * d = d * q + d := by ring
  have e2 : q * d = d * q := by ring
  split_ifs <;> (first | rw [e1] | rw [e2]) <;> omega


/-- The sign factor does not change the magnitude. -/
theorem abs_sgn_mul (s : Bool) (x : ℚ) : |sgn s * x| = |x| := by
  cases s <;> simp [sgn]

/-- The significand and exponent `round` works with, in the normal range: the
value before the cap is within half a unit in the last place of the quotient,
and the unit is at most `2 ^ -52` times the quotient. -/
theorem rmant_near {n d : Nat} (hn : 0 < n) (hd : 0 < d)
    (hlo : (d : ℚ) * (2 : ℚ) ^ (-1022 : Int) ≤ n) :
    rexp n d = ilog2 n d - 52
      ∧ |(rmant n d : ℚ) * (2 : ℚ) ^ (rexp n d) - (n : ℚ) / d| ≤ (2 : ℚ) ^ (rexp n d) / 2
      ∧ (2 : ℚ) ^ (rexp n d) / 2 ≤ 1 / 2 ^ 53 * ((n : ℚ) / d) := by
  have hdq : (0 : ℚ) < d := by exact_mod_cast hd
  obtain ⟨l1, l2⟩ := ilog2_spec hn hd
  have hL : -1022 ≤ ilog2 n d := by
    by_contra hc
    have h1 : ilog2 n d + 1 ≤ -1022 := by omega
    have h2 := two_zpow_le h1
    have h3 : (d : ℚ) * (2 : ℚ) ^ (ilog2 n d + 1) ≤ (d : ℚ) * (2 : ℚ) ^ (-1022 : Int) :=
      mul_le_mul_of_nonneg_left h2 (le_of_lt hdq)
    linarith
  have hre : rexp n d = ilog2 n d - 52 := by
    unfold rexp
    exact max_eq_left (by omega)
  refine ⟨hre, ?_, ?_⟩
  · have hp : (0 : ℚ) < ((pow2n (-(rexp n d)) : Nat) : ℚ) := by
      exact_mod_cast pow2n_pos _
    have he : (0 : ℚ) < (2 : ℚ) ^ (rexp n d) := two_zpow_pos _
    obtain ⟨r1, r2⟩ := rne_half (n * pow2n (-(rexp n d))) (d * pow2n (rexp n d))
      (Nat.mul_pos hd (pow2n_pos _))
    have r1q : (2 : ℚ) * ((rmant n d : ℚ) * ((d : ℚ) * ((2 : ℚ) ^ (rexp n d)
        * ((pow2n (-(rexp n d)) : Nat) : ℚ))))
        ≤ 2 * ((n : ℚ) * ((pow2n (-(rexp n d)) : Nat) : ℚ))
          + (d : ℚ) * ((2 : ℚ) ^ (rexp n d) * ((pow2n (-(rexp n d)) : Nat) : ℚ)) := by
      have := (Nat.cast_le (α := ℚ)).mpr r1
      push_cast at this
      rw [pow2n_cast (rexp n d)] at this
      exact this
    have r2q : (2 : ℚ) * ((n : ℚ) * ((pow2n (-(rexp n d)) : Nat) : ℚ))
        ≤ 2 * ((rmant n d : ℚ) * ((d : ℚ) * ((2 : ℚ) ^ (rexp n d)
          * ((pow2n (-(rexp n d)) : Nat) : ℚ))))
          + (d : ℚ) * ((2 : ℚ) ^ (rexp n d) * ((pow2n (-(rexp n d)) : Nat) : ℚ)) := by
      have := (Nat.cast_le (α := ℚ)).mpr r2
      push_cast at this
      rw [pow2n_cast (rexp n d)] at this
      exact this
    generalize ((pow2n (-(rexp n d)) : Nat) : ℚ) = p at hp r1q r2q
    generalize (2 : ℚ) ^ (rexp n d) = E at he r1q r2q ⊢
    generalize (rmant n d : ℚ) = M at r1q r2q ⊢
    have a1 : 2 * (M * (d * E)) ≤ 2 * n + d * E := by
      have : (2 * (M * (d * E))) * p ≤ (2 * n + d * E) * p := by nlinarith
      exact le_of_mul_le_mul_right this hp
    have a2 : 2 * (n : ℚ) ≤ 2 * (M * (d * E)) + d * E := by
      have : (2 * (n : ℚ)) * p ≤ (2 * (M * (d * E)) + d * E) * p := by nlinarith
      exact le_of_mul_le_mul_right this hp
    rw [abs_le]
    constructor
    · rw [le_sub_iff_add_le, ← sub_eq_neg_add, sub_le_iff_le_add, div_le_iff₀ hdq]
      nlinarith
    · rw [sub_le_iff_le_add, ← sub_le_iff_le_add', le_div_iff₀ hdq]
      nlinarith
  · rw [hre, show ilog2 n d - 52 = ilog2 n d + (-52) by ring, two_zpow_add]
    have : (2 : ℚ) ^ (ilog2 n d) ≤ (n : ℚ) / d := by
      rw [le_div_iff₀ hdq]; linarith
    have e52 : (2 : ℚ) ^ (-52 : Int) / 2 = 1 / 2 ^ 53 := by norm_num
    calc (2 : ℚ) ^ (ilog2 n d) * (2 : ℚ) ^ (-52 : Int) / 2
        = 1 / 2 ^ 53 * (2 : ℚ) ^ (ilog2 n d) := by rw [mul_div_assoc, e52]; ring
      _ ≤ 1 / 2 ^ 53 * ((n : ℚ) / d) := by
        apply mul_le_mul_of_nonneg_left this; positivity


/-- Rounding in the normal range: the result is finite, within the relative
error `2 ^ -53` of the quotient, and an integer multiple of `2 ^ (g - 52)` when
the quotient is at least `2 ^ g`. -/
theorem round_rel (s : Bool) {n d : Nat} (hn : 0 < n) (hd : 0 < d)
    (hlo : (d : ℚ) * (2 : ℚ) ^ (-1022 : Int) ≤ n) (hhi : (n : ℚ) ≤ (d : ℚ) * (2 : ℚ) ^ (1000 : Int)) :
    (round s n d).isFinite = true
      ∧ |ext (round s n d) - sgn s * ((n : ℚ) / d)| ≤ 1 / 2 ^ 53 * ((n : ℚ) / d)
      ∧ ∀ g : Int, -1022 ≤ g → (d : ℚ) * (2 : ℚ) ^ g ≤ n →
          ∃ K : Int, ext (round s n d) = (K : ℚ) * (2 : ℚ) ^ (g - 52) := by
  have hdq : (0 : ℚ) < d := by exact_mod_cast hd
  obtain ⟨l1, l2⟩ := ilog2_spec hn hd
  obtain ⟨hre, hnear, hulp⟩ := rmant_near hn hd hlo
  have hL : ilog2 n d ≤ 1000 := by
    by_contra hc
    have h1 : (1000 : Int) + 1 ≤ ilog2 n d := by omega
    have h2 := two_zpow_le h1
    have h3 : (2 : ℚ) ^ (1000 : Int) < (2 : ℚ) ^ ((1000 : Int) + 1) :=
      zpow_lt_zpow_right₀ (by norm_num) (by norm_num)
    have h4 : (d : ℚ) * (2 : ℚ) ^ (1000 : Int) < (d : ℚ) * (2 : ℚ) ^ (ilog2 n d) :=
      mul_lt_mul_of_pos_left (lt_of_lt_of_le h3 h2) hdq
    linarith
  have hfin : (round s n d).isFinite = true := by
    apply round_isFinite s hd
    have h3 : (2 : ℚ) ^ (1000 : Int) < (2 : ℚ) ^ (1023 : Int) :=
      zpow_lt_zpow_right₀ (by norm_num) (by norm_num)
    have := mul_lt_mul_of_pos_left h3 hdq
    linarith
  have hM := rmant_le hn hd
  have hcap : (rmant n d : ℚ) * (2 : ℚ) ^ (rexp n d) ≤ (2 : ℚ) ^ (1024 : Int) := by
    have hMq : (rmant n d : ℚ) ≤ (2 : ℚ) ^ (53 : Int) := by
      have e : (2 : ℚ) ^ (53 : Int) = ((2 ^ 53 : Nat) : ℚ) := two_zpow_nat 53
      rw [e]; exact_mod_cast hM
    have he : (2 : ℚ) ^ (rexp n d) ≤ (2 : ℚ) ^ (948 : Int) := two_zpow_le (by omega)
    calc (rmant n d : ℚ) * (2 : ℚ) ^ (rexp n d)
        ≤ (2 : ℚ) ^ (53 : Int) * (2 : ℚ) ^ (948 : Int) :=
          mul_le_mul hMq he (le_of_lt (two_zpow_pos _)) (le_of_lt (two_zpow_pos _))
      _ = (2 : ℚ) ^ ((53 : Int) + 948) := (two_zpow_add _ _).symm
      _ ≤ (2 : ℚ) ^ (1024 : Int) := two_zpow_le (by norm_num)
  have hext : ext (round s n d) = sgn s * ((rmant n d : ℚ) * (2 : ℚ) ^ (rexp n d)) := by
    rw [ext_round s n d hd, min_eq_left hcap]
  refine ⟨hfin, ?_, ?_⟩
  · rw [hext, ← mul_sub, abs_sgn_mul]
    exact le_trans hnear hulp
  · intro g hg1 hg2
    have hgL : g ≤ ilog2 n d := by
      by_contra hc
      have h1 : ilog2 n d + 1 ≤ g := by omega
      have h2 := two_zpow_le h1
      have := mul_le_mul_of_nonneg_left h2 (le_of_lt hdq)
      linarith
    have hk : 0 ≤ rexp n d - (g - 52) := by omega
    refine ⟨(if s then -1 else 1) * ((rmant n d * pow2n (rexp n d - (g - 52)) : Nat) : Int), ?_⟩
    rw [hext]
    have hp : ((pow2n (rexp n d - (g - 52)) : Nat) : ℚ) * (2 : ℚ) ^ (g - 52)
        = (2 : ℚ) ^ (rexp n d) := by
      rw [pow2n_of_nonneg hk, ← two_zpow_add]; congr 1; ring
    push_cast
    cases s
    · simp only [sgn, Bool.false_eq_true, if_false]
      linear_combination (-(rmant n d : ℚ)) * hp
    · simp only [sgn, if_true]
      linear_combination ((rmant n d : ℚ)) * hp

/-- Rounding of a value that is zero or in the normal range. -/
theorem round_val (s : Bool) {n d : Nat} (hd : 0 < d) {val : ℚ}
    (hv : sgn s * ((n : ℚ) / d) = val)
    (hr : val = 0 ∨ ((2 : ℚ) ^ (-1022 : Int) ≤ |val| ∧ |val| ≤ (2 : ℚ) ^ (1000 : Int))) :
    (round s n d).isFinite = true
      ∧ |ext (round s n d) - val| ≤ 1 / 2 ^ 53 * |val|
      ∧ ∀ g : Int, -1022 ≤ g → (2 : ℚ) ^ g ≤ |val| →
          ∃ K : Int, ext (round s n d) = (K : ℚ) * (2 : ℚ) ^ (g - 52) := by
  have hdq : (0 : ℚ) < d := by exact_mod_cast hd
  have habs : |val| = (n : ℚ) / d := by
    rw [← hv, abs_sgn_mul, abs_of_nonneg (by positivity)]
  rcases Nat.eq_zero_or_pos n with h0 | hn
  · subst h0
    have hval : val = 0 := by rw [← hv]; simp
    have hr0 : round s 0 d = fin s 0 0 := by rw [round_eq]; simp
    rw [hr0, hval]
    refine ⟨rfl, by simp [ext], ?_⟩
    intro g _ hg
    exfalso
    rw [abs_zero] at hg
    exact absurd hg (not_le.mpr (two_zpow_pos g))
  · have hne : val ≠ 0 := by
      intro h
      rw [h, abs_zero] at habs
      have : (0 : ℚ) < (n : ℚ) / d := by positivity
      linarith
    rcases hr with h | ⟨h1, h2⟩
    · exact absurd h hne
    · rw [habs] at h1 h2
      obtain ⟨f, r, g⟩ := round_rel s hn hd ((le_div_iff₀ hdq).mp h1 |> fun h => by linarith)
        ((div_le_iff₀ hdq).mp h2 |> fun h => by linarith)
      refine ⟨f, ?_, ?_⟩
      · rw [habs, ← hv]; exact r
      · intro k hk1 hk2
        rw [habs] at hk2
        exact g k hk1 (by have := (le_div_iff₀ hdq).mp hk2; linarith)


/-- A difference of finite doubles is the exact difference, rounded. -/
theorem sub_val {a b : F64} (ha : a.isFinite = true) (hb : b.isFinite = true) {w : ℚ}
    (hv : ext a - ext b = w) (hr : InRange w) : Rounds (sub a b) w := by
  by_cases h0 : ext a - ext b = 0
  · obtain ⟨s, hs⟩ := sub_zero_form ha hb h0
    have hval : w = 0 := by rw [← hv, h0]
    rw [hs, hval]
    refine ⟨rfl, by simp [ext], ?_⟩
    intro g _ hg
    exfalso
    rw [abs_zero] at hg
    exact absurd hg (not_le.mpr (two_zpow_pos g))
  · obtain ⟨s, n, d, hd, hsub, hsv⟩ := sub_round_form ha hb h0
    rw [hsub]
    exact round_val s hd (hsv.trans hv) hr

/-- A sum of finite doubles is the exact sum, rounded. -/
theorem add_val {a b : F64} (ha : a.isFinite = true) (hb : b.isFinite = true) {w : ℚ}
    (hv : ext a + ext b = w) (hr : InRange w) : Rounds (add a b) w := by
  have h := sub_val (a := a) (b := neg b) ha (by rw [neg_isFinite]; exact hb)
    (w := w) (by rw [ext_neg]; linarith) hr
  unfold sub at h
  rwa [neg_neg_eq] at h

/-- A product of finite doubles is the exact product, rounded. -/
theorem mul_val {a b : F64} (ha : a.isFinite = true) (hb : b.isFinite = true) {w : ℚ}
    (hv : ext a * ext b = w) (hr : InRange w) : Rounds (mul a b) w := by
  obtain ⟨s, n, d, hd, hmul, hsv⟩ := mul_round_form ha hb
  rw [hmul]
  exact round_val s hd (hsv.trans hv) hr

/-- A quotient of finite doubles is the exact quotient, rounded. -/
theorem div_val {a b : F64} (ha : a.isFinite = true) (hb : b.isFinite = true)
    (hb0 : ext b ≠ 0) {w : ℚ} (hv : ext a / ext b = w) (hr : InRange w) :
    Rounds (div a b) w := by
  obtain ⟨s, n, d, hd, hdiv, hsv⟩ := div_round_form ha hb hb0
  rw [hdiv]
  exact round_val s hd (hsv.trans hv) hr

/-- A rounded non-negative value lies between `(1 - 2 ^ -53)` and
`(1 + 2 ^ -53)` times the value. -/
theorem Rounds.bounds {x : F64} {val : ℚ} (h : Rounds x val) (h0 : 0 ≤ val) :
    (1 - 1 / 2 ^ 53) * val ≤ ext x ∧ ext x ≤ (1 + 1 / 2 ^ 53) * val := by
  obtain ⟨_, hr, _⟩ := h
  rw [abs_of_nonneg h0, abs_le] at hr
  constructor <;> linarith [hr.1, hr.2]

end F64

/-- Up to `2 ^ 52 + 4` roundings lose less than a factor of four. -/
theorem pow_half_bound (j : Nat) (hj : j ≤ 2 ^ 52 + 4) :
    (1 / 4 : ℚ) ≤ (1 - 1 / 2 ^ 53) ^ j := by
  have hb := one_add_mul_le_pow (show (-2 : ℚ) ≤ -(1 / 2 ^ 53) by norm_num) j
  have e : (1 : ℚ) + -(1 / 2 ^ 53) = 1 - 1 / 2 ^ 53 := by ring
  rw [e] at hb
  have hjq : (j : ℚ) ≤ 2 ^ 52 + 4 := by exact_mod_cast hj
  have : (1 / 4 : ℚ) ≤ 1 + (j : ℚ) * -(1 / 2 ^ 53) := by
    have : (j : ℚ) * (1 / 2 ^ 53) ≤ (2 ^ 52 + 4) * (1 / 2 ^ 53) :=
      mul_le_mul_of_nonneg_right hjq (by positivity)
    have e2 : ((2 : ℚ) ^ 52 + 4) * (1 / 2 ^ 53) ≤ 3 / 4 := by norm_num
    linarith
  linarith

/-- Up to `2 ^ 53 + 8` roundings change a value by less than a factor of
sixteen. -/
theorem pow_bounds (j : Nat) (hj : j ≤ 2 ^ 53 + 8) :
    (1 / 16 : ℚ) ≤ (1 - 1 / 2 ^ 53) ^ j ∧ ((1 : ℚ) + 1 / 2 ^ 53) ^ j ≤ 16 := by
  have h1 := pow_half_bound (j / 2) (by omega)
  have h2 := pow_half_bound (j - j / 2) (by omega)
  have hsplit : (1 - 1 / 2 ^ 53 : ℚ) ^ j = (1 - 1 / 2 ^ 53) ^ (j / 2) * (1 - 1 / 2 ^ 53) ^ (j - j / 2) := by
    rw [← pow_add]; congr 1; omega
  have hlow : (1 / 16 : ℚ) ≤ (1 - 1 / 2 ^ 53) ^ j := by
    rw [hsplit]
    have : (1 / 4 : ℚ) * (1 / 4) ≤ (1 - 1 / 2 ^ 53) ^ (j / 2) * (1 - 1 / 2 ^ 53) ^ (j - j / 2) :=
      mul_le_mul h1 h2 (by norm_num) (le_trans (by norm_num) h1)
    linarith
  refine ⟨hlow, ?_⟩
  have hprod : ((1 : ℚ) + 1 / 2 ^ 53) ^ j * (1 - 1 / 2 ^ 53) ^ j ≤ 1 := by
    rw [← mul_pow]
    apply pow_le_one₀ (by norm_num) (by norm_num)
  have hpos : (0 : ℚ) ≤ (1 + 1 / 2 ^ 53) ^ j := by positivity
  nlinarith

/-- The mean of integers of magnitude at most `B` has magnitude at most `B`. -/
theorem exactMean_abs_le {d : List Int} {B : Nat} (hne : d ≠ [])
    (hB : ∀ x ∈ d, x.natAbs ≤ B) : |exactMean d| ≤ (B : ℚ) := by
  have hlen : 0 < d.length := List.length_pos.mpr hne
  have hlenq : (0 : ℚ) < (d.length : ℚ) := by exact_mod_cast hlen
  have h := natAbs_sum_le d hB
  have hq : |(d.sum : ℚ)| ≤ (d.length : ℚ) * (B : ℚ) := by
    have : ((d.sum.natAbs : Nat) : ℚ) ≤ ((d.length * B : Nat) : ℚ) := by exact_mod_cast h
    rw [Nat.cast_natAbs, Int.cast_abs, Nat.cast_mul] at this
    exact this
  unfold exactMean
  rw [abs_div, abs_of_pos hlenq, div_le_iff₀ hlenq]
  linarith

/-- The mean that `mean_and_std` computes is the exact mean, rounded once. -/
theorem mean_rounds (d : List Int) (hne : d ≠ []) (B : Nat) (hB : ∀ x ∈ d, x.natAbs ≤ B)
    (hnB : d.length * B ≤ 2 ^ 53) (hn : d.length ≤ 2 ^ 53) :
    F64.Rounds (F64.div (d.foldl (fun acc x => F64.add acc (F64.ofInt x)) F64.zero)
        (F64.ofInt d.length)) (exactMean d)
      ∧ ∃ K : Int, F64.ext (F64.div (d.foldl (fun acc x => F64.add acc (F64.ofInt x)) F64.zero)
        (F64.ofInt d.length)) = (K : ℚ) * (2 : ℚ) ^ (-105 : Int) := by
  have hlen : 0 < d.length := List.length_pos.mpr hne
  have hlenq : (0 : ℚ) < (d.length : ℚ) := by exact_mod_cast hlen
  obtain ⟨fn, en⟩ := F64.ofInt_small (i := (d.length : Int)) (by omega)
  have en' : F64.ext (F64.ofInt (d.length : Int)) = (d.length : ℚ) := by rw [en]; simp
  have hn0 : F64.ext (F64.ofInt (d.length : Int)) ≠ 0 := by rw [en']; exact ne_of_gt hlenq
  have hz : F64.ext F64.zero = ((0 : Int) : ℚ) := by simp [F64.zero, F64.ext]
  obtain ⟨fs, es⟩ := accumulate_exact d F64.zero 0 rfl hz hB (by simpa using hnB)
  rw [zero_add] at es
  have hmB := exactMean_abs_le hne hB
  have hB53 : (B : ℚ) ≤ (2 : ℚ) ^ (53 : Int) := by
    have : B ≤ d.length * B := Nat.le_mul_of_pos_left _ hlen
    have h2 : B ≤ 2 ^ 53 := by omega
    have e : (2 : ℚ) ^ (53 : Int) = ((2 ^ 53 : Nat) : ℚ) := F64.two_zpow_nat 53
    rw [e]; exact_mod_cast h2
  have hlow : exactMean d ≠ 0 → (2 : ℚ) ^ (-53 : Int) ≤ |exactMean d| := by
    intro hne0
    have hS : d.sum ≠ 0 := by
      intro h
      apply hne0
      unfold exactMean
      rw [h]; simp
    have h1 : (1 : ℚ) ≤ |(d.sum : ℚ)| := by
      have : (1 : Int) ≤ |d.sum| := Int.one_le_abs hS
      exact_mod_cast this
    have hlen53 : (d.length : ℚ) ≤ (2 : ℚ) ^ (53 : Int) := by
      have e : (2 : ℚ) ^ (53 : Int) = ((2 ^ 53 : Nat) : ℚ) := F64.two_zpow_nat 53
      rw [e]; exact_mod_cast hn
    unfold exactMean
    rw [abs_div, abs_of_pos hlenq, le_div_iff₀ hlenq]
    have e : (2 : ℚ) ^ (-53 : Int) * (2 : ℚ) ^ (53 : Int) = 1 := by
      rw [← F64.two_zpow_add]; norm_num
    have : (2 : ℚ) ^ (-53 : Int) * (d.length : ℚ) ≤ (2 : ℚ) ^ (-53 : Int) * (2 : ℚ) ^ (53 : Int) :=
      mul_le_mul_of_nonneg_left hlen53 (le_of_lt (F64.two_zpow_pos _))
    linarith
  have hr : F64.InRange (exactMean d) := by
    by_cases h0 : exactMean d = 0
    · exact Or.inl h0
    · right
      refine ⟨le_trans (F64.two_zpow_le (by norm_num)) (hlow h0), ?_⟩
      exact le_trans hmB (le_trans hB53 (F64.two_zpow_le (by norm_num)))
  have hR := F64.div_val fs fn hn0 (w := exactMean d) (by rw [es, en']; rfl) hr
  refine ⟨hR, ?_⟩
  by_cases h0 : exactMean d = 0
  · refine ⟨0, ?_⟩
    have := hR.2.1
    rw [h0, abs_zero, mul_zero, sub_zero] at this
    have : F64.ext (F64.div (d.foldl (fun acc x => F64.add acc (F64.ofInt x)) F64.zero)
        (F64.ofInt d.length)) = 0 := abs_eq_zero.mp (le_antisymm this (abs_nonneg _))
    rw [this]; simp
  · obtain ⟨K, hK⟩ := hR.2.2 (-53) (by norm_num) (hlow h0)
    exact ⟨K, by rw [hK]; norm_num⟩

/-- A deviation from a mean that is a multiple of `2 ^ -105` is zero or at
least `2 ^ -105` in magnitude. -/
theorem dev_range {mm : ℚ} (hK : ∃ K : Int, mm = (K : ℚ) * (2 : ℚ) ^ (-105 : Int))
    (hmB : |mm| ≤ (2 : ℚ) ^ (54 : Int)) (x : Int) (hx : x.natAbs ≤ 2 ^ 53) :
    (x : ℚ) - mm = 0
      ∨ ((2 : ℚ) ^ (-105 : Int) ≤ |(x : ℚ) - mm| ∧ |(x : ℚ) - mm| ≤ (2 : ℚ) ^ (55 : Int)) := by
  obtain ⟨K, hK⟩ := hK
  have e105 : (2 : ℚ) ^ (105 : Int) * (2 : ℚ) ^ (-105 : Int) = 1 := by
    rw [← F64.two_zpow_add]; norm_num
  have ht : (x : ℚ) - mm = ((x * 2 ^ 105 - K : Int) : ℚ) * (2 : ℚ) ^ (-105 : Int) := by
    have hc : ((x * 2 ^ 105 - K : Int) : ℚ) = (x : ℚ) * (2 : ℚ) ^ (105 : Int) - (K : ℚ) := by
      push_cast; norm_num
    rw [hK, hc]
    linear_combination (-(x : ℚ)) * e105
  by_cases hJ : x * 2 ^ 105 - K = 0
  · left; rw [ht, hJ]; simp
  · right
    constructor
    · rw [ht, abs_mul, abs_of_pos (F64.two_zpow_pos _)]
      have : (1 : ℚ) ≤ |((x * 2 ^ 105 - K : Int) : ℚ)| := by
        have := Int.one_le_abs hJ
        exact_mod_cast this
      have hp := F64.two_zpow_pos (-105)
      nlinarith
    · have hxq : |(x : ℚ)| ≤ (2 : ℚ) ^ (53 : Int) := by
        have e : (2 : ℚ) ^ (53 : Int) = ((2 ^ 53 : Nat) : ℚ) := F64.two_zpow_nat 53
        rw [e]
        have : ((x.natAbs : Nat) : ℚ) ≤ ((2 ^ 53 : Nat) : ℚ) := by exact_mod_cast hx
        rwa [Nat.cast_natAbs, Int.cast_abs] at this
      have h1 := abs_sub (x : ℚ) mm
      have e1 : (2 : ℚ) ^ (53 : Int) + (2 : ℚ) ^ (54 : Int) ≤ (2 : ℚ) ^ (55 : Int) := by norm_num
      linarith

/-- One term of the variance loop: the squared deviation, within three
roundings. -/
theorem term_bounds {m : F64} {mm : ℚ} (hm : m.isFinite = true) (hmm : F64.ext m = mm)
    (hK : ∃ K : Int, mm = (K : ℚ) * (2 : ℚ) ^ (-105 : Int))
    (hmB : |mm| ≤ (2 : ℚ) ^ (54 : Int)) (x : Int) (hx : x.natAbs ≤ 2 ^ 53) :
    (F64.mul (F64.sub (F64.ofInt x) m) (F64.sub (F64.ofInt x) m)).isFinite = true
      ∧ (1 - 1 / 2 ^ 53) ^ 3 * ((x : ℚ) - mm) ^ 2
          ≤ F64.ext (F64.mul (F64.sub (F64.ofInt x) m) (F64.sub (F64.ofInt x) m))
      ∧ F64.ext (F64.mul (F64.sub (F64.ofInt x) m) (F64.sub (F64.ofInt x) m))
          ≤ (1 + 1 / 2 ^ 53) ^ 3 * ((x : ℚ) - mm) ^ 2 := by
  obtain ⟨fv, ev⟩ := F64.ofInt_small (i := x) hx
  have hd := dev_range hK hmB x hx
  generalize ht : (x : ℚ) - mm = t at hd ⊢
  have hu0 : (0 : ℚ) ≤ 1 / 2 ^ 53 := by positivity
  have hu1 : (1 / 2 ^ 53 : ℚ) ≤ 1 / 2 := by norm_num
  have hrt : F64.InRange t := by
    rcases hd with h | ⟨h1, h2⟩
    · exact Or.inl h
    · exact Or.inr ⟨le_trans (F64.two_zpow_le (by norm_num)) h1,
        le_trans h2 (F64.two_zpow_le (by norm_num))⟩
  have R1 := F64.sub_val fv hm (w := t) (by rw [ev, hmm, ht]) hrt
  generalize F64.sub (F64.ofInt x) m = e at R1 ⊢
  obtain ⟨fe, he, _⟩ := R1
  generalize hu : (1 / 2 ^ 53 : ℚ) = u at he hu0 hu1 ⊢
  -- the magnitude of the rounded deviation
  have ha1 : (1 - u) * |t| ≤ |F64.ext e| := by
    have := abs_sub_abs_le_abs_sub t (F64.ext e)
    rw [abs_sub_comm] at this
    linarith
  have ha2 : |F64.ext e| ≤ (1 + u) * |t| := by
    have := abs_sub_abs_le_abs_sub (F64.ext e) t
    linarith
  have hsq1 : (1 - u) ^ 2 * t ^ 2 ≤ F64.ext e * F64.ext e := by
    have h0 : 0 ≤ (1 - u) * |t| := mul_nonneg (by linarith) (abs_nonneg _)
    have := mul_self_le_mul_self h0 ha1
    rw [abs_mul_abs_self] at this
    have e2 : (1 - u) * |t| * ((1 - u) * |t|) = (1 - u) ^ 2 * t ^ 2 := by
      rw [← sq_abs t]; ring
    linarith
  have hsq2 : F64.ext e * F64.ext e ≤ (1 + u) ^ 2 * t ^ 2 := by
    have := mul_self_le_mul_self (abs_nonneg _) ha2
    rw [abs_mul_abs_self] at this
    have e2 : (1 + u) * |t| * ((1 + u) * |t|) = (1 + u) ^ 2 * t ^ 2 := by
      rw [← sq_abs t]; ring
    linarith
  have hsq0 : 0 ≤ F64.ext e * F64.ext e := mul_self_nonneg _
  have hrs : F64.InRange (F64.ext e * F64.ext e) := by
    rcases hd with h | ⟨h1, h2⟩
    · left
      rw [h] at hsq2
      have : F64.ext e * F64.ext e ≤ 0 := by simpa using hsq2
      exact le_antisymm this hsq0
    · right
      rw [abs_of_nonneg hsq0]
      have ht2 : ((2 : ℚ) ^ (-105 : Int)) ^ 2 ≤ t ^ 2 := by
        rw [← sq_abs t]
        exact pow_le_pow_left₀ (le_of_lt (F64.two_zpow_pos _)) h1 2
      have ht3 : t ^ 2 ≤ ((2 : ℚ) ^ (55 : Int)) ^ 2 := by
        rw [← sq_abs t]
        exact pow_le_pow_left₀ (abs_nonneg _) h2 2
      have hq1 : (1 / 4 : ℚ) ≤ (1 - u) ^ 2 := by nlinarith
      have hq2 : (1 + u) ^ 2 ≤ (4 : ℚ) := by nlinarith
      have t0 : (0 : ℚ) ≤ t ^ 2 := sq_nonneg _
      constructor
      · have e1 : (2 : ℚ) ^ (-1022 : Int) ≤ 1 / 4 * ((2 : ℚ) ^ (-105 : Int)) ^ 2 := by
          rw [← zpow_natCast, ← zpow_mul]
          have : (1 / 4 : ℚ) = (2 : ℚ) ^ (-2 : Int) := by norm_num
          rw [this, ← F64.two_zpow_add]
          exact F64.two_zpow_le (by norm_num)
        have i1 : 1 / 4 * t ^ 2 ≤ (1 - u) ^ 2 * t ^ 2 := mul_le_mul_of_nonneg_right hq1 t0
        generalize ((2 : ℚ) ^ (-105 : Int)) ^ 2 = A at ht2 e1
        generalize (2 : ℚ) ^ (-1022 : Int) = Z at e1 ⊢
        generalize (1 - u) ^ 2 * t ^ 2 = W at i1 hsq1
        linarith
      · have e1 : 4 * ((2 : ℚ) ^ (55 : Int)) ^ 2 ≤ (2 : ℚ) ^ (1000 : Int) := by
          rw [← zpow_natCast, ← zpow_mul]
          have : (4 : ℚ) = (2 : ℚ) ^ (2 : Int) := by norm_num
          rw [this, ← F64.two_zpow_add]
          exact F64.two_zpow_le (by norm_num)
        have i1 : (1 + u) ^ 2 * t ^ 2 ≤ 4 * t ^ 2 := mul_le_mul_of_nonneg_right hq2 t0
        generalize ((2 : ℚ) ^ (55 : Int)) ^ 2 = A at ht3 e1
        generalize (2 : ℚ) ^ (1000 : Int) = Z at e1 ⊢
        generalize (1 + u) ^ 2 * t ^ 2 = W at i1 hsq2
        linarith
  have R2 := F64.mul_val fe fe (w := F64.ext e * F64.ext e) rfl hrs
  obtain ⟨b1, b2⟩ := R2.bounds hsq0
  rw [hu] at b1 b2
  refine ⟨R2.1, ?_, ?_⟩
  · have h1u : 0 ≤ 1 - u := by linarith
    calc (1 - u) ^ 3 * t ^ 2 = (1 - u) * ((1 - u) ^ 2 * t ^ 2) := by ring
      _ ≤ (1 - u) * (F64.ext e * F64.ext e) := mul_le_mul_of_nonneg_left hsq1 h1u
      _ ≤ _ := b1
  · have h1u : 0 ≤ 1 + u := by linarith
    calc _ ≤ (1 + u) * (F64.ext e * F64.ext e) := b2
      _ ≤ (1 + u) * ((1 + u) ^ 2 * t ^ 2) := mul_le_mul_of_nonneg_left hsq2 h1u
      _ = (1 + u) ^ 3 * t ^ 2 := by ring


/-- One step of the variance loop keeps the accumulator within `k + 4`
roundings of the exact sum of the squared deviations. -/
theorem variance_step {m : F64} {mm : ℚ} (hm : m.isFinite = true) (hmm : F64.ext m = mm)
    (hK : ∃ K : Int, mm = (K : ℚ) * (2 : ℚ) ^ (-105 : Int))
    (hmB : |mm| ≤ (2 : ℚ) ^ (54 : Int)) (x : Int) (hx : x.natAbs ≤ 2 ^ 53)
    (acc : F64) (k : Nat) (P : ℚ) (hk : k + 1 ≤ 2 ^ 53) (fa : acc.isFinite = true)
    (hP : P = 0 ∨ (2 : ℚ) ^ (-210 : Int) ≤ P) (hPk : P ≤ (k : ℚ) * (2 : ℚ) ^ (110 : Int))
    (h1 : (1 - 1 / 2 ^ 53) ^ (k + 3) * P ≤ F64.ext acc)
    (h2 : F64.ext acc ≤ (1 + 1 / 2 ^ 53) ^ (k + 3) * P) :
    (F64.add acc (F64.mul (F64.sub (F64.ofInt x) m) (F64.sub (F64.ofInt x) m))).isFinite = true
      ∧ (P + ((x : ℚ) - mm) ^ 2 = 0 ∨ (2 : ℚ) ^ (-210 : Int) ≤ P + ((x : ℚ) - mm) ^ 2)
      ∧ P + ((x : ℚ) - mm) ^ 2 ≤ ((k + 1 : Nat) : ℚ) * (2 : ℚ) ^ (110 : Int)
      ∧ (1 - 1 / 2 ^ 53) ^ (k + 1 + 3) * (P + ((x : ℚ) - mm) ^ 2)
          ≤ F64.ext (F64.add acc
              (F64.mul (F64.sub (F64.ofInt x) m) (F64.sub (F64.ofInt x) m)))
      ∧ F64.ext (F64.add acc (F64.mul (F64.sub (F64.ofInt x) m) (F64.sub (F64.ofInt x) m)))
          ≤ (1 + 1 / 2 ^ 53) ^ (k + 1 + 3) * (P + ((x : ℚ) - mm) ^ 2) := by
  obtain ⟨ft, t1, t2⟩ := term_bounds hm hmm hK hmB x hx
  have hd := dev_range hK hmB x hx
  generalize F64.mul (F64.sub (F64.ofInt x) m) (F64.sub (F64.ofInt x) m) = term at ft t1 t2 ⊢
  have hP0 : 0 ≤ P := by
    rcases hP with h | h
    · rw [h]
    · exact le_trans (le_of_lt (F64.two_zpow_pos _)) h
  -- the squared deviation
  have hT0 : (0 : ℚ) ≤ ((x : ℚ) - mm) ^ 2 := sq_nonneg _
  have hT : ((x : ℚ) - mm) ^ 2 = 0 ∨ (2 : ℚ) ^ (-210 : Int) ≤ ((x : ℚ) - mm) ^ 2 := by
    rcases hd with h | ⟨h, _⟩
    · left; rw [h]; norm_num
    · right
      have := pow_le_pow_left₀ (le_of_lt (F64.two_zpow_pos _)) h 2
      have e : ((2 : ℚ) ^ (-105 : Int)) ^ 2 = (2 : ℚ) ^ (-210 : Int) := by
        rw [← zpow_natCast, ← zpow_mul]; norm_num
      rw [sq_abs, e] at this
      exact this
  have hT110 : ((x : ℚ) - mm) ^ 2 ≤ (2 : ℚ) ^ (110 : Int) := by
    rcases hd with h | ⟨_, h⟩
    · rw [h]; norm_num
    · have := pow_le_pow_left₀ (abs_nonneg _) h 2
      have e : ((2 : ℚ) ^ (55 : Int)) ^ 2 = (2 : ℚ) ^ (110 : Int) := by
        rw [← zpow_natCast, ← zpow_mul]; norm_num
      rw [sq_abs, e] at this
      exact this
  generalize ((x : ℚ) - mm) ^ 2 = T at t1 t2 hT0 hT hT110 ⊢
  -- the powers of the rounding factors
  obtain ⟨pl, pu⟩ := pow_bounds (k + 3) (by omega)
  have hu0 : (0 : ℚ) ≤ 1 - 1 / 2 ^ 53 := by norm_num
  have hu1 : (1 - 1 / 2 ^ 53 : ℚ) ≤ 1 := by norm_num
  have hv1 : (1 : ℚ) ≤ 1 + 1 / 2 ^ 53 := by norm_num
  have hl3 : (1 - 1 / 2 ^ 53 : ℚ) ^ (k + 3) ≤ (1 - 1 / 2 ^ 53) ^ 3 :=
    pow_le_pow_of_le_one hu0 hu1 (by omega)
  have hu3 : (1 + 1 / 2 ^ 53 : ℚ) ^ 3 ≤ (1 + 1 / 2 ^ 53) ^ (k + 3) :=
    pow_le_pow_right₀ hv1 (by omega)
  have el : (1 - 1 / 2 ^ 53 : ℚ) ^ (k + 1 + 3) = (1 - 1 / 2 ^ 53) * (1 - 1 / 2 ^ 53) ^ (k + 3) := by
    rw [show k + 1 + 3 = (k + 3) + 1 by ring, pow_succ]; ring
  have eu : (1 + 1 / 2 ^ 53 : ℚ) ^ (k + 1 + 3) = (1 + 1 / 2 ^ 53) * (1 + 1 / 2 ^ 53) ^ (k + 3) := by
    rw [show k + 1 + 3 = (k + 3) + 1 by ring, pow_succ]; ring
  rw [el, eu]
  generalize (1 - 1 / 2 ^ 53 : ℚ) ^ (k + 3) = L at h1 pl hl3 ⊢
  generalize (1 + 1 / 2 ^ 53 : ℚ) ^ (k + 3) = U at h2 pu hu3 ⊢
  generalize (1 - 1 / 2 ^ 53 : ℚ) ^ 3 = L3 at t1 hl3
  generalize (1 + 1 / 2 ^ 53 : ℚ) ^ 3 = U3 at t2 hu3
  have hL0 : 0 ≤ L := le_trans (by norm_num) pl
  have hv0 : 0 ≤ F64.ext acc + F64.ext term := by
    have a1 : 0 ≤ L * P := mul_nonneg hL0 hP0
    have a2 : 0 ≤ L3 * T := mul_nonneg (le_trans hL0 hl3) hT0
    linarith
  have hvl : L * (P + T) ≤ F64.ext acc + F64.ext term := by
    have : L * T ≤ L3 * T := mul_le_mul_of_nonneg_right hl3 hT0
    linarith
  have hvu : F64.ext acc + F64.ext term ≤ U * (P + T) := by
    have : U3 * T ≤ U * T := mul_le_mul_of_nonneg_right hu3 hT0
    linarith
  have hP1 : P + T = 0 ∨ (2 : ℚ) ^ (-210 : Int) ≤ P + T := by
    rcases hP with h | h
    · rcases hT with h' | h'
      · left; rw [h, h']; norm_num
      · right; linarith
    · right; linarith
  have hkq : ((k + 1 : Nat) : ℚ) = (k : ℚ) + 1 := by push_cast; ring
  have hP1k : P + T ≤ ((k + 1 : Nat) : ℚ) * (2 : ℚ) ^ (110 : Int) := by
    rw [hkq]; linarith
  have hk53 : ((k + 1 : Nat) : ℚ) ≤ (2 : ℚ) ^ (53 : Int) := by
    have e : (2 : ℚ) ^ (53 : Int) = ((2 ^ 53 : Nat) : ℚ) := F64.two_zpow_nat 53
    rw [e]; exact_mod_cast hk
  have hr : F64.InRange (F64.ext acc + F64.ext term) := by
    rcases hP1 with h | h
    · left
      rw [h, mul_zero] at hvu
      exact le_antisymm hvu hv0
    · right
      rw [abs_of_nonneg hv0]
      constructor
      · have e1 : (2 : ℚ) ^ (-1022 : Int) ≤ 1 / 16 * (2 : ℚ) ^ (-210 : Int) := by
          have : (1 / 16 : ℚ) = (2 : ℚ) ^ (-4 : Int) := by norm_num
          rw [this, ← F64.two_zpow_add]
          exact F64.two_zpow_le (by norm_num)
        have i1 : 1 / 16 * (P + T) ≤ L * (P + T) :=
          mul_le_mul_of_nonneg_right pl (by linarith)
        generalize (2 : ℚ) ^ (-1022 : Int) = Z at e1 ⊢
        generalize (2 : ℚ) ^ (-210 : Int) = Y at e1 h
        linarith
      · have e1 : 16 * ((2 : ℚ) ^ (53 : Int) * (2 : ℚ) ^ (110 : Int)) ≤ (2 : ℚ) ^ (1000 : Int) := by
          have : (16 : ℚ) = (2 : ℚ) ^ (4 : Int) := by norm_num
          rw [this, ← F64.two_zpow_add, ← F64.two_zpow_add]
          exact F64.two_zpow_le (by norm_num)
        have i1 : U * (P + T) ≤ 16 * (P + T) :=
          mul_le_mul_of_nonneg_right pu (by linarith)
        have i2 : ((k + 1 : Nat) : ℚ) * (2 : ℚ) ^ (110 : Int)
            ≤ (2 : ℚ) ^ (53 : Int) * (2 : ℚ) ^ (110 : Int) :=
          mul_le_mul_of_nonneg_right hk53 (le_of_lt (F64.two_zpow_pos _))
        generalize (2 : ℚ) ^ (1000 : Int) = Z at e1 ⊢
        generalize (2 : ℚ) ^ (53 : Int) * (2 : ℚ) ^ (110 : Int) = Y at e1 i2
        generalize ((k + 1 : Nat) : ℚ) * (2 : ℚ) ^ (110 : Int) = X at hP1k i2
        linarith
  have R := F64.add_val fa ft (w := F64.ext acc + F64.ext term) rfl hr
  obtain ⟨b1, b2⟩ := R.bounds hv0
  refine ⟨R.1, hP1, hP1k, ?_, ?_⟩
  · calc (1 - 1 / 2 ^ 53) * L * (P + T) = (1 - 1 / 2 ^ 53) * (L * (P + T)) := by ring
      _ ≤ (1 - 1 / 2 ^ 53) * (F64.ext acc + F64.ext term) :=
          mul_le_mul_of_nonneg_left hvl hu0
      _ ≤ _ := b1
  · calc _ ≤ (1 + 1 / 2 ^ 53) * (F64.ext acc + F64.ext term) := b2
      _ ≤ (1 + 1 / 2 ^ 53) * (U * (P + T)) :=
          mul_le_mul_of_nonneg_left hvu (le_trans (by norm_num) hv1)
      _ = (1 + 1 / 2 ^ 53) * U * (P + T) := by ring

/-- The variance loop keeps the accumulator within `k + 3` roundings of the
exact sum of the squared deviations. -/
theorem variance_bounds {m : F64} {mm : ℚ} (hm : m.isFinite = true) (hmm : F64.ext m = mm)
    (hK : ∃ K : Int, mm = (K : ℚ) * (2 : ℚ) ^ (-105 : Int))
    (hmB : |mm| ≤ (2 : ℚ) ^ (54 : Int)) : ∀ (l : List Int) (acc : F64) (k : Nat) (P : ℚ),
    (∀ x ∈ l, x.natAbs ≤ 2 ^ 53) → k + l.length ≤ 2 ^ 53 → acc.isFinite = true →
    (P = 0 ∨ (2 : ℚ) ^ (-210 : Int) ≤ P) → P ≤ (k : ℚ) * (2 : ℚ) ^ (110 : Int) →
    (1 - 1 / 2 ^ 53) ^ (k + 3) * P ≤ F64.ext acc →
    F64.ext acc ≤ (1 + 1 / 2 ^ 53) ^ (k + 3) * P →
    (l.foldl (fun variance value => F64.add variance
        (F64.mul (F64.sub (F64.ofInt value) m) (F64.sub (F64.ofInt value) m))) acc).isFinite = true
      ∧ (P + (l.map (fun x : Int => ((x : ℚ) - mm) ^ 2)).sum = 0
          ∨ (2 : ℚ) ^ (-210 : Int) ≤ P + (l.map (fun x : Int => ((x : ℚ) - mm) ^ 2)).sum)
      ∧ P + (l.map (fun x : Int => ((x : ℚ) - mm) ^ 2)).sum
          ≤ ((k + l.length : Nat) : ℚ) * (2 : ℚ) ^ (110 : Int)
      ∧ (1 - 1 / 2 ^ 53) ^ (k + l.length + 3) * (P + (l.map (fun x : Int => ((x : ℚ) - mm) ^ 2)).sum)
          ≤ F64.ext (l.foldl (fun variance value => F64.add variance
              (F64.mul (F64.sub (F64.ofInt value) m) (F64.sub (F64.ofInt value) m))) acc)
      ∧ F64.ext (l.foldl (fun variance value => F64.add variance
            (F64.mul (F64.sub (F64.ofInt value) m) (F64.sub (F64.ofInt value) m))) acc)
          ≤ (1 + 1 / 2 ^ 53) ^ (k + l.length + 3)
              * (P + (l.map (fun x : Int => ((x : ℚ) - mm) ^ 2)).sum) := by
  intro l
  induction l with
  | nil =>
    intro acc k P _ _ fa hP hPk h1 h2
    simp only [List.foldl_nil, List.map_nil, List.sum_nil, add_zero, List.length_nil]
    exact ⟨fa, hP, hPk, h1, h2⟩
  | cons x l ih =>
    intro acc k P hB hk fa hP hPk h1 h2
    simp only [List.length_cons] at hk
    obtain ⟨f', hP', hPk', h1', h2'⟩ := variance_step hm hmm hK hmB x
      (hB x (List.mem_cons_self _ _)) acc k P (by omega) fa hP hPk h1 h2
    have := ih _ (k + 1) (P + ((x : ℚ) - mm) ^ 2)
      (fun w hw => hB w (List.mem_cons_of_mem _ hw)) (by omega) f' hP' hPk' h1' h2'
    simp only [List.foldl_cons, List.map_cons, List.sum_cons, List.length_cons]
    rw [show k + (l.length + 1) = k + 1 + l.length by ring, ← add_assoc]
    exact this

namespace F64

/-- The square root of a finite double that is zero or in `[2 ^ -600, 2 ^ 600]`
is finite and not negative, and its square is within four roundings of the
argument. -/
theorem sqrt_rel (v : F64) (fv : v.isFinite = true)
    (hr : ext v = 0 ∨ ((2 : ℚ) ^ (-600 : Int) ≤ ext v ∧ ext v ≤ (2 : ℚ) ^ (600 : Int))) :
    (sqrt v).isFinite = true ∧ 0 ≤ ext (sqrt v)
      ∧ (1 - 1 / 2 ^ 53) ^ 4 * ext v ≤ ext (sqrt v) ^ 2
      ∧ ext (sqrt v) ^ 2 ≤ (1 + 1 / 2 ^ 53) ^ 4 * ext v := by
  cases v with
  | inf _ => simp [isFinite] at fv
  | nan => simp [isFinite] at fv
  | fin s m e =>
    rcases Nat.eq_zero_or_pos m with h0 | hm
    · subst h0
      have h1 : sqrt (fin s 0 e) = fin s 0 0 := by simp [sqrt]
      rw [h1]
      simp [ext, isFinite]
    · have hpos : (0 : ℚ) < (m : ℚ) * (2 : ℚ) ^ e :=
        mul_pos (by exact_mod_cast hm) (two_zpow_pos e)
      cases s with
      | true =>
        exfalso
        have hx : ext (fin true m e) = -((m : ℚ) * (2 : ℚ) ^ e) := by
          simp only [ext, sgn_true]; ring
        rw [hx] at hr
        rcases hr with h | ⟨h, _⟩
        · linarith
        · have := two_zpow_pos (-600)
          linarith
      | false =>
        have hx : ext (fin false m e) = toRat (fin false m e) := (toRat_eq_ext fv).symm
        have hx0 : 0 < ext (fin false m e) := by
          simp only [ext, sgn_false, one_mul]; exact hpos
        obtain ⟨r, k, st, hs, hst, hr53, b1, b2, _⟩ := sqrt_bracket m e hm
        rw [← hx] at b1 b2
        rcases hr with h | ⟨hlo, hhi⟩
        · linarith
        generalize ext (fin false m e) = x at hx0 b1 b2 hlo hhi ⊢
        rw [hs]
        have hq : (0 : ℚ) < (2 : ℚ) ^ k := by positivity
        have hrq : ((2 : ℚ) ^ 53) ≤ (r : ℚ) := by exact_mod_cast hr53
        have hr0 : (0 : ℚ) < (r : ℚ) := lt_of_lt_of_le (by positivity) hrq
        have hstq : (st : ℚ) ≤ 1 := by exact_mod_cast hst
        have hst0 : (0 : ℚ) ≤ (st : ℚ) := by positivity
        -- the rounded value `y` lies between `ρ` and `ρ'`
        have hy : sgn false * (((2 * r + st : Nat) : ℚ) / ((2 ^ (k + 1) : Nat) : ℚ))
            = ((r : ℚ) + (st : ℚ) / 2) / 2 ^ k := by
          rw [sgn_false, one_mul]
          push_cast
          rw [pow_succ]
          field_simp
          ring
        have hρ0 : 0 < (r : ℚ) / 2 ^ k := div_pos hr0 hq
        have hy1 : (r : ℚ) / 2 ^ k ≤ ((r : ℚ) + (st : ℚ) / 2) / 2 ^ k :=
          div_le_div_of_nonneg_right (by linarith) (le_of_lt hq)
        have hy2 : ((r : ℚ) + (st : ℚ) / 2) / 2 ^ k ≤ ((r : ℚ) + 1) / 2 ^ k :=
          div_le_div_of_nonneg_right (by linarith) (le_of_lt hq)
        have hρ' : ((r : ℚ) + 1) / 2 ^ k ≤ (1 + 1 / 2 ^ 53) * ((r : ℚ) / 2 ^ k) := by
          rw [← mul_div_assoc]
          apply div_le_div_of_nonneg_right _ (le_of_lt hq)
          have : (1 : ℚ) ≤ 1 / 2 ^ 53 * (r : ℚ) := by
            rw [one_div_mul_eq_div, le_div_iff₀ (by positivity)]
            linarith
          linarith
        have hρ'2 : ((r : ℚ) + 1) / 2 ^ k ≤ 2 * ((r : ℚ) / 2 ^ k) := by
          have : (1 + 1 / 2 ^ 53 : ℚ) ≤ 2 := by norm_num
          have := mul_le_mul_of_nonneg_right this (le_of_lt hρ0)
          linarith
        generalize (r : ℚ) / 2 ^ k = ρ at b1 hρ0 hy1 hρ' hρ'2
        generalize ((r : ℚ) + 1) / 2 ^ k = ρ' at b2 hy2 hρ' hρ'2
        generalize hyy : ((r : ℚ) + (st : ℚ) / 2) / 2 ^ k = y at hy hy1 hy2
        have hρ'0 : 0 < ρ' := lt_of_lt_of_le hρ0 (le_trans hy1 hy2)
        -- the range of `y`
        have hρ'lo : (2 : ℚ) ^ (-300 : Int) < ρ' := by
          by_contra hc
          have hc' : ρ' ≤ (2 : ℚ) ^ (-300 : Int) := not_lt.mp hc
          have := pow_le_pow_left₀ (le_of_lt hρ'0) hc' 2
          have e : ((2 : ℚ) ^ (-300 : Int)) ^ 2 = (2 : ℚ) ^ (-600 : Int) := by
            rw [← zpow_natCast, ← zpow_mul]; norm_num
          rw [e] at this
          linarith
        have hρhi : ρ ≤ (2 : ℚ) ^ (300 : Int) := by
          by_contra hc
          have hc' : (2 : ℚ) ^ (300 : Int) < ρ := not_le.mp hc
          have := pow_lt_pow_left₀ hc' (le_of_lt (two_zpow_pos _)) (by norm_num : 2 ≠ 0)
          have e : ((2 : ℚ) ^ (300 : Int)) ^ 2 = (2 : ℚ) ^ (600 : Int) := by
            rw [← zpow_natCast, ← zpow_mul]; norm_num
          rw [e] at this
          linarith
        have hy0 : 0 < y := lt_of_lt_of_le hρ0 hy1
        have hry : InRange y := by
          right
          rw [abs_of_pos hy0]
          constructor
          · have e1 : (2 : ℚ) ^ (-1022 : Int) ≤ (2 : ℚ) ^ (-300 : Int) / 2 := by
              have : (2 : ℚ) ^ (-300 : Int) / 2 = (2 : ℚ) ^ (-301 : Int) := by
                rw [show (-301 : Int) = -300 + (-1) by norm_num, two_zpow_add]; norm_num
              rw [this]; exact two_zpow_le (by norm_num)
            generalize (2 : ℚ) ^ (-1022 : Int) = Z at e1 ⊢
            generalize (2 : ℚ) ^ (-300 : Int) = Y at e1 hρ'lo
            linarith
          · have e1 : 2 * (2 : ℚ) ^ (300 : Int) ≤ (2 : ℚ) ^ (1000 : Int) := by
              have : 2 * (2 : ℚ) ^ (300 : Int) = (2 : ℚ) ^ (301 : Int) := by
                rw [show (301 : Int) = 300 + 1 by norm_num, two_zpow_add]; norm_num
              rw [this]; exact two_zpow_le (by norm_num)
            generalize (2 : ℚ) ^ (1000 : Int) = Z at e1 ⊢
            generalize (2 : ℚ) ^ (300 : Int) = Y at e1 hρhi
            linarith
        have R := round_val false (by positivity : 0 < 2 ^ (k + 1)) hy hry
        obtain ⟨c1, c2⟩ := Rounds.bounds R (le_of_lt hy0)
        generalize ext (round false (2 * r + st) (2 ^ (k + 1))) = z at c1 c2 ⊢
        generalize hu : (1 / 2 ^ 53 : ℚ) = u at c1 c2 hρ' ⊢
        have hu0 : 0 ≤ u := by rw [← hu]; positivity
        have hu1 : u ≤ 1 / 2 := by rw [← hu]; norm_num
        have hz0 : 0 ≤ z := le_trans (mul_nonneg (by linarith) (le_of_lt hy0)) c1
        have hzl : (1 - u) * ρ ≤ z :=
          le_trans (mul_le_mul_of_nonneg_left hy1 (by linarith)) c1
        have hzu : z ≤ (1 + u) * ((1 + u) * ρ) :=
          le_trans c2 (mul_le_mul_of_nonneg_left (le_trans hy2 hρ') (by linarith))
        refine ⟨R.1, hz0, ?_, ?_⟩
        · -- `x < ρ' ^ 2 ≤ (1 + u) ^ 2 * ρ ^ 2`
          have h1 : x ≤ ((1 + u) * ρ) ^ 2 :=
            le_trans (le_of_lt b2) (pow_le_pow_left₀ (le_of_lt hρ'0) hρ' 2)
          have h2 : ((1 - u) * ρ) ^ 2 ≤ z ^ 2 :=
            pow_le_pow_left₀ (mul_nonneg (by linarith) (le_of_lt hρ0)) hzl 2
          have h3 : (1 - u) ^ 2 * ((1 + u) ^ 2) ≤ 1 := by
            have : (1 - u) * (1 + u) ≤ 1 := by nlinarith
            have h0 : 0 ≤ (1 - u) * (1 + u) := mul_nonneg (by linarith) (by linarith)
            have := pow_le_one₀ h0 this (n := 2)
            calc (1 - u) ^ 2 * (1 + u) ^ 2 = ((1 - u) * (1 + u)) ^ 2 := by ring
              _ ≤ 1 := this
          have hρ2 : 0 ≤ ρ ^ 2 := sq_nonneg _
          have h4 : (1 - u) ^ 2 * x ≤ ρ ^ 2 := by
            have a1 : (1 - u) ^ 2 * x ≤ (1 - u) ^ 2 * ((1 + u) * ρ) ^ 2 :=
              mul_le_mul_of_nonneg_left h1 (sq_nonneg _)
            have a2 : (1 - u) ^ 2 * ((1 + u) * ρ) ^ 2 = ((1 - u) ^ 2 * (1 + u) ^ 2) * ρ ^ 2 := by
              ring
            have a3 : ((1 - u) ^ 2 * (1 + u) ^ 2) * ρ ^ 2 ≤ 1 * ρ ^ 2 :=
              mul_le_mul_of_nonneg_right h3 hρ2
            linarith
          calc (1 - u) ^ 4 * x = (1 - u) ^ 2 * ((1 - u) ^ 2 * x) := by ring
            _ ≤ (1 - u) ^ 2 * ρ ^ 2 := mul_le_mul_of_nonneg_left h4 (sq_nonneg _)
            _ = ((1 - u) * ρ) ^ 2 := by ring
            _ ≤ z ^ 2 := h2
        · have h1 : z ^ 2 ≤ ((1 + u) * ((1 + u) * ρ)) ^ 2 := pow_le_pow_left₀ hz0 hzu 2
          have h2 : (1 + u) ^ 4 * ρ ^ 2 ≤ (1 + u) ^ 4 * x :=
            mul_le_mul_of_nonneg_left b1 (by positivity)
          calc z ^ 2 ≤ ((1 + u) * ((1 + u) * ρ)) ^ 2 := h1
            _ = (1 + u) ^ 4 * ρ ^ 2 := by ring
            _ ≤ (1 + u) ^ 4 * x := h2

end F64

/-- The sum of the squared deviations from `c` is the sum of the squared
deviations from `a` plus the terms of the shift. -/
theorem sum_sq_shift (a c : ℚ) : ∀ l : List Int,
    (l.map (fun x : Int => ((x : ℚ) - c) ^ 2)).sum
      = (l.map (fun x : Int => ((x : ℚ) - a) ^ 2)).sum
        + 2 * (a - c) * ((l.sum : ℚ) - (l.length : ℚ) * a) + (l.length : ℚ) * (a - c) ^ 2 := by
  intro l
  induction l with
  | nil => simp
  | cons v l ih =>
    simp only [List.map_cons, List.sum_cons, List.length_cons, Int.cast_add, Nat.cast_add,
      Nat.cast_one]
    rw [ih]
    ring

/-- The mean of the squared deviations from `c` is the population variance
plus the square of the distance of `c` from the mean. -/
theorem mean_sq_dev (d : List Int) (hne : d ≠ []) (c : ℚ) :
    (d.map (fun x : Int => ((x : ℚ) - c) ^ 2)).sum / (d.length : ℚ)
      = populationVariance d + (exactMean d - c) ^ 2 := by
  have hlen : 0 < d.length := List.length_pos.mpr hne
  have hlenq : (d.length : ℚ) ≠ 0 := by exact_mod_cast (ne_of_gt hlen)
  rw [sum_sq_shift (exactMean d) c d]
  unfold populationVariance
  have h0 : (d.sum : ℚ) - (d.length : ℚ) * exactMean d = 0 := by
    unfold exactMean; field_simp
  rw [h0]
  field_simp
  ring

/-- The accuracy of `mean_and_std` when the sum is accumulated exactly. -/
theorem mean_and_std_bounds (d : List Int) (hne : d ≠ []) (B : Nat)
    (hB : ∀ x ∈ d, x.natAbs ≤ B) (hnB : d.length * B ≤ 2 ^ 53) (hn : d.length ≤ 2 ^ 53) :
    ∃ m s, mean_and_std d = .ok (m, s) ∧ m.isFinite = true ∧ s.isFinite = true
      ∧ |F64.toRat m - exactMean d| ≤ 1 / 2 ^ 53 * |exactMean d|
      ∧ 0 ≤ F64.toRat s
      ∧ (1 - 1 / 2 ^ 53) ^ (d.length + 8) * populationVariance d ≤ F64.toRat s ^ 2
      ∧ F64.toRat s ^ 2 ≤ (1 + 1 / 2 ^ 53) ^ (d.length + 8)
          * (populationVariance d + (1 / 2 ^ 53 * exactMean d) ^ 2) := by
  have hlen : 0 < d.length := List.length_pos.mpr hne
  have hlenq : (0 : ℚ) < (d.length : ℚ) := by exact_mod_cast hlen
  have hlen1 : (1 : ℚ) ≤ (d.length : ℚ) := by exact_mod_cast hlen
  have hB1 : B ≤ 2 ^ 53 := by
    have : B ≤ d.length * B := Nat.le_mul_of_pos_left _ hlen
    omega
  have hBq : (B : ℚ) ≤ (2 : ℚ) ^ (53 : Int) := by
    have e : (2 : ℚ) ^ (53 : Int) = ((2 ^ 53 : Nat) : ℚ) := F64.two_zpow_nat 53
    rw [e]; exact_mod_cast hB1
  have hnq : (d.length : ℚ) ≤ (2 : ℚ) ^ (53 : Int) := by
    have e : (2 : ℚ) ^ (53 : Int) = ((2 ^ 53 : Nat) : ℚ) := F64.two_zpow_nat 53
    rw [e]; exact_mod_cast hn
  obtain ⟨m, v, hms, hm, hv⟩ : ∃ m v, mean_and_std d = .ok (m, F64.sqrt v)
      ∧ m = F64.div (d.foldl (fun acc x => F64.add acc (F64.ofInt x)) F64.zero)
          (F64.ofInt d.length)
      ∧ v = F64.div (d.foldl (fun acc x => F64.add acc
            (F64.mul (F64.sub (F64.ofInt x) m) (F64.sub (F64.ofInt x) m))) F64.zero)
          (F64.ofInt d.length) := ⟨_, _, mean_and_std_eq d hne, rfl, rfl⟩
  obtain ⟨fn, en⟩ := F64.ofInt_small (i := (d.length : Int)) (by omega)
  have en' : F64.ext (F64.ofInt (d.length : Int)) = (d.length : ℚ) := by rw [en]; simp
  have hn0 : F64.ext (F64.ofInt (d.length : Int)) ≠ 0 := by rw [en']; exact ne_of_gt hlenq
  -- the mean
  obtain ⟨Rm, hK⟩ := mean_rounds d hne B hB hnB hn
  rw [← hm] at Rm hK
  obtain ⟨fm, hme, _⟩ := Rm
  have hμB := exactMean_abs_le hne hB
  generalize hμ : exactMean d = μ at hme hμB ⊢
  have hu0 : (0 : ℚ) ≤ 1 / 2 ^ 53 := by positivity
  have hu1 : (1 / 2 ^ 53 : ℚ) ≤ 1 / 2 := by norm_num
  have hmB : |F64.ext m| ≤ (2 : ℚ) ^ (54 : Int) := by
    have h1 : |F64.ext m| ≤ |F64.ext m - μ| + |μ| := by
      have := abs_add (F64.ext m - μ) μ
      simpa using this
    have h2 : 1 / 2 ^ 53 * |μ| ≤ 1 / 2 * |μ| :=
      mul_le_mul_of_nonneg_right hu1 (abs_nonneg _)
    have e : (2 : ℚ) ^ (54 : Int) = 2 * (2 : ℚ) ^ (53 : Int) := by
      rw [show (54 : Int) = 1 + 53 by norm_num, F64.two_zpow_add]; norm_num
    rw [e]
    have := abs_nonneg μ
    linarith
  -- the accumulated squared deviations
  have hz : F64.ext F64.zero = 0 := by simp [F64.zero, F64.ext]
  obtain ⟨fa, hP, hPk, a1, a2⟩ := variance_bounds fm rfl hK hmB d F64.zero 0 0
    (fun x hx => le_trans (hB x hx) hB1) (by omega) rfl (Or.inl rfl) (by simp)
    (by rw [hz]; simp) (by rw [hz]; simp)
  simp only [zero_add] at hP hPk a1 a2
  have hPn := mean_sq_dev d hne (F64.ext m)
  rw [hμ] at hPn
  generalize (d.map (fun x : Int => ((x : ℚ) - F64.ext m) ^ 2)).sum = P at hP hPk a1 a2 hPn
  generalize hacc : d.foldl (fun acc x => F64.add acc
      (F64.mul (F64.sub (F64.ofInt x) m) (F64.sub (F64.ofInt x) m))) F64.zero = acc
    at hv fa a1 a2
  have hP0 : 0 ≤ P := by
    rcases hP with h | h
    · rw [h]
    · exact le_trans (le_of_lt (F64.two_zpow_pos _)) h
  obtain ⟨pl, pu⟩ := pow_bounds (d.length + 3) (by omega)
  have el : (1 - 1 / 2 ^ 53 : ℚ) ^ (d.length + 8)
      = (1 - 1 / 2 ^ 53) ^ 4 * ((1 - 1 / 2 ^ 53) * (1 - 1 / 2 ^ 53) ^ (d.length + 3)) := by
    rw [show d.length + 8 = 4 + (1 + (d.length + 3)) by ring, pow_add, pow_add, pow_one]
  have eu : (1 + 1 / 2 ^ 53 : ℚ) ^ (d.length + 8)
      = (1 + 1 / 2 ^ 53) ^ 4 * ((1 + 1 / 2 ^ 53) * (1 + 1 / 2 ^ 53) ^ (d.length + 3)) := by
    rw [show d.length + 8 = 4 + (1 + (d.length + 3)) by ring, pow_add, pow_add, pow_one]
  rw [el, eu]
  generalize (1 - 1 / 2 ^ 53 : ℚ) ^ (d.length + 3) = L at a1 pl ⊢
  have hU0 : (0 : ℚ) ≤ (1 + 1 / 2 ^ 53) ^ (d.length + 3) := by positivity
  generalize (1 + 1 / 2 ^ 53 : ℚ) ^ (d.length + 3) = U at a2 pu hU0 ⊢
  have hL0 : 0 ≤ L := le_trans (by norm_num) pl
  have ha0 : 0 ≤ F64.ext acc := le_trans (mul_nonneg hL0 hP0) a1
  -- the variance
  have hval0 : 0 ≤ F64.ext acc / (d.length : ℚ) := div_nonneg ha0 (le_of_lt hlenq)
  have hvl : L * (P / (d.length : ℚ)) ≤ F64.ext acc / (d.length : ℚ) := by
    rw [← mul_div_assoc]
    exact div_le_div_of_nonneg_right a1 (le_of_lt hlenq)
  have hvu : F64.ext acc / (d.length : ℚ) ≤ U * (P / (d.length : ℚ)) := by
    rw [← mul_div_assoc]
    exact div_le_div_of_nonneg_right a2 (le_of_lt hlenq)
  have hvhi : F64.ext acc / (d.length : ℚ) ≤ (2 : ℚ) ^ (167 : Int) := by
    have i0 : F64.ext acc / (d.length : ℚ) ≤ F64.ext acc := div_le_self ha0 hlen1
    have e1 : 16 * ((2 : ℚ) ^ (53 : Int) * (2 : ℚ) ^ (110 : Int)) = (2 : ℚ) ^ (167 : Int) := by
      have : (16 : ℚ) = (2 : ℚ) ^ (4 : Int) := by norm_num
      rw [this, ← F64.two_zpow_add, ← F64.two_zpow_add]
      norm_num
    have i1 : U * P ≤ 16 * P := mul_le_mul_of_nonneg_right pu hP0
    have i2 : (d.length : ℚ) * (2 : ℚ) ^ (110 : Int)
        ≤ (2 : ℚ) ^ (53 : Int) * (2 : ℚ) ^ (110 : Int) :=
      mul_le_mul_of_nonneg_right hnq (le_of_lt (F64.two_zpow_pos _))
    generalize (2 : ℚ) ^ (167 : Int) = Z at e1 ⊢
    generalize (2 : ℚ) ^ (53 : Int) * (2 : ℚ) ^ (110 : Int) = Y at e1 i2
    generalize (d.length : ℚ) * (2 : ℚ) ^ (110 : Int) = X at hPk i2
    linarith
  have hvlo : P ≠ 0 → (2 : ℚ) ^ (-267 : Int) ≤ F64.ext acc / (d.length : ℚ) := by
    intro hPne
    have h : (2 : ℚ) ^ (-210 : Int) ≤ P := by
      rcases hP with h | h
      · exact absurd h hPne
      · exact h
    rw [le_div_iff₀ hlenq]
    have e1 : (2 : ℚ) ^ (-267 : Int) * (2 : ℚ) ^ (53 : Int)
        = 1 / 16 * (2 : ℚ) ^ (-210 : Int) := by
      have : (1 / 16 : ℚ) = (2 : ℚ) ^ (-4 : Int) := by norm_num
      rw [this, ← F64.two_zpow_add, ← F64.two_zpow_add]
      norm_num
    have i1 : (2 : ℚ) ^ (-267 : Int) * (d.length : ℚ)
        ≤ (2 : ℚ) ^ (-267 : Int) * (2 : ℚ) ^ (53 : Int) :=
      mul_le_mul_of_nonneg_left hnq (le_of_lt (F64.two_zpow_pos _))
    have i2 : 1 / 16 * P ≤ L * P := mul_le_mul_of_nonneg_right pl hP0
    generalize (2 : ℚ) ^ (-267 : Int) * (d.length : ℚ) = X at i1 ⊢
    generalize (2 : ℚ) ^ (-267 : Int) * (2 : ℚ) ^ (53 : Int) = Y at i1 e1
    generalize (2 : ℚ) ^ (-210 : Int) = Z at e1 h
    linarith
  have hv0' : P = 0 → F64.ext acc / (d.length : ℚ) = 0 := by
    intro h
    rw [h, mul_zero] at a2
    rw [le_antisymm a2 ha0]; simp
  have hrv : F64.InRange (F64.ext acc / (d.length : ℚ)) := by
    by_cases hPz : P = 0
    · exact Or.inl (hv0' hPz)
    · right
      rw [abs_of_nonneg hval0]
      exact ⟨le_trans (F64.two_zpow_le (by norm_num)) (hvlo hPz),
        le_trans hvhi (F64.two_zpow_le (by norm_num))⟩
  have Rv := F64.div_val fa fn hn0 (w := F64.ext acc / (d.length : ℚ)) (by rw [en']) hrv
  rw [← hv] at Rv
  obtain ⟨v1, v2⟩ := Rv.bounds hval0
  have hvr : F64.ext v = 0
      ∨ ((2 : ℚ) ^ (-600 : Int) ≤ F64.ext v ∧ F64.ext v ≤ (2 : ℚ) ^ (600 : Int)) := by
    by_cases hPz : P = 0
    · left
      rw [hv0' hPz, mul_zero] at v1 v2
      exact le_antisymm v2 v1
    · right
      have h1 := hvlo hPz
      constructor
      · have e1 : (2 : ℚ) ^ (-600 : Int) ≤ 1 / 2 * (2 : ℚ) ^ (-267 : Int) := by
          have : (1 / 2 : ℚ) = (2 : ℚ) ^ (-1 : Int) := by norm_num
          rw [this, ← F64.two_zpow_add]
          exact F64.two_zpow_le (by norm_num)
        have i1 : 1 / 2 * (F64.ext acc / (d.length : ℚ))
            ≤ (1 - 1 / 2 ^ 53) * (F64.ext acc / (d.length : ℚ)) :=
          mul_le_mul_of_nonneg_right (by norm_num) hval0
        generalize (2 : ℚ) ^ (-600 : Int) = Z at e1 ⊢
        generalize (2 : ℚ) ^ (-267 : Int) = Y at e1 h1
        linarith
      · have e1 : 2 * (2 : ℚ) ^ (167 : Int) ≤ (2 : ℚ) ^ (600 : Int) := by
          have : (2 : ℚ) = (2 : ℚ) ^ (1 : Int) := by norm_num
          nth_rewrite 1 [this]
          rw [← F64.two_zpow_add]
          exact F64.two_zpow_le (by norm_num)
        have i1 : (1 + 1 / 2 ^ 53) * (F64.ext acc / (d.length : ℚ))
            ≤ 2 * (F64.ext acc / (d.length : ℚ)) :=
          mul_le_mul_of_nonneg_right (by norm_num) hval0
        generalize (2 : ℚ) ^ (600 : Int) = Z at e1 ⊢
        generalize (2 : ℚ) ^ (167 : Int) = Y at e1 hvhi
        linarith
  obtain ⟨fs, hs0, s1, s2⟩ := F64.sqrt_rel v Rv.1 hvr
  have hdev : (μ - F64.ext m) ^ 2 ≤ (1 / 2 ^ 53 * μ) ^ 2 := by
    rw [← sq_abs (μ - F64.ext m), ← sq_abs (1 / 2 ^ 53 * μ), abs_mul, abs_of_nonneg hu0,
      abs_sub_comm]
    exact pow_le_pow_left₀ (abs_nonneg _) hme 2
  have hσ0 : 0 ≤ populationVariance d := by
    unfold populationVariance
    apply div_nonneg _ (le_of_lt hlenq)
    apply List.sum_nonneg
    intro y hy
    obtain ⟨x, _, rfl⟩ := List.mem_map.mp hy
    exact sq_nonneg _
  generalize populationVariance d = σ2 at hPn hσ0 ⊢
  generalize F64.ext acc / (d.length : ℚ) = val at hvl hvu v1 v2
  generalize P / (d.length : ℚ) = Pn at hvl hvu hPn
  generalize hu : (1 / 2 ^ 53 : ℚ) = u at *
  have h1u : 0 ≤ 1 - u := by linarith
  have h1v : 0 ≤ 1 + u := by linarith
  have hd0 : 0 ≤ (μ - F64.ext m) ^ 2 := sq_nonneg _
  refine ⟨m, F64.sqrt v, hms, fm, fs, ?_, ?_, ?_, ?_⟩
  · rw [F64.toRat_eq_ext fm]; exact hme
  · rw [F64.toRat_eq_ext fs]; exact hs0
  · rw [F64.toRat_eq_ext fs]
    have c4 : 0 ≤ (1 - u) ^ 4 := by positivity
    calc (1 - u) ^ 4 * ((1 - u) * L) * σ2
        ≤ (1 - u) ^ 4 * ((1 - u) * L) * Pn := by
          apply mul_le_mul_of_nonneg_left _ (mul_nonneg c4 (mul_nonneg h1u hL0))
          rw [hPn]; linarith
      _ = (1 - u) ^ 4 * ((1 - u) * (L * Pn)) := by ring
      _ ≤ (1 - u) ^ 4 * ((1 - u) * val) :=
          mul_le_mul_of_nonneg_left (mul_le_mul_of_nonneg_left hvl h1u) c4
      _ ≤ (1 - u) ^ 4 * F64.ext v := mul_le_mul_of_nonneg_left v1 c4
      _ ≤ _ := s1
  · rw [F64.toRat_eq_ext fs]
    have c4 : 0 ≤ (1 + u) ^ 4 := by positivity
    calc F64.ext (F64.sqrt v) ^ 2 ≤ (1 + u) ^ 4 * F64.ext v := s2
      _ ≤ (1 + u) ^ 4 * ((1 + u) * val) := mul_le_mul_of_nonneg_left v2 c4
      _ ≤ (1 + u) ^ 4 * ((1 + u) * (U * Pn)) :=
          mul_le_mul_of_nonneg_left (mul_le_mul_of_nonneg_left hvu h1v) c4
      _ = (1 + u) ^ 4 * ((1 + u) * U) * Pn := by ring
      _ ≤ (1 + u) ^ 4 * ((1 + u) * U) * (σ2 + (u * μ) ^ 2) := by
          apply mul_le_mul_of_nonneg_left _ (mul_nonneg c4 (mul_nonneg h1v hU0))
          rw [hPn]; linarith

/-- Two quotients of the same value round to doubles of the same value. -/
theorem ext_round_congr (s : Bool) {n1 d1 n2 d2 : Nat} (h1 : 0 < d1) (h2 : 0 < d2)
    (h : (n1 : ℚ) / d1 = (n2 : ℚ) / d2) :
    F64.ext (F64.round s n1 d1) = F64.ext (F64.round s n2 d2) :=
  le_antisymm (F64.ext_round_mono s s h1 h2 (by rw [h]))
    (F64.ext_round_mono s s h2 h1 (by rw [h]))

/-- The population variance of a vector with the integer mean `M`. -/
theorem populationVariance_of_int_mean (d : List Int) (hne : d ≠ []) (M : Int)
    (hM : d.sum = M * d.length) :
    populationVariance d
      = (((d.map (fun x => (x - M) * (x - M))).sum.natAbs : Nat) : ℚ) / (d.length : ℚ) := by
  have hlen : 0 < d.length := List.length_pos.mpr hne
  have hlenq : (d.length : ℚ) ≠ 0 := by exact_mod_cast (ne_of_gt hlen)
  have hμ : exactMean d = (M : ℚ) := by
    unfold exactMean
    rw [hM]; push_cast; field_simp
  have hS0 := sum_sq_nonneg M d
  have hS : ((((d.map (fun x => (x - M) * (x - M))).sum.natAbs : Nat) : ℚ))
      = (((d.map (fun x => (x - M) * (x - M))).sum : Int) : ℚ) := by
    rw [Nat.cast_natAbs, abs_of_nonneg hS0]
  unfold populationVariance
  rw [hS, hμ]
  congr 1
  clear hS hS0 hM hμ hlenq hlen hne
  induction d with
  | nil => simp
  | cons v l ih =>
    simp only [List.map_cons, List.sum_cons, Int.cast_add]
    rw [ih]; push_cast; ring

/-- C13, as stated, fails: for the vector
`[1700000000000000000, 1700000000000000100]` `mean_and_std` returns the mean
`1700000000000000000` and the standard deviation `0`, while the mean is
`1700000000000000050` and the population standard deviation is `50`: the second
element converts to the same double as the first. -/
theorem mean_and_std_absorbs_deviation :
    mean_and_std [1700000000000000000, 1700000000000000100]
        = .ok (F64.ofInt 1700000000000000000, F64.zero)
      ∧ F64.toRat (F64.ofInt 1700000000000000000) = 1700000000000000000
      ∧ F64.toRat F64.zero = 0
      ∧ exactMean [1700000000000000000, 1700000000000000100] = 1700000000000000050
      ∧ populationVariance [1700000000000000000, 1700000000000000100] = 50 ^ 2 := by
  refine ⟨by decide!, ?_, ?_, ?_, ?_⟩
  · have : F64.ofInt 1700000000000000000 = F64.fin false 6640625000000000 8 := by decide!
    rw [this]
    simp only [F64.toRat, Bool.false_eq_true, if_false]
    norm_num
  · simp [F64.zero, F64.toRat]
  · simp only [exactMean, List.sum_cons, List.sum_nil, List.length_cons, List.length_nil]
    norm_num
  · simp only [populationVariance, exactMean, List.map_cons, List.map_nil, List.sum_cons,
      List.sum_nil, List.length_cons, List.length_nil]
    norm_num

/-- C13, amended: for every non-empty `d` of `n` integers of magnitude at most
`B` with `n * B ≤ 2 ^ 53` (the sum is then accumulated exactly),
`mean_and_std` returns finite doubles `(m, s)`; `m` is within the relative error
`2 ^ -53` of the exact mean `μ`; `s` is not negative and `s ^ 2` lies between
`(1 - 2 ^ -53) ^ (n + 8) * σ²` and
`(1 + 2 ^ -53) ^ (n + 8) * (σ² + (2 ^ -53 * μ) ^ 2)`, with `σ²` the population
variance (divisor `n`). When the mean is an integer and the sum of the squared
deviations stays within `2 ^ 53`, `m` is the exact mean and `s` is the square
root of the double nearest to `σ²`. `mean_and_std([1, 2, 3, 4, 5])` is
`(3.0, sqrt(2.0))`, and `sqrt(2.0)` is `6369051672525773 / 2 ^ 52`, within
`2 ^ -53` of the square root of two. -/
theorem mean_and_std_accuracy (d : List Int) (hne : d ≠ []) (B : Nat)
    (hB : ∀ x ∈ d, x.natAbs ≤ B) (hnB : d.length * B ≤ 2 ^ 53) (hn : d.length ≤ 2 ^ 53) :
    (∃ m s, mean_and_std d = .ok (m, s) ∧ m.isFinite = true ∧ s.isFinite = true
      ∧ |F64.toRat m - exactMean d| ≤ 1 / 2 ^ 53 * |exactMean d|
      ∧ 0 ≤ F64.toRat s
      ∧ (1 - 1 / 2 ^ 53) ^ (d.length + 8) * populationVariance d ≤ F64.toRat s ^ 2
      ∧ F64.toRat s ^ 2 ≤ (1 + 1 / 2 ^ 53) ^ (d.length + 8)
          * (populationVariance d + (1 / 2 ^ 53 * exactMean d) ^ 2)
      ∧ ∀ (M : Int) (D : Nat), d.sum = M * d.length → (∀ x ∈ d, (x - M).natAbs ≤ D) →
          d.length * (D * D) ≤ 2 ^ 53 →
          F64.toRat m = exactMean d
            ∧ ∃ v, s = F64.sqrt v ∧ v.isFinite = true
                ∧ ∀ a b : Nat, 0 < b → (a : ℚ) / b = populationVariance d →
                    F64.ext v = F64.ext (F64.round false a b))
      ∧ mean_and_std [1, 2, 3, 4, 5] = .ok (F64.ofInt 3, F64.sqrt (F64.ofInt 2))
      ∧ F64.sqrt (F64.ofInt 2) = F64.fin false 6369051672525773 (-52)
      ∧ (F64.toRat (F64.sqrt (F64.ofInt 2)) - 1 / 2 ^ 53) ^ 2 < 2
      ∧ 2 < (F64.toRat (F64.sqrt (F64.ofInt 2)) + 1 / 2 ^ 53) ^ 2 := by
  have hs : F64.sqrt (F64.ofInt 2) = F64.fin false 6369051672525773 (-52) := by decide!
  refine ⟨?_, by decide!, hs, ?_, ?_⟩
  · obtain ⟨m, s, hms, fm, fs, b1, b2, b3, b4⟩ := mean_and_std_bounds d hne B hB hnB hn
    refine ⟨m, s, hms, fm, fs, b1, b2, b3, b4, ?_⟩
    intro M D hM hD hnD
    have heq := mean_and_std_eq d hne
    rw [hms] at heq
    simp only [Except.ok.injEq, Prod.mk.injEq] at heq
    obtain ⟨e1, e2, e3, e4⟩ := mean_and_std_exact d hne M B D hM hB hD hnB hnD hn m _ heq.1 rfl
    have hlen : 0 < d.length := List.length_pos.mpr hne
    refine ⟨e2, _, ?_, e3, ?_⟩
    · rw [heq.2, ← heq.1]
    · intro a b hb hab
      rw [e4]
      apply ext_round_congr false hlen hb
      rw [hab, populationVariance_of_int_mean d hne M hM]
  · rw [hs]
    simp only [F64.toRat, Bool.false_eq_true, if_false]
    norm_num
  · rw [hs]
    simp only [F64.toRat, Bool.false_eq_true, if_false]
    norm_num

/-- An instance of `mean_and_std_accuracy`: the vector `[1, 2, 3, 4, 5]` with the
bound `5`; its mean is `3` and its population variance is `2`. -/
theorem mean_and_std_accuracy_witness :
    ([1, 2, 3, 4, 5] : List Int) ≠ []
      ∧ (∀ x ∈ ([1, 2, 3, 4, 5] : List Int), x.natAbs ≤ 5)
      ∧ ([1, 2, 3, 4, 5] : List Int).length * 5 ≤ 2 ^ 53
      ∧ ([1, 2, 3, 4, 5] : List Int).length ≤ 2 ^ 53
      ∧ ((∃ m s, mean_and_std [1, 2, 3, 4, 5] = .ok (m, s) ∧ m.isFinite = true
          ∧ s.isFinite = true
      ∧ |F64.toRat m - exactMean [1, 2, 3, 4, 5]| ≤ 1 / 2 ^ 53 * |exactMean [1, 2, 3, 4, 5]|
      ∧ 0 ≤ F64.toRat s
      ∧ (1 - 1 / 2 ^ 53) ^ (([1, 2, 3, 4, 5] : List Int).length + 8)
          * populationVariance [1, 2, 3, 4, 5] ≤ F64.toRat s ^ 2
      ∧ F64.toRat s ^ 2 ≤ (1 + 1 / 2 ^ 53) ^ (([1, 2, 3, 4, 5] : List Int).length + 8)
          * (populationVariance [1, 2, 3, 4, 5] + (1 / 2 ^ 53 * exactMean [1, 2, 3, 4, 5]) ^ 2)
      ∧ ∀ (M : Int) (D : Nat),
          ([1, 2, 3, 4, 5] : List Int).sum = M * ([1, 2, 3, 4, 5] : List Int).length →
          (∀ x ∈ ([1, 2, 3, 4, 5] : List Int), (x - M).natAbs ≤ D) →
          ([1, 2, 3, 4, 5] : List Int).length * (D * D) ≤ 2 ^ 53 →
          F64.toRat m = exactMean [1, 2, 3, 4, 5]
            ∧ ∃ v, s = F64.sqrt v ∧ v.isFinite = true
                ∧ ∀ a b : Nat, 0 < b → (a : ℚ) / b = populationVariance [1, 2, 3, 4, 5] →
                    F64.ext v = F64.ext (F64.round false a b))
      ∧ mean_and_std [1, 2, 3, 4, 5] = .ok (F64.ofInt 3, F64.sqrt (F64.ofInt 2))
      ∧ F64.sqrt (F64.ofInt 2) = F64.fin false 6369051672525773 (-52)
      ∧ (F64.toRat (F64.sqrt (F64.ofInt 2)) - 1 / 2 ^ 53) ^ 2 < 2
      ∧ 2 < (F64.toRat (F64.sqrt (F64.ofInt 2)) + 1 / 2 ^ 53) ^ 2) :=
  ⟨by decide, by decide, by decide, by decide,
    mean_and_std_accuracy [1, 2, 3, 4, 5] (by decide) 5 (by decide) (by decide) (by decide)⟩

/-! ## C14: the empty vector -/

/-- C14: `mean_and_std` fails exactly when the vector is empty, then with the
exception "The input vector is empty."; for every non-empty vector it returns a
pair. -/
theorem mean_and_std_fails_iff_empty (d : List Int) :
    ((∃ f, mean_and_std d = .error f) ↔ d = [])
      ∧ (d = [] → mean_and_std d = .error (.exception emptyInput))
      ∧ (d ≠ [] → ∃ m s, mean_and_std d = .ok (m, s)) := by
  have h1 : d = [] → mean_and_std d = .error (.exception emptyInput) := by
    rintro rfl; rfl
  have h2 : d ≠ [] → ∃ m s, mean_and_std d = .ok (m, s) :=
    fun hne => ⟨_, _, mean_and_std_eq d hne⟩
  refine ⟨⟨?_, fun h => ⟨_, h1 h⟩⟩, h1, h2⟩
  rintro ⟨f, hf⟩
  by_contra hne
  obtain ⟨m, s, hms⟩ := h2 hne
  rw [hms] at hf
  cases hf

/-- Instances of `mean_and_std_fails_iff_empty`: the empty vector and the vector
`[7]`. -/
theorem mean_and_std_fails_iff_empty_witness :
    (((∃ f, mean_and_std [] = .error f) ↔ ([] : List Int) = [])
      ∧ (([] : List Int) = [] → mean_and_std [] = .error (.exception emptyInput))
      ∧ (([] : List Int) ≠ [] → ∃ m s, mean_and_std [] = .ok (m, s)))
    ∧ (((∃ f, mean_and_std [7] = .error f) ↔ ([7] : List Int) = [])
      ∧ (([7] : List Int) = [] → mean_and_std [7] = .error (.exception emptyInput))
      ∧ (([7] : List Int) ≠ [] → ∃ m s, mean_and_std [7] = .ok (m, s)))
    ∧ mean_and_std [] = .error (.exception emptyInput)
    ∧ mean_and_std [7] = .ok (F64.ofInt 7, F64.zero) :=
  ⟨mean_and_std_fails_iff_empty [], mean_and_std_fails_iff_empty [7], by decide!, by decide!⟩

end TscTimer
